import Mathlib

/-!
# rawsock: `tcp6_hop_dst_frag.c`

A shallow embedding of the packet builder in `src/tcp6_hop_dst_frag.c`: the
fragment splitting loop of `main`, the send loop that slices the fragmentable
buffer, the option padder `option_pad`, the two passes that lay out an
extension header, and the checksum routines `checksum` and `tcp6_checksum`.

Conventions of the embedding.

* A C `int` is a Lean `Int`. Byte counts and indices are taken as mathematical
  integers; the one accumulator that can leave the range of `int`, `sum` in
  `checksum`, is checked against `INT_MAX`.
* `a % b` and `a / b` on C `int`s truncate towards zero: `Int.tmod`, `Int.tdiv`.
* A byte is a `Nat`; a store of a computed value into a `uint8_t` keeps the
  value modulo 256.
* The arrays `len[]` and `offset[]`, which `main` clears with `memset`, are
  functions from the index to the element, initially constant zero; a store is
  `arr_set`.
* A byte buffer that is filled front to back is given by the list of bytes
  stored; the buffer `buf` of `tcp6_checksum`, whose size matters, is a list of
  `IP_MAXPACKET` bytes and a store past its end gives `none`.
* A `while` loop whose trip count is not bounded by the text of the program
  takes a fuel argument and returns `none` when the fuel runs out.
-/

namespace Rawsock

/-! ## Constants (source lines 60-71) -/

/-- Ethernet header length. -/
def ETH_HDRLEN : Int := 14
/-- IPv6 header length. -/
def IP6_HDRLEN : Int := 40
/-- Hop-by-hop header length, excluding options. -/
def HOP_HDRLEN : Int := 2
/-- Destination header length, excluding options. -/
def DST_HDRLEN : Int := 2
/-- TCP header length, excluding options data. -/
def TCP_HDRLEN : Int := 20
/-- IPv6 fragment header length. -/
def FRG_HDRLEN : Int := 8
/-- Maximum number of packet fragments: the size of `len[]` and `offset[]`. -/
def MAX_FRAGS : Nat := 3119
/-- The size of the scratch buffers, from `netinet/ip.h`. -/
def IP_MAXPACKET : Nat := 65535

/-! ## The fragment splitting loop (source lines 390-420) -/

/-- The store `arr[k] = v` into a C array held as a function. -/
def arr_set (arr : Nat → Int) (k : Nat) (v : Int) : Nat → Int :=
  fun j => if j = k then v else arr j

/-- The variables of `main` that the splitting loop reads and writes. -/
structure FragState where
  /-- The fragment index `i`. -/
  i : Nat
  /-- The index `c` into the fragmentable buffer. -/
  c : Int
  /-- The array `len[MAX_FRAGS]`. -/
  len : Nat → Int
  /-- The array `offset[MAX_FRAGS]`. -/
  offset : Nat → Int

/-- The state on entry to the loop: both arrays cleared, `i = 0`, `c = 0`. -/
def frag_init : FragState :=
  { i := 0, c := 0, len := fun _ => 0, offset := fun _ => 0 }

/-- The inner loop `while ((len[i]%8) > 0) { len[i]--; c--; }` on the pair
`(len[i], c)`. The remainder is at most 7 and drops by one each turn, so the
seven turns that `frag_step` grants always reach the exit test. -/
def round_down : Nat → Int → Int → Int × Int
  | 0, l, c => (l, c)
  | fuel + 1, l, c =>
    if l.tmod 8 > 0 then round_down fuel (l - 1) (c - 1) else (l, c)

/-- One turn of the body of `while (c < fragbufferlen)`. -/
def frag_step (mtu hoplen fragbufferlen : Int) (s : FragState) : FragState :=
  let l0 : Int :=
    if (fragbufferlen - s.c) > (mtu - IP6_HDRLEN - hoplen - FRG_HDRLEN) then
      mtu - IP6_HDRLEN - hoplen - FRG_HDRLEN
    else
      fragbufferlen - s.c
  let c0 : Int := s.c + l0
  let lc : Int × Int :=
    if c0 < (fragbufferlen - 1) then round_down 7 l0 c0 else (l0, c0)
  { i := s.i + 1
    c := lc.2
    len := arr_set s.len s.i lc.1
    offset := arr_set s.offset (s.i + 1) ((lc.1).tdiv 8 + s.offset s.i) }

/-- The loop `while (c < fragbufferlen) { ... }`, run for at most `fuel` turns. -/
def frag_loop (mtu hoplen fragbufferlen : Int) : Nat → FragState → Option FragState
  | 0, s => if s.c < fragbufferlen then none else some s
  | fuel + 1, s =>
    if s.c < fragbufferlen then
      frag_loop mtu hoplen fragbufferlen fuel (frag_step mtu hoplen fragbufferlen s)
    else some s

/-- The plan `main` computes. A turn with index `i` stores `len[i]` and
`offset[i+1]`, so at most `MAX_FRAGS - 1` turns stay inside the two arrays;
`none` means the loop does not finish within them. -/
def fragment_plan (mtu hoplen fragbufferlen : Int) : Option FragState :=
  frag_loop mtu hoplen fragbufferlen (MAX_FRAGS - 1) frag_init

/-- The number of frames: `nframes = i` after the loop. -/
def FragState.nframes (s : FragState) : Nat := s.i

/-- The bytes `memcpy (ether_frame + c, fragbuffer + (offset[i] * 8), len[i])`
copies into frame `i` (source line 658). -/
def frag_slice (fragbuffer : List Nat) (plan : FragState) (i : Nat) : List Nat :=
  (fragbuffer.drop (plan.offset i * 8).toNat).take (plan.len i).toNat

/-- The slices of all frames, in the order the send loop emits them, joined. -/
def reassemble (fragbuffer : List Nat) (plan : FragState) : List Nat :=
  (List.range plan.nframes).flatMap (frag_slice fragbuffer plan)

/-! ## The option padder `option_pad` (source lines 835-869) -/

/-- The search loop of `option_pad`:
`needpad = 0; while (((*indx + needpad) % x) != y) { needpad++; }`.
A divisor `x = 0` traps in C and gives `none`, as does running out of fuel. -/
def needpad_loop (indx x y : Int) : Nat → Int → Option Int
  | 0, _ => none
  | fuel + 1, needpad =>
    if x = 0 then none
    else if (indx + needpad).tmod x ≠ y then needpad_loop indx x y fuel (needpad + 1)
    else some needpad

/-- What one call of `option_pad` leaves behind. -/
structure PadResult where
  /-- The padding need `needpad` found by the search loop. -/
  needpad : Int
  /-- The value of `*indx` on return. -/
  indx : Int
  /-- The value of `*c` on return. -/
  c : Int
  /-- The bytes stored into `padding`, in order, the first one at the value
  `*c` had on entry. -/
  bytes : List Nat
deriving DecidableEq

/-- The function `option_pad (&indx, padding, &c, x, y)`. The stores go to
consecutive positions of `padding` starting at `*c`, so the buffer is
represented by the list of bytes stored. `padding[*c] = needpad - 2` is a
store into a `uint8_t`. -/
def option_pad (fuel : Nat) (indx c x y : Int) : Option PadResult :=
  match needpad_loop indx x y fuel 0 with
  | none => none
  | some needpad =>
    if needpad = 1 then
      some { needpad := needpad, indx := indx + 1, c := c + 1, bytes := [0] }
    else if needpad > 1 then
      some { needpad := needpad
             indx := indx + 1 + 1 + (needpad - 2)
             c := c + 1 + 1 + (needpad - 2)
             bytes := [1, ((needpad - 2) % 256).toNat] ++ List.replicate (needpad - 2).toNat 0 }
    else
      some { needpad := needpad, indx := indx, c := c, bytes := [] }

/-! ## Extension header layout: the size pass (source lines 215-251, 284-320) -/

/-- One option of an extension header: the alignment requirement `x*N + y`
(`hbh_x[i]`, `hbh_y[i]`, resp. `dst_x[i]`, `dst_y[i]`) and the encoded bytes of
the option, the first `optlen[i]` bytes of `hbh_options[i]`, resp.
`dst_options[i]`. -/
structure ExtOption where
  /-- The modulus of the alignment requirement. -/
  x : Int
  /-- The residue of the alignment requirement. -/
  y : Int
  /-- The encoded option: type, length and data bytes. -/
  data : List Nat
deriving DecidableEq

/-- The length `hbh_optlen[i]`, resp. `dst_optlen[i]`. -/
def ExtOption.optlen (o : ExtOption) : Int := o.data.length

/-- The loop `while ((indx % x) != y) { indx++; }` of the size pass. -/
def align_loop (x y : Int) : Nat → Int → Option Int
  | 0, _ => none
  | fuel + 1, indx =>
    if x = 0 then none
    else if indx.tmod x ≠ y then align_loop x y fuel (indx + 1)
    else some indx

/-- The loop `for (i=0; i<nopt; i++)` of the size pass: align, then add the
length of option `i`. -/
def size_opts (fuel : Nat) : List ExtOption → Int → Option Int
  | [], indx => some indx
  | o :: rest, indx =>
    match align_loop o.x o.y fuel indx with
    | none => none
    | some a => size_opts fuel rest (a + o.optlen)

/-- The loop that adds up `opt_totlen`. -/
def opt_totlen (opts : List ExtOption) : Int :=
  (opts.map ExtOption.optlen).sum

/-- What the size pass computes for one extension header. -/
structure ExtSize where
  /-- The total length of the options without padding. -/
  opt_totlen : Int
  /-- The total of alignment padding and end padding. -/
  optpadlen : Int
  /-- The `uint8_t` field `hdr_len` of the header struct. -/
  hdr_len : Nat
deriving DecidableEq

/-- The size pass over the options of one extension header; `hdrlen` is
`HOP_HDRLEN`, resp. `DST_HDRLEN`. With no option the struct field `hdr_len`
is never assigned nor read; it is shown as 0. -/
def ext_size_pass (hdrlen : Int) (fuel : Nat) (opts : List ExtOption) : Option ExtSize :=
  if opts.length > 0 then
    match size_opts fuel opts (0 + hdrlen) with
    | none => none
    | some a =>
      match align_loop 8 0 fuel a with
      | none => none
      | some indx =>
        let i : Int := (indx - 8).tdiv 8
        let i : Int := if i < 0 then 0 else i
        some { opt_totlen := opt_totlen opts
               optpadlen := indx - hdrlen - opt_totlen opts
               hdr_len := (i % 256).toNat }
  else
    some { opt_totlen := 0, optpadlen := 0, hdr_len := 0 }

/-- The size pass for the hop-by-hop header (source lines 215-251). -/
def hop_size_pass (fuel : Nat) (hbh : List ExtOption) : Option ExtSize :=
  ext_size_pass HOP_HDRLEN fuel hbh

/-- The size pass for the destination header (source lines 284-320). -/
def dst_size_pass (fuel : Nat) (dst : List ExtOption) : Option ExtSize :=
  ext_size_pass DST_HDRLEN fuel dst

/-- The length of the hop-by-hop header, options and padding:
`hoplen` (source lines 383-388). -/
def hoplen (hbh : List ExtOption) (sz : ExtSize) : Int :=
  if hbh.length > 0 then HOP_HDRLEN + sz.opt_totlen + sz.optpadlen else 0

/-- The length of the destination header, options and padding:
`dstlen` (source lines 368-373). -/
def dstlen (dst : List ExtOption) (sz : ExtSize) : Int :=
  if dst.length > 0 then DST_HDRLEN + sz.opt_totlen + sz.optpadlen else 0

/-! ## Extension header layout: the write pass (source lines 540-563, 613-635) -/

/-- The position and output of a write pass: the header index `indx`, the
buffer index `c`, and the bytes stored so far from the entry value of `c` on. -/
structure WriteState where
  /-- The index within the extension header. -/
  indx : Int
  /-- The index into the buffer being filled. -/
  c : Int
  /-- The bytes stored, in order. -/
  bytes : List Nat
deriving DecidableEq

/-- The loop `for (j=0; j<nopt; j++)` of the write pass: `option_pad`, then
`memcpy` of option `j`. -/
def write_opts (fuel : Nat) : List ExtOption → WriteState → Option WriteState
  | [], w => some w
  | o :: rest, w =>
    match option_pad fuel w.indx w.c o.x o.y with
    | none => none
    | some p =>
      write_opts fuel rest
        { indx := p.indx + o.optlen
          c := p.c + o.optlen
          bytes := w.bytes ++ p.bytes ++ o.data }

/-- The write pass for one extension header, entered with buffer index `c`
and `indx = 0`; `hdr` holds the `hdrlen` bytes of the header struct
(`nxt_hdr`, `hdr_len`). -/
def ext_write_pass (hdrlen : Int) (fuel : Nat) (opts : List ExtOption) (hdr : List Nat)
    (c : Int) : Option WriteState :=
  if opts.length > 0 then
    match write_opts fuel opts { indx := 0 + hdrlen, c := c + hdrlen, bytes := hdr } with
    | none => none
    | some w =>
      match option_pad fuel w.indx w.c 8 0 with
      | none => none
      | some p => some { indx := p.indx, c := p.c, bytes := w.bytes ++ p.bytes }
  else
    some { indx := 0, c := c, bytes := [] }

/-! ## The send loop: frame length (source lines 579-662) -/

/-- The value of `frame_length` for frame `i`: the index `c` after the Ethernet
header, the IPv6 header, the hop-by-hop write pass, the fragment header when
`nframes > 1`, and the slice of `len[i]` bytes. -/
def frame_length (fuel : Nat) (hbh : List ExtOption) (hophdr : List Nat) (plan : FragState)
    (i : Nat) : Option Int :=
  let c : Int := 0
  let c : Int := c + ETH_HDRLEN
  let c : Int := c + IP6_HDRLEN
  match ext_write_pass HOP_HDRLEN fuel hbh hophdr c with
  | none => none
  | some w =>
    let c : Int := w.c
    let c : Int := if plan.nframes > 1 then c + FRG_HDRLEN else c
    let c : Int := c + plan.len i
    some c

/-! ## The inputs fixed in `main`, and inputs used as examples -/

/-- The hop-by-hop option of `main`: router alert, alignment `2n + 0`
(source lines 203-213). -/
def router_alert : ExtOption :=
  { x := 2, y := 0, data := [5, 2, 0, 5] }

/-- The destination option of `main`: ILNP nonce, alignment `4n + 2`
(source lines 261-282). -/
def ilnp_nonce : ExtOption :=
  { x := 4, y := 2, data := [139, 12, 4, 35, 229, 0, 79, 50, 211, 23, 156, 170, 102, 116] }

/-- A fragmentable buffer of 1445 bytes, byte `k` holding `k % 256`: the
16-byte destination header and the 20-byte TCP header of `main` followed by a
payload file of 1409 bytes give this length. -/
def fragbuffer_1445 : List Nat :=
  (List.range 1445).map (fun k => k % 256)

/-- An option of 256 bytes, the capacity `MAX_HBHOPTLEN` of one option buffer:
type 30, data length 254. It may start anywhere (`1n + 0`). -/
def long_option : ExtOption :=
  { x := 1, y := 0, data := [30, 254] ++ List.replicate 254 0 }

/-- Nine options of 256 bytes each; `MAX_HBHOPTIONS` allows ten. -/
def nine_long_options : List ExtOption :=
  List.replicate 9 long_option

/-- The sum `len[0] + ... + len[i-1]`. -/
def len_sum (plan : FragState) (i : Nat) : Int :=
  ((List.range i).map plan.len).sum

/-! ## The checksum routine `checksum` (source lines 705-728) -/

/-- The byte order of the machine the program runs on. -/
inductive ByteOrder where
  | little
  | big
deriving DecidableEq

/-- The value a `uint16_t` load yields from two consecutive bytes of memory. -/
def load16 : ByteOrder → Nat → Nat → Nat
  | ByteOrder.little, b0, b1 => b0 + 256 * b1
  | ByteOrder.big, b0, b1 => 256 * b0 + b1

/-- The two bytes a `uint16_t` of value `v` occupies in memory. -/
def store16 : ByteOrder → Int → List Nat
  | ByteOrder.little, v => [(v % 256).toNat, (v / 256 % 256).toNat]
  | ByteOrder.big, v => [(v / 256 % 256).toNat, (v % 256).toNat]

/-- The largest value of an `int`. -/
def INT_MAX : Int := 2147483647

/-- The summing part of `checksum`, on the `nleft` bytes from `w` on:
`while (nleft > 1) { sum += *w++; nleft -= sizeof (uint16_t); }` and then, if
`nleft == 1`, `*(uint8_t *) (&answer) = *(uint8_t *) w; sum += answer;`, where
`answer` was 0, so that it is the `uint16_t` whose first byte in memory is the
odd byte and whose second byte is 0. The result is `none` if an addition would
leave the range of `int`. -/
def checksum_sum (o : ByteOrder) : List Nat → Int → Option Int
  | b0 :: b1 :: rest, sum =>
    if sum + (load16 o b0 b1 : Int) ≤ INT_MAX then
      checksum_sum o rest (sum + (load16 o b0 b1 : Int))
    else none
  | [b0], sum =>
    if sum + (load16 o b0 0 : Int) ≤ INT_MAX then some (sum + (load16 o b0 0 : Int)) else none
  | [], sum => some sum

/-- The sum of the 16-bit words of a buffer as the machine loads them, a
trailing odd byte counted as the word whose second byte is 0. -/
def word_sum (o : ByteOrder) : List Nat → Nat
  | b0 :: b1 :: rest => load16 o b0 b1 + word_sum o rest
  | [b0] => load16 o b0 0
  | [] => 0

/-- The function `checksum (addr, len)`; `addr` holds the bytes of the object
the pointer points into. The result is the `uint16_t` value returned; `none`
if the routine reads past the object or `sum` overflows. -/
def checksum (o : ByteOrder) (addr : List Nat) (len : Int) : Option Int :=
  if len > addr.length then none
  else
    match checksum_sum o (addr.take len.toNat) 0 with
    | none => none
    | some sum =>
      let sum : Int := Int.shiftRight sum 16 + Int.land sum 0xFFFF
      let sum : Int := sum + Int.shiftRight sum 16
      let answer : Int := Int.not sum % 65536
      some answer

/-! ## The checksum of the spec, section 4.3 -/

/-- The big-endian encoding of a 16-bit value. -/
def be16 (v : Nat) : List Nat :=
  [v / 256 % 256, v % 256]

/-- The big-endian encoding of a 32-bit value. -/
def be32 (v : Nat) : List Nat :=
  [v / 16777216 % 256, v / 65536 % 256, v / 256 % 256, v % 256]

/-- The sum of the big-endian 16-bit words of a buffer in a 32-bit
accumulator; a trailing odd byte is zero-extended into a word. -/
def reference_sum : List Nat → Nat → Nat
  | b0 :: b1 :: rest, acc => reference_sum rest ((acc + (256 * b0 + b1)) % 4294967296)
  | [b0], acc => (acc + b0) % 4294967296
  | [], acc => acc

/-- The fold step `sum = (sum >> 16) + (sum & 0xFFFF)` of the spec. -/
def reference_fold (sum : Nat) : Nat :=
  (sum >>> 16) + (sum &&& 0xFFFF)

/-- The reference checksum, in the words of the spec: sum the words, fold
twice, take the complement of the low 16 bits. -/
def reference_checksum (buf : List Nat) : Nat :=
  0xFFFF - reference_fold (reference_fold (reference_sum buf 0)) % 65536

/-- The value `checksum` returns on the sum `s`, with the shifts and the mask
written as quotient and remainder (`code_answer_eq`). -/
def code_answer (s : Int) : Int :=
  (-((s / 65536 + s % 65536) + (s / 65536 + s % 65536) / 65536) - 1) % 65536

/-- The value the reference returns on the sum `r`, likewise. -/
def reference_answer (r : Nat) : Nat :=
  65535 - ((r / 65536 + r % 65536) / 65536 + (r / 65536 + r % 65536) % 65536) % 65536

/-! ## The pseudo-header routine `tcp6_checksum` (source lines 730-833) -/

/-- The fields of `struct ip6_hdr`. A field of several bytes is given by the
number its bytes spell in memory, most significant byte first: the number the
source passes to `htons` or `htonl`. -/
structure ip6_hdr where
  /-- Version, traffic class and flow label. -/
  ip6_flow : Nat
  /-- Payload length. -/
  ip6_plen : Nat
  /-- Next header. -/
  ip6_nxt : Nat
  /-- Hop limit. -/
  ip6_hops : Nat
  /-- Source address, `ip6_src.s6_addr`. -/
  ip6_src : Fin 16 → Nat
  /-- Destination address, `ip6_dst.s6_addr`. -/
  ip6_dst : Fin 16 → Nat

/-- The fields of `struct tcphdr` (BSD names). A field of several bytes is
given by the number its bytes spell in memory, most significant byte first;
`th_x2` and `th_off` are bit fields of four bits. -/
structure tcphdr where
  /-- Source port. -/
  th_sport : Nat
  /-- Destination port. -/
  th_dport : Nat
  /-- Sequence number. -/
  th_seq : Nat
  /-- Acknowledgement number. -/
  th_ack : Nat
  /-- Reserved bits. -/
  th_x2 : Fin 16
  /-- Data offset. -/
  th_off : Fin 16
  /-- Flags. -/
  th_flags : Nat
  /-- Window. -/
  th_win : Nat
  /-- Checksum. -/
  th_sum : Nat
  /-- Urgent pointer. -/
  th_urp : Nat

/-- The `TCP_HDRLEN` bytes `struct tcphdr` occupies in memory, as
`memcpy (fragbuffer + c, &tcphdr, TCP_HDRLEN)` copies them (source line 565). -/
def tcphdr_bytes (t : tcphdr) : List Nat :=
  be16 t.th_sport ++ be16 t.th_dport ++ be32 t.th_seq ++ be32 t.th_ack
    ++ [t.th_off.val * 16 + t.th_x2.val] ++ [t.th_flags]
    ++ be16 t.th_win ++ be16 t.th_sum ++ be16 t.th_urp

/-- The local variables of `tcp6_checksum`: the buffer `buf`, the position of
`ptr` in it, and `chksumlen`. -/
structure PseudoState where
  /-- The array `buf[IP_MAXPACKET]`. -/
  buf : List Nat
  /-- The offset of `ptr` from `&buf[0]`. -/
  ptr : Nat
  /-- The length counted so far. -/
  chksumlen : Int

/-- One store of `tcp6_checksum`: `memcpy (ptr, src, n); ptr += n;
chksumlen += n;`, the same for a run of `*ptr = 0; ptr++;`. It is `none` when
the store would run past the end of `buf`. -/
def pseudo_put (s : PseudoState) (src : List Nat) : Option PseudoState :=
  if s.ptr + src.length ≤ s.buf.length then
    some { buf := s.buf.take s.ptr ++ src ++ s.buf.drop (s.ptr + src.length)
           ptr := s.ptr + src.length
           chksumlen := s.chksumlen + src.length }
  else none

/-- Stores in sequence. -/
def pseudo_put_all : List (List Nat) → PseudoState → Option PseudoState
  | [], s => some s
  | src :: rest, s =>
    match pseudo_put s src with
    | none => none
    | some s2 => pseudo_put_all rest s2

/-- The stores of `tcp6_checksum` in program order (source lines 744-822).
`sizeof (tcphdr)` is 20, and the sum is converted to `uint32_t`. -/
def tcp6_stores (iphdr : ip6_hdr) (t : tcphdr) (payload : List Nat) (payloadlen : Int) :
    List (List Nat) :=
  [ List.ofFn iphdr.ip6_src,                       -- source address
    List.ofFn iphdr.ip6_dst,                       -- destination address
    be32 ((20 + payloadlen) % 4294967296).toNat,   -- lvalue = htonl (sizeof (tcphdr) + payloadlen)
    [0], [0], [0],                                 -- zero field
    [iphdr.ip6_nxt],                               -- next header
    be16 t.th_sport,
    be16 t.th_dport,
    be32 t.th_seq,
    be32 t.th_ack,
    [((t.th_off.val <<< 4) + t.th_x2.val) % 256],  -- cvalue
    [t.th_flags],
    be16 t.th_win,
    [0], [0],                                      -- checksum field
    be16 t.th_urp,
    payload.take payloadlen.toNat ]                -- memcpy (ptr, payload, payloadlen)

/-- The loop `i = 0; while (((payloadlen+i)%2) != 0) { i++; chksumlen++; ptr++; }`
on the pair `(i, chksumlen)`. The parity of `payloadlen + i` flips each turn, so
the two turns that `tcp6_checksum_buf` grants reach the exit test. -/
def pad_loop (payloadlen : Int) : Nat → Int → Int → Int × Int
  | 0, i, chksumlen => (i, chksumlen)
  | fuel + 1, i, chksumlen =>
    if (payloadlen + i).tmod 2 ≠ 0 then pad_loop payloadlen fuel (i + 1) (chksumlen + 1)
    else (i, chksumlen)

/-- The body of `tcp6_checksum` up to the call of `checksum`: the buffer and the
length it passes. `payload` holds the bytes the pointer `payload` points to. It
is `none` if `memcpy` would read past the payload or a store would run past the
end of `buf`. -/
def tcp6_checksum_buf (iphdr : ip6_hdr) (t : tcphdr) (payload : List Nat)
    (payloadlen : Int) : Option (List Nat × Int) :=
  if payloadlen < 0 ∨ payloadlen > payload.length then none
  else
    match pseudo_put_all (tcp6_stores iphdr t payload payloadlen)
        { buf := List.replicate IP_MAXPACKET 0, ptr := 0, chksumlen := 0 } with
    | none => none
    | some s => some (s.buf, (pad_loop payloadlen 2 0 s.chksumlen).2)

/-- The function `tcp6_checksum (iphdr, tcphdr, payload, payloadlen)`. -/
def tcp6_checksum (o : ByteOrder) (iphdr : ip6_hdr) (t : tcphdr) (payload : List Nat)
    (payloadlen : Int) : Option Int :=
  match tcp6_checksum_buf iphdr t payload payloadlen with
  | none => none
  | some (buf, chksumlen) => checksum o buf chksumlen

/-- The source address of `main`, `2001:db8::214:51ff:fe2f:1556`, and a
destination address, with the next header `main` passes. -/
def iphdr_main : ip6_hdr :=
  { ip6_flow := 0x60000000, ip6_plen := 0, ip6_nxt := 6, ip6_hops := 255
    ip6_src := fun i => [0x20, 0x01, 0x0d, 0xb8, 0, 0, 0, 0,
                         0x02, 0x14, 0x51, 0xff, 0xfe, 0x2f, 0x15, 0x56].getD i.val 0
    ip6_dst := fun i => [0x20, 0x01, 0x0d, 0xb8, 0, 0, 0, 0,
                         0, 0, 0, 0, 0, 0, 0, 0x01].getD i.val 0 }

/-- The TCP header of `main` before the checksum is known (source lines
449-504). -/
def tcphdr_main : tcphdr :=
  { th_sport := 80, th_dport := 80, th_seq := 0, th_ack := 0, th_x2 := 0, th_off := 5
    th_flags := 2, th_win := 65535, th_sum := 0, th_urp := 0 }

/-- A payload of 65475 zero bytes: with the 60 bytes in front of it, it fills
`buf` to the last byte. -/
def payload_65475 : List Nat :=
  List.replicate 65475 0

/-- The bytes claim C9 lists for a payload: addresses, length, zero field,
next header, TCP header with its checksum field zero, payload, and one zero
byte if the payload length is odd. -/
def pseudo_packet (iphdr : ip6_hdr) (t : tcphdr) (payload : List Nat) : List Nat :=
  List.ofFn iphdr.ip6_src ++ List.ofFn iphdr.ip6_dst ++ be32 (20 + payload.length)
    ++ [0, 0, 0] ++ [iphdr.ip6_nxt] ++ tcphdr_bytes { t with th_sum := 0 } ++ payload
    ++ (if payload.length % 2 = 1 then [0] else [])

/-! ## Protocol numbers and header structs of `main` -/

/-- Modelled from the spec: `IPPROTO_HOPOPTS`, the Hop-by-Hop header's protocol
number of section 4.4. The value 0 is fixed by `netinet/in.h`, which the source
includes and which is not under `src/`. -/
def IPPROTO_HOPOPTS : Nat := 0

/-- The constant `IPPROTO_TCP`: "6 for TCP" (source line 430). -/
def IPPROTO_TCP : Nat := 6

/-- Modelled from the spec: `IPPROTO_FRAGMENT`, the Fragment header's protocol
number of section 4.4. The value 44 is fixed by `netinet/in.h`, which the
source includes and which is not under `src/`. -/
def IPPROTO_FRAGMENT : Nat := 44

/-- Modelled from the spec: `IPPROTO_DSTOPTS`, the Destination header's protocol
number of section 4.4. The value 60 is fixed by `netinet/in.h`, which the
source includes and which is not under `src/`. -/
def IPPROTO_DSTOPTS : Nat := 60

/-- The Ethernet type of IPv6, `ETH_P_IPV6 = 0x86DD` (source line 40). -/
def ETH_P_IPV6 : Nat := 0x86DD

/-- The struct `hop_hdr`: hop-by-hop header, excluding options (source lines
46-51). -/
structure hop_hdr where
  /-- Next header. -/
  nxt_hdr : Nat
  /-- Header length in units of 8 bytes, not counting the first 8. -/
  hdr_len : Nat
deriving DecidableEq

/-- The struct `dst_hdr`: destination header, excluding options (source lines
53-58). -/
structure dst_hdr where
  /-- Next header. -/
  nxt_hdr : Nat
  /-- Header length in units of 8 bytes, not counting the first 8. -/
  hdr_len : Nat
deriving DecidableEq

/-- The fields of `struct ip6_frag`. A field of several bytes is given by the
number its bytes spell in memory, most significant byte first. -/
structure ip6_frag where
  /-- Next header. -/
  ip6f_nxt : Nat
  /-- Reserved byte. -/
  ip6f_reserved : Nat
  /-- Fragment offset (13 bits), reserved bits (2) and more-fragments flag. -/
  ip6f_offlg : Nat
  /-- Identification. -/
  ip6f_ident : Nat
deriving DecidableEq

/-- The `IP6_HDRLEN` bytes `struct ip6_hdr` occupies in memory, as
`memcpy (ether_frame + c, &iphdr, IP6_HDRLEN)` copies them (source line 610). -/
def ip6_hdr_bytes (h : ip6_hdr) : List Nat :=
  be32 h.ip6_flow ++ be16 h.ip6_plen ++ [h.ip6_nxt] ++ [h.ip6_hops]
    ++ List.ofFn h.ip6_src ++ List.ofFn h.ip6_dst

/-- The `FRG_HDRLEN` bytes `struct ip6_frag` occupies in memory, as
`memcpy (ether_frame + c, &fraghdr, FRG_HDRLEN)` copies them (source line 653). -/
def ip6_frag_bytes (f : ip6_frag) : List Nat :=
  [f.ip6f_nxt] ++ [f.ip6f_reserved] ++ be16 f.ip6f_offlg ++ be32 f.ip6f_ident

/-- The IPv6 header as `main` has filled it in when it calls `tcp6_checksum`
(source lines 422-447): version 6, next header `IPPROTO_TCP`, hop limit 255 and
the two addresses. `ip6_plen` is assigned only in the send loop; `plen0` is
what the field holds until then. -/
def main_iphdr (ip6_src ip6_dst : Fin 16 → Nat) (plen0 : Nat) : ip6_hdr :=
  { ip6_flow := (6 <<< 28) ||| (0 <<< 20) ||| 0
    ip6_plen := plen0
    ip6_nxt := IPPROTO_TCP
    ip6_hops := 255
    ip6_src := ip6_src
    ip6_dst := ip6_dst }

/-- The headers whose next-header fields `main` sets after the checksum. -/
structure MainHeaders where
  /-- The IPv6 header `iphdr`. -/
  iphdr : ip6_hdr
  /-- The hop-by-hop header `hophdr`. -/
  hophdr : hop_hdr
  /-- The destination header `dsthdr`. -/
  dsthdr : dst_hdr

/-- The block "Set our Next Header fields" (source lines 509-536). A field
that no branch assigns keeps the value it had. -/
def set_next_headers (hbh_nopt dst_nopt nframes : Int) (h : MainHeaders) : MainHeaders :=
  let h : MainHeaders :=
    if dst_nopt > 0 then { h with dsthdr := { h.dsthdr with nxt_hdr := IPPROTO_TCP } }
    else h
  if hbh_nopt > 0 then
    let h : MainHeaders := { h with iphdr := { h.iphdr with ip6_nxt := IPPROTO_HOPOPTS } }
    if nframes = 1 then
      if dst_nopt > 0 then
        { h with hophdr := { h.hophdr with nxt_hdr := IPPROTO_DSTOPTS } }
      else
        { h with hophdr := { h.hophdr with nxt_hdr := IPPROTO_TCP } }
    else
      { h with hophdr := { h.hophdr with nxt_hdr := IPPROTO_FRAGMENT } }
  else
    if nframes = 1 then
      if dst_nopt > 0 then
        { h with iphdr := { h.iphdr with ip6_nxt := IPPROTO_DSTOPTS } }
      else
        { h with iphdr := { h.iphdr with ip6_nxt := IPPROTO_TCP } }
    else
      { h with iphdr := { h.iphdr with ip6_nxt := IPPROTO_FRAGMENT } }

/-! ## The fragmentable buffer (source lines 538-570) -/

/-- The block "Build buffer array containing fragmentable portion": the
destination write pass, the TCP header and the payload, stored front to back
into `fragbuffer`. The result is the bytes stored and the final index `c`. -/
def build_fragbuffer (fuel : Nat) (dst : List ExtOption) (dsthdr : dst_hdr) (t : tcphdr)
    (payload : List Nat) (payloadlen : Int) : Option (List Nat × Int) :=
  let c : Int := 0
  match ext_write_pass DST_HDRLEN fuel dst [dsthdr.nxt_hdr, dsthdr.hdr_len] c with
  | none => none
  | some w =>
    let c : Int := w.c
    let c : Int := c + TCP_HDRLEN
    let c : Int := c + payloadlen
    some (w.bytes ++ tcphdr_bytes t ++ payload.take payloadlen.toNat, c)

/-! ## The send loop: the frame of fragment `i` (source lines 579-662) -/

/-- The IPv6 header of frame `i`: `iphdr.ip6_plen = htons (hoplen + len[i])` if
`nframes == 1`, else `htons (hoplen + FRG_HDRLEN + len[i])` (source lines
603-607). The argument of `htons` is a `uint16_t`. -/
def frame_iphdr (iphdr : ip6_hdr) (hoplen : Int) (plan : FragState) (i : Nat) : ip6_hdr :=
  if plan.nframes = 1 then
    { iphdr with ip6_plen := ((hoplen + plan.len i) % 65536).toNat }
  else
    { iphdr with ip6_plen := ((hoplen + FRG_HDRLEN + plan.len i) % 65536).toNat }

/-- The fragment header of frame `i` (source lines 639-652). `offset[i] << 3`
and `frag_flags[1] << 1` are written as products; the argument of `htons` is a
`uint16_t` and that of `htonl` a `uint32_t`. -/
def frame_fraghdr (dst_nopt : Int) (plan : FragState) (i : Nat) : ip6_frag :=
  let frag_flags1 : Int := 0
  let frag_flags0 : Int := if (i : Int) < ((plan.nframes : Int) - 1) then 1 else 0
  { ip6f_nxt := if dst_nopt > 0 then IPPROTO_DSTOPTS else IPPROTO_TCP
    ip6f_reserved := 0
    ip6f_offlg := ((plan.offset i * 8 + frag_flags0 + frag_flags1 * 2) % 65536).toNat
    ip6f_ident := 31415 % 4294967296 }

/-- A frame as the send loop stores it into `ether_frame`, part by part, and
the length it passes to `sendto`. -/
structure EtherFrame where
  /-- The Ethernet header: the two hardware addresses and the type. -/
  ether_hdr : List Nat
  /-- The IPv6 header. -/
  ip6 : List Nat
  /-- The hop-by-hop header with options and padding; empty if there is none. -/
  hop : List Nat
  /-- The fragment header; empty if there is none. -/
  frag : List Nat
  /-- The slice of the fragmentable buffer. -/
  data : List Nat
  /-- The index `c` at the end: `frame_length`. -/
  frame_length : Int
deriving DecidableEq

/-- The bytes of a frame in the order they lie in `ether_frame`. -/
def EtherFrame.bytes (f : EtherFrame) : List Nat :=
  f.ether_hdr ++ f.ip6 ++ f.hop ++ f.frag ++ f.data

/-- One turn of the loop `for (i=0; i<nframes; i++)` up to the call of
`sendto`. The size of `ether_frame` (`IP_MAXPACKET` bytes) is not checked. -/
def send_frame (fuel : Nat) (dst_mac src_mac : Fin 6 → Nat) (iphdr : ip6_hdr)
    (hbh : List ExtOption) (hophdr : hop_hdr) (hoplen dst_nopt : Int)
    (fragbuffer : List Nat) (plan : FragState) (i : Nat) : Option EtherFrame :=
  let c : Int := 0
  let ether_hdr : List Nat :=
    List.ofFn dst_mac ++ List.ofFn src_mac ++ [ETH_P_IPV6 / 256] ++ [ETH_P_IPV6 % 256]
  let c : Int := c + ETH_HDRLEN
  let iphdr : ip6_hdr := frame_iphdr iphdr hoplen plan i
  let c : Int := c + IP6_HDRLEN
  match ext_write_pass HOP_HDRLEN fuel hbh [hophdr.nxt_hdr, hophdr.hdr_len] c with
  | none => none
  | some w =>
    let c : Int := w.c
    let frag : List Nat :=
      if plan.nframes > 1 then ip6_frag_bytes (frame_fraghdr dst_nopt plan i) else []
    let c : Int := if plan.nframes > 1 then c + FRG_HDRLEN else c
    let data : List Nat := frag_slice fragbuffer plan i
    let c : Int := c + plan.len i
    some { ether_hdr := ether_hdr
           ip6 := ip6_hdr_bytes iphdr
           hop := w.bytes
           frag := frag
           data := data
           frame_length := c }

/-! ## The chain of next-header values -/

/-- Following the next-header values through a sequence of headers, each given
by its own protocol number and the next-header value it carries: `first`
announces the first header, every header announces the one after it, and the
last one announces TCP. -/
def chain_ok (first : Nat) : List (Nat × Nat) → Bool
  | [] => first == IPPROTO_TCP
  | (kind, nxt) :: rest => first == kind && chain_ok nxt rest

/-- The extension headers laid out in a frame whose data begins the
fragmentable buffer, in the order they lie there, each with its protocol number
and its first byte, the next-header field: the hop-by-hop header if the frame
has one, the fragment header if the frame has one, and the destination header,
which opens the fragmentable buffer when `dst_nopt > 0`. -/
def laid_out_headers (dst_nopt : Int) (f : EtherFrame) : List (Nat × Nat) :=
  (if f.hop ≠ [] then [(IPPROTO_HOPOPTS, f.hop.getD 0 0)] else [])
    ++ (if f.frag ≠ [] then [(IPPROTO_FRAGMENT, f.frag.getD 0 0)] else [])
    ++ (if dst_nopt > 0 then [(IPPROTO_DSTOPTS, f.data.getD 0 0)] else [])

/-- The budget of one fragment: `mtu - IP6_HDRLEN - hoplen - FRG_HDRLEN`. -/
def frag_budget (mtu hoplen : Int) : Int :=
  mtu - IP6_HDRLEN - hoplen - FRG_HDRLEN

/-! ## Inputs at which the theorems on frames are evaluated -/

/-- The plan for 39 bytes at MTU 80 behind an 8-byte hop-by-hop header: two
turns of the loop, fragments of 24 and 15 bytes. -/
def plan_80_39 : FragState :=
  frag_step 80 8 39 (frag_step 80 8 39 frag_init)

/-- A fragmentable buffer of 39 bytes, byte `k` holding `k`. -/
def fragbuffer_39 : List Nat :=
  List.range 39

/-- A hardware address of six zero bytes. -/
def mac_zero : Fin 6 → Nat :=
  fun _ => 0

/-- The three headers with their next-header fields not yet set, the IPv6
header being `iphdr_main`. -/
def headers_main : MainHeaders :=
  { iphdr := iphdr_main
    hophdr := { nxt_hdr := 0, hdr_len := 0 }
    dsthdr := { nxt_hdr := 0, hdr_len := 1 } }

/-- The assignment `tcphdr.th_sum = tcp6_checksum (...)` (source line 507): the
field takes the two bytes the `uint16_t` result occupies in memory. -/
def assign_th_sum (o : ByteOrder) (t : tcphdr) (answer : Int) : tcphdr :=
  { t with th_sum := load16 ByteOrder.big ((store16 o answer).getD 0 0)
                        ((store16 o answer).getD 1 0) }

/-! ## Storing a checksum into a buffer -/

/-- Storing the `uint16_t` value `a` at byte offset `k` of a buffer, the way the
assignment `tcphdr.th_sum = tcp6_checksum (...)` (source line 507) fills the
checksum field: the two bytes at `k` and `k + 1` become the bytes the value
occupies in memory. -/
def store_checksum (o : ByteOrder) (buf : List Nat) (k : Nat) (a : Int) : List Nat :=
  buf.take k ++ store16 o a ++ buf.drop (k + 2)

/-! ## Facts about the splitting loop -/

theorem round_down_fst_le (fuel : Nat) (l c : Int) : (round_down fuel l c).1 ≤ l := by
  induction fuel generalizing l c with
  | zero => simp [round_down]
  | succ n ih =>
    unfold round_down
    split
    · have := ih (l - 1) (c - 1)
      omega
    · simp

theorem tmod_nonpos_of_nonpos (l : Int) (h : l ≤ 0) : l.tmod 8 ≤ 0 := by
  cases l with
  | ofNat n =>
    have hn : n = 0 := by
      have : (n : Int) ≤ 0 := h
      omega
    subst hn
    decide
  | negSucc n =>
    show Int.tmod (Int.negSucc n) (Int.ofNat 8) ≤ 0
    simp only [Int.tmod]
    have : (0 : Int) ≤ Int.ofNat (n.succ % 8) := Int.ofNat_nonneg _
    omega

theorem tmod_pred (l : Int) (h : l.tmod 8 > 0) : (l - 1).tmod 8 = l.tmod 8 - 1 := by
  have hl : 0 < l := by
    by_contra hn
    have := tmod_nonpos_of_nonpos l (by omega)
    omega
  rw [Int.tmod_eq_emod (by omega) (by decide), Int.tmod_eq_emod (by omega) (by decide)] at *
  omega

theorem round_down_exit_of_le (fuel : Nat) (l c : Int) (h : l.tmod 8 ≤ fuel) :
    ¬ (round_down fuel l c).1.tmod 8 > 0 := by
  induction fuel generalizing l c with
  | zero =>
    simp only [round_down]
    push_cast at h
    omega
  | succ n ih =>
    unfold round_down
    split
    · rename_i hpos
      exact ih (l - 1) (c - 1) (by rw [tmod_pred l hpos]; push_cast at h; omega)
    · assumption

/-- The seven turns granted to the rounding loop reach its exit test: the
bounded loop is the loop of the source. -/
theorem round_down_exit (l c : Int) : ¬ (round_down 7 l c).1.tmod 8 > 0 := by
  apply round_down_exit_of_le
  have := Int.tmod_lt_of_pos l (show (0 : Int) < 8 by decide)
  push_cast
  omega

/-- The rounding loop lowers `len[i]` and `c` by the same amount. -/
theorem round_down_snd (fuel : Nat) (l c : Int) :
    (round_down fuel l c).2 = c - (l - (round_down fuel l c).1) := by
  induction fuel generalizing l c with
  | zero => simp [round_down]
  | succ n ih =>
    unfold round_down
    split
    · rw [ih (l - 1) (c - 1)]
      omega
    · simp

/-- An invariant of the loop body holds of every state the loop returns, and
the loop test fails there. -/
theorem frag_loop_invariant (mtu hoplen fragbufferlen : Int) (P : FragState → Prop)
    (hstep : ∀ s, s.c < fragbufferlen → P s → P (frag_step mtu hoplen fragbufferlen s))
    (fuel : Nat) (s plan : FragState) (hs : P s)
    (h : frag_loop mtu hoplen fragbufferlen fuel s = some plan) :
    P plan ∧ ¬ plan.c < fragbufferlen := by
  induction fuel generalizing s with
  | zero =>
    unfold frag_loop at h
    split at h
    · cases h
    · cases h
      exact ⟨hs, by assumption⟩
  | succ n ih =>
    unfold frag_loop at h
    split at h
    · exact ih _ (hstep s (by assumption) hs) h
    · cases h
      exact ⟨hs, by assumption⟩

/-- The length a turn of the loop stores is at most the budget. -/
theorem frag_step_len_le (mtu hoplen fragbufferlen : Int) (s : FragState) :
    (frag_step mtu hoplen fragbufferlen s).len s.i
      ≤ mtu - IP6_HDRLEN - hoplen - FRG_HDRLEN := by
  simp only [frag_step, arr_set, ↓reduceIte]
  split_ifs with h1 h2 h3
  · exact round_down_fst_le _ _ _
  · exact Int.le_refl _
  · exact Int.le_trans (round_down_fst_le _ _ _) (by omega)
  · show fragbufferlen - s.c ≤ _
    omega

theorem frag_step_len_of_ne (mtu hoplen fragbufferlen : Int) (s : FragState) (j : Nat)
    (hj : j ≠ s.i) : (frag_step mtu hoplen fragbufferlen s).len j = s.len j := by
  simp [frag_step, arr_set, hj]

theorem frag_step_i (mtu hoplen fragbufferlen : Int) (s : FragState) :
    (frag_step mtu hoplen fragbufferlen s).i = s.i + 1 := rfl

/-- No fragment length exceeds the budget `mtu - IP6_HDRLEN - hoplen - FRG_HDRLEN`. -/
theorem frag_loop_len_le (mtu hoplen fragbufferlen : Int) (fuel : Nat) (plan : FragState)
    (h : frag_loop mtu hoplen fragbufferlen fuel frag_init = some plan) (k : Nat)
    (hk : k < plan.nframes) :
    plan.len k ≤ mtu - IP6_HDRLEN - hoplen - FRG_HDRLEN := by
  have key := frag_loop_invariant mtu hoplen fragbufferlen
    (fun s => ∀ j, j < s.i → s.len j ≤ mtu - IP6_HDRLEN - hoplen - FRG_HDRLEN)
    (by
      intro s _ hP j hj
      rw [frag_step_i] at hj
      by_cases hji : j = s.i
      · rw [hji]
        exact frag_step_len_le mtu hoplen fragbufferlen s
      · rw [frag_step_len_of_ne _ _ _ _ _ hji]
        exact hP j (by omega))
    fuel frag_init plan (by intro j hj; simp [frag_init] at hj) h
  exact key.1 k hk


/-! ## Facts about the alignment loops -/

/-- What a result of the size pass loop says: the first index from `indx` on
whose C remainder by `x` is `y`. -/
theorem align_loop_spec (x y : Int) (fuel : Nat) (indx a : Int)
    (h : align_loop x y fuel indx = some a) :
    x ≠ 0 ∧ indx ≤ a ∧ a - indx < fuel ∧ a.tmod x = y ∧
      ∀ k : Int, indx ≤ k → k < a → k.tmod x ≠ y := by
  induction fuel generalizing indx with
  | zero => simp [align_loop] at h
  | succ n ih =>
    unfold align_loop at h
    split_ifs at h with h0 h1
    · obtain ⟨hx, hle, hlt, hmod, hmin⟩ := ih (indx + 1) h
      refine ⟨hx, by omega, by push_cast; omega, hmod, ?_⟩
      intro k hk1 hk2
      by_cases hk : k = indx
      · rw [hk]; exact h1
      · exact hmin k (by omega) hk2
    · cases h
      refine ⟨h0, Int.le_refl _, by push_cast; omega, not_not.mp h1, ?_⟩
      intro k hk1 hk2
      omega

/-- The loop finds the first aligned index whenever the fuel reaches it. -/
theorem align_loop_complete (x y : Int) (hx : x ≠ 0) (fuel : Nat) (indx a : Int)
    (hle : indx ≤ a) (hlt : a - indx < fuel) (hmod : a.tmod x = y)
    (hmin : ∀ k : Int, indx ≤ k → k < a → k.tmod x ≠ y) :
    align_loop x y fuel indx = some a := by
  induction fuel generalizing indx with
  | zero => simp at hlt; omega
  | succ n ih =>
    unfold align_loop
    rw [if_neg hx]
    by_cases hia : indx = a
    · rw [hia, if_neg (not_not.mpr hmod)]
    · rw [if_pos (hmin indx (Int.le_refl _) (by omega))]
      exact ih (indx + 1) (by omega) (by push_cast at hlt; omega)
        (fun k hk1 hk2 => hmin k (by omega) hk2)

/-- With `0 ≤ y < x` and a non-negative start the loop finishes within `x`
turns, at the least index at or after `indx` that is `y` modulo `x`. -/
theorem align_loop_terminates (x y indx : Int) (fuel : Nat) (hi : 0 ≤ indx) (hy : 0 ≤ y)
    (hyx : y < x) (hf : x < fuel) :
    ∃ a, align_loop x y fuel indx = some a ∧ indx ≤ a ∧ a < indx + x ∧ a % x = y ∧
      ∀ k : Int, indx ≤ k → k < a → k % x ≠ y := by
  have hx : 0 < x := by omega
  have hd0 : 0 ≤ (y - indx) % x := Int.emod_nonneg _ (by omega)
  have hd1 : (y - indx) % x < x := Int.emod_lt_of_pos _ hx
  have hmod : (indx + (y - indx) % x) % x = y := by
    rw [Int.add_emod_emod, show indx + (y - indx) = y by omega]
    exact Int.emod_eq_of_lt hy hyx
  have hmin : ∀ k : Int, indx ≤ k → k < indx + (y - indx) % x → k % x ≠ y := by
    intro k hk1 hk2 hk
    have d1 : x ∣ k - y := Int.dvd_sub_of_emod_eq hk
    have d2 : x ∣ (y - indx) - (y - indx) % x := Int.dvd_sub_of_emod_eq rfl
    have d3 : x ∣ k - indx - (y - indx) % x := by
      have := Int.dvd_add d1 d2
      have e : k - y + (y - indx - (y - indx) % x) = k - indx - (y - indx) % x := by omega
      rwa [e] at this
    have := Int.eq_zero_of_abs_lt_dvd d3 (by rw [abs_lt]; constructor <;> omega)
    omega
  refine ⟨indx + (y - indx) % x, ?_, by omega, by omega, hmod, hmin⟩
  apply align_loop_complete x y (by omega) fuel indx _ (by omega) (by omega)
  · rw [Int.tmod_eq_emod (by omega) (by omega)]
    exact hmod
  · intro k hk1 hk2
    rw [Int.tmod_eq_emod (by omega) (by omega)]
    exact hmin k hk1 hk2

/-- The search loop of `option_pad` is the size pass loop, counted from `indx`. -/
theorem needpad_loop_eq_align_loop (indx x y : Int) (fuel : Nat) (needpad : Int) :
    needpad_loop indx x y fuel needpad
      = (align_loop x y fuel (indx + needpad)).map (fun a => a - indx) := by
  induction fuel generalizing needpad with
  | zero => rfl
  | succ n ih =>
    unfold needpad_loop align_loop
    split_ifs with h0 h1
    · rfl
    · rw [ih (needpad + 1), show indx + (needpad + 1) = indx + needpad + 1 by omega]
    · simp

/-- The padder advances both indices by the need it found, and stores that
many bytes. -/
theorem option_pad_of_align_loop (fuel : Nat) (indx c x y a : Int)
    (h : align_loop x y fuel indx = some a) :
    ∃ p, option_pad fuel indx c x y = some p ∧ p.needpad = a - indx ∧ p.indx = a ∧
      p.c = c + (a - indx) ∧ (p.bytes.length : Int) = a - indx := by
  have hle := (align_loop_spec x y fuel indx a h).2.1
  have e : needpad_loop indx x y fuel 0 = some (a - indx) := by
    rw [needpad_loop_eq_align_loop, Int.add_zero, h]; rfl
  unfold option_pad
  rw [e]
  simp only []
  split_ifs with h1 h2
  · exact ⟨_, rfl, rfl, by simp only []; omega, by simp only []; omega, by simp [h1]⟩
  · refine ⟨_, rfl, rfl, by simp only []; omega, by simp only []; omega, ?_⟩
    simp only [List.length_append, List.length_cons, List.length_nil, List.length_replicate]
    push_cast
    omega
  · exact ⟨_, rfl, rfl, by simp only []; omega, by simp only []; omega, by simp; omega⟩

/-- The write pass loop follows the size pass loop: same header index, and the
buffer index moves by the same amount. -/
theorem write_opts_of_size_opts (fuel : Nat) (opts : List ExtOption) (indx a : Int)
    (w : WriteState) (hw : w.indx = indx) (h : size_opts fuel opts indx = some a) :
    ∃ w2, write_opts fuel opts w = some w2 ∧ w2.indx = a ∧ w2.c = w.c + (a - indx) ∧
      (w2.bytes.length : Int) = w.bytes.length + (a - indx) := by
  induction opts generalizing indx w with
  | nil =>
    simp only [size_opts, Option.some.injEq] at h
    exact ⟨w, rfl, by omega, by omega, by omega⟩
  | cons o rest ih =>
    unfold size_opts at h
    split at h
    · cases h
    · rename_i a1 ha1
      obtain ⟨p, hp, _, hpi, hpc, hpl⟩ := option_pad_of_align_loop fuel indx w.c o.x o.y a1 ha1
      obtain ⟨w2, hw2, h2i, h2c, h2l⟩ := ih (a1 + o.optlen)
        { indx := p.indx + o.optlen, c := p.c + o.optlen, bytes := w.bytes ++ p.bytes ++ o.data }
        (by simp only []; omega) h
      refine ⟨w2, ?_, h2i, ?_, ?_⟩
      · unfold write_opts
        rw [hw, hp]
        exact hw2
      · simp only [] at h2c; omega
      · simp only [List.length_append] at h2l
        push_cast at h2l
        simp only [ExtOption.optlen] at *
        omega

/-- The write pass moves the buffer index by the length the size pass computed,
and stores that many bytes after the header struct. -/
theorem ext_write_pass_of_size_pass (hdrlen : Int) (fuel : Nat) (opts : List ExtOption)
    (hdr : List Nat) (c : Int) (sz : ExtSize)
    (h : ext_size_pass hdrlen fuel opts = some sz) :
    ∃ w, ext_write_pass hdrlen fuel opts hdr c = some w ∧
      w.c = c + (if opts.length > 0 then hdrlen + sz.opt_totlen + sz.optpadlen else 0) ∧
      (w.bytes.length : Int) =
        (if opts.length > 0 then
          (hdr.length : Int) + sz.opt_totlen + sz.optpadlen else 0) := by
  unfold ext_size_pass at h
  unfold ext_write_pass
  split_ifs at h ⊢ with hn
  · split at h
    · cases h
    · rename_i a ha
      split at h
      · cases h
      · rename_i a2 ha2
        cases h
        obtain ⟨w2, hw2, h2i, h2c, h2l⟩ := write_opts_of_size_opts fuel opts (0 + hdrlen) a
          { indx := 0 + hdrlen, c := c + hdrlen, bytes := hdr } rfl ha
        obtain ⟨p, hp, _, hpi, hpc, hpl⟩ := option_pad_of_align_loop fuel a w2.c 8 0 a2 ha2
        rw [hw2]
        simp only []
        rw [h2i, hp]
        refine ⟨_, rfl, ?_, ?_⟩
        · simp only [] at h2c ⊢; omega
        · simp only [List.length_append] at h2l ⊢
          push_cast
          omega
  · cases h
    exact ⟨_, rfl, by simp, by simp⟩

/-! ## The fragment plan: claims C1 to C4 -/

/-- The two turns the loop takes for 1445 bytes at MTU 1500 behind an 8-byte
hop-by-hop header. -/
theorem fragment_plan_1445 :
    fragment_plan 1500 8 1445
      = some (frag_step 1500 8 1445 (frag_step 1500 8 1445 frag_init)) := by
  rfl

/-- C1, at a failing input. With MTU 1500, an 8-byte hop-by-hop header and a
fragmentable buffer of 1445 bytes the loop finishes with two fragments, and the
slices the send loop copies, joined in order, are not the buffer: the second
slice starts at byte 1440 although the first one ended at byte 1444. -/
theorem reassemble_1445_differs :
    ∃ plan, fragment_plan 1500 8 1445 = some plan ∧ plan.nframes = 2 ∧
      frag_slice fragbuffer_1445 plan 1 = [160] ∧
      fragbuffer_1445.drop 1444 = [164] ∧
      reassemble fragbuffer_1445 plan ≠ fragbuffer_1445 :=
  ⟨_, fragment_plan_1445, rfl, by decide!, by decide!, by decide!⟩

/-- C2, at a failing input. With MTU 1500, an 8-byte hop-by-hop header and a
fragmentable buffer of 1445 bytes the plan has two fragments, and the first,
which is not the last, has length 1444, which is not a multiple of 8. -/
theorem first_fragment_1445_unaligned :
    ∃ plan, fragment_plan 1500 8 1445 = some plan ∧ plan.nframes = 2 ∧
      plan.len 0 = 1444 ∧ plan.len 1 = 1 ∧ plan.len 0 % 8 = 4 :=
  ⟨_, fragment_plan_1445, rfl, by decide, by decide, by decide⟩

/-- C3, at a failing input. With MTU 1500, an 8-byte hop-by-hop header and a
fragmentable buffer of 1445 bytes the second fragment carries offset 180, that
is byte 1440, while the lengths before it add up to 1444. -/
theorem second_offset_1445_short :
    ∃ plan, fragment_plan 1500 8 1445 = some plan ∧ plan.nframes = 2 ∧
      plan.offset 1 * 8 = 1440 ∧ len_sum plan 1 = 1444 :=
  ⟨_, fragment_plan_1445, rfl, by decide, by decide⟩

/-- C4. For every MTU, every hop-by-hop option list whose size pass finishes
and every length of the fragmentable buffer: for each fragment `i` of a plan
the splitting loop returns (within any number of turns), the send loop reaches
`frame_length`, it counts the Ethernet header, the IPv6 header, `hoplen` bytes
of hop-by-hop header, the fragment header when `nframes > 1` and `len[i]`
bytes, and the part after the Ethernet header is at most the MTU. -/
theorem frame_length_le_mtu (fuel turns : Nat) (mtu fragbufferlen : Int)
    (hbh : List ExtOption) (hophdr : List Nat) (sz : ExtSize) (plan : FragState) (i : Nat)
    (hsz : hop_size_pass fuel hbh = some sz)
    (hplan : frag_loop mtu (hoplen hbh sz) fragbufferlen turns frag_init = some plan)
    (hi : i < plan.nframes) :
    ∃ fl, frame_length fuel hbh hophdr plan i = some fl ∧
      fl = ETH_HDRLEN + IP6_HDRLEN + hoplen hbh sz
            + (if plan.nframes > 1 then FRG_HDRLEN else 0) + plan.len i ∧
      fl - ETH_HDRLEN ≤ mtu := by
  obtain ⟨w, hw, hwc, _⟩ :=
    ext_write_pass_of_size_pass HOP_HDRLEN fuel hbh hophdr (0 + ETH_HDRLEN + IP6_HDRLEN) sz hsz
  have hlen := frag_loop_len_le mtu (hoplen hbh sz) fragbufferlen turns plan hplan i hi
  have hfl : frame_length fuel hbh hophdr plan i
      = some ((if plan.nframes > 1 then w.c + FRG_HDRLEN else w.c) + plan.len i) := by
    unfold frame_length
    simp only []
    rw [hw]
  refine ⟨_, hfl, ?_, ?_⟩
  · rw [hwc]
    unfold hoplen
    split_ifs <;> omega
  · rw [hwc]
    unfold hoplen at hlen
    simp only [ETH_HDRLEN, IP6_HDRLEN, FRG_HDRLEN] at hlen ⊢
    split_ifs at hlen ⊢ <;> omega

/-- C4 at scenario C: MTU 1500, the router alert header, 5000 bytes. -/
theorem frame_length_le_mtu_witness :
    ∃ fl, frame_length 10 [router_alert] [0, 0]
        (frag_step 1500 8 5000 (frag_step 1500 8 5000 (frag_step 1500 8 5000
          (frag_step 1500 8 5000 frag_init)))) 3 = some fl ∧
      fl = ETH_HDRLEN + IP6_HDRLEN
            + hoplen [router_alert] { opt_totlen := 4, optpadlen := 2, hdr_len := 0 }
            + (if (frag_step 1500 8 5000 (frag_step 1500 8 5000 (frag_step 1500 8 5000
                (frag_step 1500 8 5000 frag_init)))).nframes > 1 then FRG_HDRLEN else 0)
            + (frag_step 1500 8 5000 (frag_step 1500 8 5000 (frag_step 1500 8 5000
                (frag_step 1500 8 5000 frag_init)))).len 3 ∧
      fl - ETH_HDRLEN ≤ 1500 :=
  frame_length_le_mtu 10 3118 1500 5000 [router_alert] [0, 0]
    { opt_totlen := 4, optpadlen := 2, hdr_len := 0 } _ 3 (by rfl) (by rfl) (by decide)

/-! ## The padder and the header layout: claims C5 to C8 -/

/-- The search loop returns the least non-negative `n` with
`(indx + n) % x == y` in C arithmetic. -/
theorem needpad_loop_spec (indx x y : Int) (fuel : Nat) (n : Int)
    (h : needpad_loop indx x y fuel 0 = some n) :
    0 ≤ n ∧ (indx + n).tmod x = y ∧ ∀ m : Int, 0 ≤ m → m < n → (indx + m).tmod x ≠ y := by
  rw [needpad_loop_eq_align_loop, Int.add_zero] at h
  cases ha : align_loop x y fuel indx with
  | none => rw [ha] at h; cases h
  | some a =>
    rw [ha] at h
    simp only [Option.map_some', Option.some.injEq] at h
    obtain ⟨_, hle, _, hmod, hmin⟩ := align_loop_spec x y fuel indx a ha
    refine ⟨by omega, ?_, ?_⟩
    · rw [show indx + n = a by omega]; exact hmod
    · intro m hm0 hmn
      exact hmin (indx + m) (by omega) (by omega)

/-- The remainder of any integer by 2 is never 2, so the search for alignment
`2n + 2` has no end. -/
theorem needpad_loop_two_two (fuel : Nat) (needpad : Int) :
    needpad_loop 0 2 2 fuel needpad = none := by
  induction fuel generalizing needpad with
  | zero => rfl
  | succ n ih =>
    unfold needpad_loop
    have h : (0 + needpad).tmod 2 ≠ 2 := by
      have := Int.tmod_lt_of_pos (0 + needpad) (show (0 : Int) < 2 by decide)
      omega
    rw [if_neg (by decide), if_pos h]
    exact ih _

/-- C5 as stated fails at offset 0 with alignment `x = 2`, `y = 2`: here
`0 ≤ indx` and `1 ≤ x`, yet no padding length `n` has `(0 + n) mod 2 = 2`, and
`option_pad` returns for no amount of fuel. -/
theorem option_pad_two_two_diverges :
    (0 : Int) ≤ 0 ∧ (1 : Int) ≤ 2 ∧ (¬ ∃ n : Int, (0 + n) % 2 = 2) ∧
      ¬ ∃ (fuel : Nat) (p : PadResult), option_pad fuel 0 0 2 2 = some p := by
  refine ⟨by decide, by decide, ?_, ?_⟩
  · rintro ⟨n, hn⟩
    omega
  · rintro ⟨fuel, p, hp⟩
    unfold option_pad at hp
    rw [needpad_loop_two_two] at hp
    cases hp

/-- C5, amended. For every offset `indx ≥ 0` and every alignment `(x, y)` with
`0 ≤ y < x`, `option_pad` returns once the fuel exceeds `x`; it advances
`*indx` and `*c` by a padding length `n ≥ 0` with `(indx + n) mod x = y`, and
`n` is the least non-negative integer with that property. -/
theorem option_pad_minimal_padding (fuel : Nat) (indx c x y : Int) (hi : 0 ≤ indx)
    (hy : 0 ≤ y) (hyx : y < x) (hf : x < fuel) :
    ∃ p, option_pad fuel indx c x y = some p ∧ 0 ≤ p.needpad ∧
      p.indx = indx + p.needpad ∧ p.c = c + p.needpad ∧
      (indx + p.needpad) % x = y ∧
      ∀ m : Int, 0 ≤ m → (indx + m) % x = y → p.needpad ≤ m := by
  obtain ⟨a, ha, hle, _, hmod, hmin⟩ := align_loop_terminates x y indx fuel hi hy hyx hf
  obtain ⟨p, hp, hn, hpi, hpc, _⟩ := option_pad_of_align_loop fuel indx c x y a ha
  refine ⟨p, hp, by omega, by omega, by omega, ?_, ?_⟩
  · rw [hn, show indx + (a - indx) = a by omega]; exact hmod
  · intro m hm0 hm
    by_contra hlt
    exact hmin (indx + m) (by omega) (by omega) hm

/-- C5, amended, at offset 3 with alignment `8n + 2`: seven bytes of padding. -/
theorem option_pad_minimal_padding_witness :
    ∃ p, option_pad 9 3 0 8 2 = some p ∧ 0 ≤ p.needpad ∧
      p.indx = 3 + p.needpad ∧ p.c = 0 + p.needpad ∧
      (3 + p.needpad) % 8 = 2 ∧
      ∀ m : Int, 0 ≤ m → (3 + m) % 8 = 2 → p.needpad ≤ m :=
  option_pad_minimal_padding 9 3 0 8 2 (by decide) (by decide) (by decide) (by decide)

/-- C6 as stated fails at offset 0 with alignment `259n + 258`: the padding need
is 258, the padder stores 258 bytes, and the length byte, the second one, is 0,
not `258 - 2 = 256`, which does not fit a `uint8_t`. -/
theorem option_pad_length_byte_wraps :
    ∃ p, option_pad 259 0 0 259 258 = some p ∧ p.needpad = 258 ∧
      p.bytes.length = 258 ∧ p.bytes.take 2 = [1, 0] ∧ p.needpad - 2 = 256 :=
  ⟨{ needpad := 258, indx := 258, c := 258, bytes := [1, 0] ++ List.replicate 256 0 },
    by decide!, by decide!, by decide!, by decide!, by decide!⟩

/-- C6, amended. Whenever `option_pad` computes a padding need `n`: `n ≥ 0`
and it stores exactly `n` bytes; none if `n = 0`; the single byte 0 if `n = 1`;
and if `n > 1` the type byte 1, a length byte equal to `(n - 2) mod 256`, which
is `n - 2` as long as `n ≤ 257`, and then `n - 2` zero bytes. -/
theorem option_pad_bytes (fuel : Nat) (indx c x y : Int) (p : PadResult)
    (h : option_pad fuel indx c x y = some p) :
    0 ≤ p.needpad ∧ (p.bytes.length : Int) = p.needpad ∧ p.c = c + p.needpad ∧
      (p.needpad = 0 → p.bytes = []) ∧
      (p.needpad = 1 → p.bytes = [0]) ∧
      (1 < p.needpad →
        p.bytes = [1, ((p.needpad - 2) % 256).toNat]
          ++ List.replicate (p.needpad - 2).toNat 0) ∧
      (1 < p.needpad → p.needpad ≤ 257 →
        p.bytes = [1, (p.needpad - 2).toNat] ++ List.replicate (p.needpad - 2).toNat 0) := by
  unfold option_pad at h
  cases hn : needpad_loop indx x y fuel 0 with
  | none => rw [hn] at h; cases h
  | some n =>
    have h0 := (needpad_loop_spec indx x y fuel n hn).1
    rw [hn] at h
    dsimp only at h
    split_ifs at h with h1 h2
    · cases h
      dsimp only
      refine ⟨by omega, by simp [h1], by omega, ?_, ?_, ?_, ?_⟩
      · intro; omega
      · intro; rfl
      · intro; omega
      · intro; omega
    · cases h
      dsimp only
      refine ⟨by omega, ?_, by omega, ?_, ?_, ?_, ?_⟩
      · simp only [List.length_append, List.length_cons, List.length_nil,
          List.length_replicate]
        push_cast
        omega
      · intro; omega
      · intro; omega
      · intro; rfl
      · intro _ h257
        rw [Int.emod_eq_of_lt (by omega) (by omega)]
    · cases h
      have hz : n = 0 := by omega
      dsimp only
      refine ⟨by omega, by simp [hz], by omega, ?_, ?_, ?_, ?_⟩
      · intro; rfl
      · intro; omega
      · intro; omega
      · intro; omega

/-- C6, amended, at offset 6 with alignment `8n + 0`: the two-byte PadN. -/
theorem option_pad_bytes_witness :
    0 ≤ (2 : Int) ∧ (([1, 0] : List Nat).length : Int) = 2 ∧ (62 : Int) = 60 + 2 ∧
      ((2 : Int) = 0 → ([1, 0] : List Nat) = []) ∧
      ((2 : Int) = 1 → ([1, 0] : List Nat) = [0]) ∧
      (1 < (2 : Int) →
        ([1, 0] : List Nat) = [1, (((2 : Int) - 2) % 256).toNat]
          ++ List.replicate ((2 : Int) - 2).toNat 0) ∧
      (1 < (2 : Int) → (2 : Int) ≤ 257 →
        ([1, 0] : List Nat) = [1, ((2 : Int) - 2).toNat]
          ++ List.replicate ((2 : Int) - 2).toNat 0) :=
  option_pad_bytes 9 6 60 8 0 { needpad := 2, indx := 8, c := 62, bytes := [1, 0] } (by rfl)

/-- The size pass loop finishes when every option has `0 ≤ y < x` and the fuel
exceeds every `x`; the index never moves back. -/
theorem size_opts_terminates (fuel : Nat) (opts : List ExtOption) (indx : Int)
    (hi : 0 ≤ indx) (hv : ∀ o ∈ opts, 0 ≤ o.y ∧ o.y < o.x ∧ o.x < fuel) :
    ∃ a, size_opts fuel opts indx = some a ∧ indx ≤ a := by
  induction opts generalizing indx with
  | nil => exact ⟨indx, rfl, Int.le_refl _⟩
  | cons o rest ih =>
    obtain ⟨hy, hyx, hf⟩ := hv o (List.mem_cons_self _ _)
    obtain ⟨a1, ha1, hle1, _⟩ := align_loop_terminates o.x o.y indx fuel hi hy hyx hf
    have hlen : (0 : Int) ≤ o.optlen := by simp [ExtOption.optlen]
    obtain ⟨a, ha, hle⟩ := ih (a1 + o.optlen) (by omega)
      (fun o2 ho2 => hv o2 (List.mem_cons_of_mem _ ho2))
    refine ⟨a, ?_, by omega⟩
    unfold size_opts
    rw [ha1]
    exact ha

/-- The size pass of a non-empty option list, all in one: it finishes, the
final index is a positive multiple of 8, it is the total header length
`hdrlen + opt_totlen + optpadlen`, and the stored length byte is
`(indx - 8) / 8` modulo 256. -/
theorem ext_size_pass_spec (fuel : Nat) (opts : List ExtOption) (hne : opts ≠ [])
    (hv : ∀ o ∈ opts, 0 ≤ o.y ∧ o.y < o.x ∧ o.x < fuel) (hf : 8 < fuel) :
    ∃ sz, ext_size_pass 2 fuel opts = some sz ∧
      8 ≤ 2 + sz.opt_totlen + sz.optpadlen ∧
      (2 + sz.opt_totlen + sz.optpadlen) % 8 = 0 ∧
      (sz.hdr_len : Int) = ((2 + sz.opt_totlen + sz.optpadlen) / 8 - 1) % 256 := by
  obtain ⟨a, ha, hle⟩ := size_opts_terminates fuel opts (0 + 2) (by decide) hv
  obtain ⟨b, hb, hle2, _, hmod, _⟩ :=
    align_loop_terminates 8 0 a fuel (by omega) (by decide) (by decide) (by omega)
  have hpos : opts.length > 0 := List.length_pos.mpr hne
  refine ⟨{ opt_totlen := opt_totlen opts, optpadlen := b - 2 - opt_totlen opts,
             hdr_len := ((if (b - 8).tdiv 8 < 0 then 0 else (b - 8).tdiv 8) % 256).toNat },
    ?_, ?_, ?_, ?_⟩
  · unfold ext_size_pass
    rw [if_pos hpos, ha]
    dsimp only
    rw [hb]
  · dsimp only; omega
  · dsimp only
    rw [show 2 + opt_totlen opts + (b - 2 - opt_totlen opts) = b by omega]
    exact hmod
  · dsimp only
    rw [show 2 + opt_totlen opts + (b - 2 - opt_totlen opts) = b by omega]
    have h8 : (b - 8).tdiv 8 = b / 8 - 1 := by
      rw [Int.tdiv_eq_ediv (by omega) (by decide)]
      omega
    rw [h8, if_neg (by omega)]
    exact Int.toNat_of_nonneg (Int.emod_nonneg _ (by decide))

/-- C7. For every non-empty ordered option list with alignments `0 ≤ y < x`
(and fuel above every `x` and above 8), the size pass finishes, for the
hop-by-hop header and for the destination header alike, and the total length of
the header it lays out, `hoplen` resp. `dstlen`, is a multiple of 8. -/
theorem ext_header_length_multiple_of_8 (fuel : Nat) (opts : List ExtOption)
    (hne : opts ≠ []) (hv : ∀ o ∈ opts, 0 ≤ o.y ∧ o.y < o.x ∧ o.x < fuel) (hf : 8 < fuel) :
    (∃ sz, hop_size_pass fuel opts = some sz ∧ hoplen opts sz % 8 = 0) ∧
      (∃ sz, dst_size_pass fuel opts = some sz ∧ dstlen opts sz % 8 = 0) := by
  obtain ⟨sz, hsz, _, hmod, _⟩ := ext_size_pass_spec fuel opts hne hv hf
  have hpos : opts.length > 0 := List.length_pos.mpr hne
  constructor
  · exact ⟨sz, hsz, by simp only [hoplen, if_pos hpos, HOP_HDRLEN]; exact hmod⟩
  · exact ⟨sz, hsz, by simp only [dstlen, if_pos hpos, DST_HDRLEN]; exact hmod⟩

/-- C7 at the two options of `main`, laid out one after the other. -/
theorem ext_header_length_multiple_of_8_witness :
    (∃ sz, hop_size_pass 9 [router_alert, ilnp_nonce] = some sz ∧
        hoplen [router_alert, ilnp_nonce] sz % 8 = 0) ∧
      (∃ sz, dst_size_pass 9 [router_alert, ilnp_nonce] = some sz ∧
        dstlen [router_alert, ilnp_nonce] sz % 8 = 0) :=
  ext_header_length_multiple_of_8 9 [router_alert, ilnp_nonce] (by decide) (by decide)
    (by decide)

/-- C8 as stated fails for nine options of 256 bytes each, which the option
buffers of `main` can hold: the header is 2312 bytes long, so the claim asks for
`2312 / 8 - 1 = 288`, and the `uint8_t` field `hdr_len` holds 32. -/
theorem hdr_len_wraps_for_nine_long_options :
    nine_long_options ≠ [] ∧
      ∃ sz, hop_size_pass 9 nine_long_options = some sz ∧
        hoplen nine_long_options sz = 2312 ∧ sz.hdr_len = 32 ∧
        (sz.hdr_len : Int) ≠ hoplen nine_long_options sz / 8 - 1 :=
  ⟨by decide, { opt_totlen := 2304, optpadlen := 6, hdr_len := 32 },
    by decide!, by decide!, by decide!, by decide!⟩

/-- C8, amended. For every non-empty option list with alignments `0 ≤ y < x`
the size pass finishes and the header-length byte it stores (`hophdr.hdr_len`,
resp. `dsthdr.hdr_len`) equals `(total header length / 8) - 1` modulo 256; it
equals `(total header length / 8) - 1` whenever the total header length is at
most 2048 bytes. -/
theorem hdr_len_eq (fuel : Nat) (opts : List ExtOption)
    (hne : opts ≠ []) (hv : ∀ o ∈ opts, 0 ≤ o.y ∧ o.y < o.x ∧ o.x < fuel) (hf : 8 < fuel) :
    (∃ sz, hop_size_pass fuel opts = some sz ∧
        (sz.hdr_len : Int) = (hoplen opts sz / 8 - 1) % 256 ∧
        (hoplen opts sz ≤ 2048 → (sz.hdr_len : Int) = hoplen opts sz / 8 - 1)) ∧
      (∃ sz, dst_size_pass fuel opts = some sz ∧
        (sz.hdr_len : Int) = (dstlen opts sz / 8 - 1) % 256 ∧
        (dstlen opts sz ≤ 2048 → (sz.hdr_len : Int) = dstlen opts sz / 8 - 1)) := by
  obtain ⟨sz, hsz, h8, _, hlen⟩ := ext_size_pass_spec fuel opts hne hv hf
  have hpos : opts.length > 0 := List.length_pos.mpr hne
  constructor
  · refine ⟨sz, hsz, ?_, ?_⟩
    · simp only [hoplen, if_pos hpos, HOP_HDRLEN]; exact hlen
    · simp only [hoplen, if_pos hpos, HOP_HDRLEN]
      intro h
      rw [hlen]
      omega
  · refine ⟨sz, hsz, ?_, ?_⟩
    · simp only [dstlen, if_pos hpos, DST_HDRLEN]; exact hlen
    · simp only [dstlen, if_pos hpos, DST_HDRLEN]
      intro h
      rw [hlen]
      omega

/-- C8, amended, at the two options of `main`, laid out one after the other. -/
theorem hdr_len_eq_witness :
    (∃ sz, hop_size_pass 9 [router_alert, ilnp_nonce] = some sz ∧
        (sz.hdr_len : Int) = (hoplen [router_alert, ilnp_nonce] sz / 8 - 1) % 256 ∧
        (hoplen [router_alert, ilnp_nonce] sz ≤ 2048 →
          (sz.hdr_len : Int) = hoplen [router_alert, ilnp_nonce] sz / 8 - 1)) ∧
      (∃ sz, dst_size_pass 9 [router_alert, ilnp_nonce] = some sz ∧
        (sz.hdr_len : Int) = (dstlen [router_alert, ilnp_nonce] sz / 8 - 1) % 256 ∧
        (dstlen [router_alert, ilnp_nonce] sz ≤ 2048 →
          (sz.hdr_len : Int) = dstlen [router_alert, ilnp_nonce] sz / 8 - 1)) :=
  hdr_len_eq 9 [router_alert, ilnp_nonce] (by decide) (by decide) (by decide)

/-! ## The checksum: claims C9 and C10 -/

theorem shiftRight_16 (s : Int) : Int.shiftRight s 16 = s / 65536 := by
  have := Int.shiftRight_eq_div_pow s 16
  norm_num at this
  exact this

theorem land_ffff (s : Int) (h : 0 ≤ s) : Int.land s 0xFFFF = s % 65536 := by
  obtain ⟨n, rfl⟩ := Int.eq_ofNat_of_zero_le h
  have := Nat.and_pow_two_sub_one_eq_mod n 16
  norm_num at this
  show Int.land (Int.ofNat n) (Int.ofNat 65535) = _
  simp only [Int.land, this]
  norm_cast

theorem not_eq_neg_sub_one (s : Int) : Int.not s = -s - 1 := by
  cases s with
  | ofNat n => simp only [Int.not, Int.ofNat_eq_coe, Int.negSucc_eq]; omega
  | negSucc n => simp only [Int.not, Int.negSucc_eq, Int.ofNat_eq_coe]; omega

/-- The two fold steps of the code and the complement, on a sum in the range
of `int`: the result is `65535 - F` with `F` congruent to the sum modulo 65535,
and `F` is 0 only for the sum 0. -/
theorem code_fold_spec (s : Int) (hs0 : 0 ≤ s) (hs : s ≤ 2147483647) :
    ∃ F q : Int, code_answer s = 65535 - F ∧
      s = F + 65535 * q ∧ 0 ≤ F ∧ F ≤ 65535 ∧ 0 ≤ q ∧ (F = 0 → s = 0) := by
  unfold code_answer
  refine ⟨(s / 65536 + s % 65536) - 65535 * ((s / 65536 + s % 65536) / 65536),
    s / 65536 + (s / 65536 + s % 65536) / 65536, ?_, ?_, ?_, ?_, ?_, ?_⟩ <;> omega

/-- The two fold steps of the spec and the complement, likewise. -/
theorem reference_fold_spec (r : Nat) (hr : r ≤ 2147483647) :
    ∃ G q : Int, (reference_answer r : Int) = 65535 - G ∧
      (r : Int) = G + 65535 * q ∧ 0 ≤ G ∧ G ≤ 65535 ∧ 0 ≤ q ∧ (G = 0 → (r : Int) = 0) := by
  unfold reference_answer
  refine ⟨((r : Int) / 65536 + (r : Int) % 65536)
      - 65535 * (((r : Int) / 65536 + (r : Int) % 65536) / 65536),
    (r : Int) / 65536 + ((r : Int) / 65536 + (r : Int) % 65536) / 65536,
    ?_, ?_, ?_, ?_, ?_, ?_⟩ <;> omega

/-- Two folded sums whose unfolded sums are byte swaps of each other modulo
65535 are byte swaps of each other. -/
theorem swap_residue (F G s r q q2 k k2 : Int)
    (hF0 : 0 ≤ F) (hF : F ≤ 65535) (hG0 : 0 ≤ G) (hG : G ≤ 65535)
    (hs : s = F + 65535 * q) (hr : r = G + 65535 * q2) (hq : 0 ≤ q) (hq2 : 0 ≤ q2)
    (hk : 0 ≤ k) (hk2 : 0 ≤ k2)
    (hFz : F = 0 → s = 0) (hGz : G = 0 → r = 0)
    (h1 : 256 * s = r + 65535 * k) (h2 : 256 * r = s + 65535 * k2) :
    F % 256 * 256 + F / 256 = G := by
  have hd : q2 + k - 256 * q - F / 256 = -1 ∨ q2 + k - 256 * q - F / 256 = 0
      ∨ q2 + k - 256 * q - F / 256 = 1 := by omega
  rcases hd with hd | hd | hd <;> omega

/-- The summing loop returns the word sum whenever that stays within `int`. -/
theorem checksum_sum_eq (o : ByteOrder) :
    ∀ (buf : List Nat) (acc : Int), acc + (word_sum o buf : Int) ≤ INT_MAX →
      checksum_sum o buf acc = some (acc + (word_sum o buf : Int))
  | [], acc, _ => by simp [checksum_sum, word_sum]
  | [b0], acc, h => by
    simp only [word_sum] at h
    simp only [checksum_sum, word_sum, if_pos h]
  | b0 :: b1 :: rest, acc, h => by
    simp only [word_sum] at h
    push_cast at h
    have h1 : acc + (load16 o b0 b1 : Int) ≤ INT_MAX := by omega
    have ih := checksum_sum_eq o rest (acc + (load16 o b0 b1 : Int)) (by omega)
    simp only [checksum_sum, word_sum, if_pos h1, ih]
    push_cast
    rw [Int.add_assoc]

theorem load16_le (o : ByteOrder) (b0 b1 : Nat) (h0 : b0 < 256) (h1 : b1 < 256) :
    load16 o b0 b1 ≤ 65535 := by
  cases o <;> simp only [load16] <;> omega

/-- Each word is at most 65535. -/
theorem word_sum_le (o : ByteOrder) :
    ∀ (buf : List Nat), (∀ b ∈ buf, b < 256) →
      word_sum o buf ≤ 65535 * ((buf.length + 1) / 2)
  | [], _ => by simp [word_sum]
  | [b0], h => by
    have := load16_le o b0 0 (h b0 (by simp)) (by decide)
    simp only [word_sum, List.length_cons, List.length_nil]
    omega
  | b0 :: b1 :: rest, h => by
    have h01 := load16_le o b0 b1 (h b0 (by simp)) (h b1 (by simp))
    have ih := word_sum_le o rest (fun b hb => h b (by simp [hb]))
    simp only [word_sum, List.length_cons]
    omega

/-- On a buffer of even length the accumulator of the spec holds the sum of
the big-endian words, as long as that fits 32 bits. -/
theorem reference_sum_eq :
    ∀ (buf : List Nat) (acc : Nat), buf.length % 2 = 0 →
      acc + word_sum ByteOrder.big buf < 4294967296 →
      reference_sum buf acc = acc + word_sum ByteOrder.big buf
  | [], acc, _, _ => by simp [reference_sum, word_sum]
  | [b0], acc, h, _ => by simp at h
  | b0 :: b1 :: rest, acc, h, hlt => by
    simp only [word_sum, load16] at hlt
    simp only [List.length_cons] at h
    have ih := reference_sum_eq rest (acc + (256 * b0 + b1)) (by omega) (by omega)
    simp only [reference_sum, word_sum, load16]
    rw [Nat.mod_eq_of_lt (by omega), ih]
    omega

/-- On a buffer of even length, 256 times the sum of the words in one byte
order is the sum in the other byte order plus a multiple of 65535. -/
theorem word_sum_swap :
    ∀ (buf : List Nat), buf.length % 2 = 0 →
      ∃ k k2 : Nat,
        256 * word_sum ByteOrder.little buf = word_sum ByteOrder.big buf + 65535 * k ∧
        256 * word_sum ByteOrder.big buf = word_sum ByteOrder.little buf + 65535 * k2
  | [], _ => ⟨0, 0, by simp [word_sum]⟩
  | [b0], h => by simp at h
  | b0 :: b1 :: rest, h => by
    simp only [List.length_cons] at h
    obtain ⟨k, k2, h1, h2⟩ := word_sum_swap rest (by omega)
    refine ⟨k + b1, k2 + b0, ?_, ?_⟩ <;> simp only [word_sum, load16] <;> omega

theorem reference_fold_eq (n : Nat) : reference_fold n = n / 65536 + n % 65536 := by
  have h1 := Nat.and_pow_two_sub_one_eq_mod n 16
  have h2 : n >>> 16 = n / 65536 := by rw [Nat.shiftRight_eq_div_pow]
  norm_num at h1
  simp only [reference_fold, h1, h2]

/-- The value the code returns on a sum `s`, once the bit operations are
written with quotient and remainder. -/
theorem code_answer_eq (s : Int) (hs0 : 0 ≤ s) :
    Int.not ((Int.shiftRight s 16 + Int.land s 0xFFFF)
        + Int.shiftRight (Int.shiftRight s 16 + Int.land s 0xFFFF) 16) % 65536
      = (-((s / 65536 + s % 65536) + (s / 65536 + s % 65536) / 65536) - 1) % 65536 := by
  rw [not_eq_neg_sub_one, shiftRight_16, shiftRight_16, land_ffff s hs0]

/-- The bytes of a value and of its byte swap, in opposite memory orders. -/
theorem store16_little_eq_be16 (a : Int) (ref : Nat) (F G : Int) (ha : a = 65535 - F)
    (href : (ref : Int) = 65535 - G) (hF0 : 0 ≤ F) (hF1 : F ≤ 65535)
    (hsw : F % 256 * 256 + F / 256 = G) :
    store16 ByteOrder.little a = be16 ref := by
  have e1 : a / 256 = 255 - F / 256 := by omega
  have e2 : a % 256 = 255 - F % 256 := by omega
  have e3 : (ref : Int) / 256 = 255 - F % 256 := by omega
  have e4 : (ref : Int) % 256 = 255 - F / 256 := by omega
  simp only [store16, be16, List.cons.injEq, and_true]
  constructor <;> omega

theorem store16_big_eq_be16 (a : Int) (ref : Nat) (h : (ref : Int) = a) :
    store16 ByteOrder.big a = be16 ref := by
  simp only [store16, be16, List.cons.injEq, and_true]
  constructor <;> omega

/-- On a little-endian machine the bytes of the returned value, in memory
order, are the big-endian bytes of the reference value. -/
theorem answer_bytes_little (s r k k2 : Nat) (hs : s ≤ 2147483647) (hr : r ≤ 2147483647)
    (h1 : 256 * s = r + 65535 * k) (h2 : 256 * r = s + 65535 * k2) :
    store16 ByteOrder.little (code_answer s) = be16 (reference_answer r) := by
  obtain ⟨F, q, hF, hsF, hF0, hF1, hq, hFz⟩ := code_fold_spec (s : Int) (by omega) (by omega)
  obtain ⟨G, q2, hG, hrG, hG0, hG1, hq2, hGz⟩ := reference_fold_spec r hr
  have hsw := swap_residue F G s r q q2 k k2 hF0 hF1 hG0 hG1 hsF hrG hq hq2
    (by omega) (by omega) hFz hGz (by omega) (by omega)
  exact store16_little_eq_be16 _ _ F G hF hG hF0 hF1 hsw

/-- On a big-endian machine the returned value is the reference value. -/
theorem answer_bytes_big (s : Nat) :
    store16 ByteOrder.big (code_answer s) = be16 (reference_answer s) := by
  have hrefc : (reference_answer s : Int) = code_answer s := by
    unfold reference_answer code_answer
    omega
  exact store16_big_eq_be16 _ _ hrefc

/-- C10. For every buffer of bytes of even length at most 65535, on a machine
of either byte order: `checksum` returns, and the two bytes its `uint16_t`
result occupies in memory are the big-endian encoding of the reference
checksum of the spec (big-endian words summed in a 32-bit accumulator, the
fold `(sum >> 16) + (sum & 0xFFFF)` applied twice, complement of the low 16
bits), although the code sums words in host order and its second fold step is
`sum += (sum >> 16)`. -/
theorem checksum_bytes_eq_reference (o : ByteOrder) (buf : List Nat)
    (hb : ∀ b ∈ buf, b < 256) (heven : buf.length % 2 = 0) (hlen : buf.length ≤ 65535) :
    ∃ answer, checksum o buf buf.length = some answer ∧
      store16 o answer = be16 (reference_checksum buf) := by
  have hS := word_sum_le o buf hb
  have hR := word_sum_le ByteOrder.big buf hb
  have hL := word_sum_le ByteOrder.little buf hb
  have hsum := checksum_sum_eq o buf 0 (by simp only [INT_MAX]; omega)
  have href := reference_sum_eq buf 0 heven (by omega)
  rw [Int.zero_add] at hsum
  rw [Nat.zero_add] at href
  have hck : checksum o buf buf.length = some (code_answer (word_sum o buf)) := by
    unfold checksum
    rw [if_neg (by omega), Int.toNat_ofNat, List.take_length, hsum]
    dsimp only
    rw [code_answer_eq _ (by omega)]
    rfl
  have hrf : reference_checksum buf = reference_answer (word_sum ByteOrder.big buf) := by
    simp only [reference_checksum, href, reference_fold_eq, reference_answer]
  refine ⟨_, hck, ?_⟩
  rw [hrf]
  cases o with
  | big => exact answer_bytes_big _
  | little =>
    obtain ⟨k, k2, h1, h2⟩ := word_sum_swap buf heven
    exact answer_bytes_little _ _ k k2 (by omega) (by omega) h1 h2

/-- C10 on a six-byte buffer whose sum needs both fold steps, on a
little-endian machine. -/
theorem checksum_bytes_eq_reference_witness :
    ∃ answer, checksum ByteOrder.little [255, 255, 255, 255, 1, 0]
        ([255, 255, 255, 255, 1, 0] : List Nat).length = some answer ∧
      store16 ByteOrder.little answer = be16 (reference_checksum [255, 255, 255, 255, 1, 0]) :=
  checksum_bytes_eq_reference ByteOrder.little [255, 255, 255, 255, 1, 0] (by decide)
    (by decide) (by decide)

/-- A store at the end of what has been written so far, into a buffer that is
zero from there on. -/
theorem pseudo_put_at_end (w src : List Nat) (k : Nat) (n : Int) :
    pseudo_put { buf := w ++ List.replicate k 0, ptr := w.length, chksumlen := n } src
      = if src.length ≤ k then
          some { buf := (w ++ src) ++ List.replicate (k - src.length) 0
                 ptr := (w ++ src).length
                 chksumlen := n + src.length }
        else none := by
  unfold pseudo_put
  simp only [List.length_append, List.length_replicate]
  by_cases h : src.length ≤ k
  · rw [if_pos (by omega), if_pos h]
    congr 2
    rw [List.take_left' rfl, List.drop_append_eq_append_drop]
    simp [List.drop_eq_nil_of_le]
  · rw [if_neg (by omega), if_neg h]

/-- The stores of a list of segments: all of them fit, and the buffer holds
them in order, or one runs past the end. -/
theorem pseudo_put_all_at_end (segs : List (List Nat)) (w : List Nat) (k : Nat) (n : Int) :
    pseudo_put_all segs { buf := w ++ List.replicate k 0, ptr := w.length, chksumlen := n }
      = if segs.flatten.length ≤ k then
          some { buf := (w ++ segs.flatten) ++ List.replicate (k - segs.flatten.length) 0
                 ptr := (w ++ segs.flatten).length
                 chksumlen := n + segs.flatten.length }
        else none := by
  induction segs generalizing w k n with
  | nil => simp [pseudo_put_all]
  | cons src rest ih =>
    unfold pseudo_put_all
    rw [pseudo_put_at_end]
    by_cases h : src.length ≤ k
    · rw [if_pos h]
      dsimp only
      rw [ih]
      simp only [List.flatten_cons, List.length_append]
      by_cases h2 : rest.flatten.length ≤ k - src.length
      · rw [if_pos h2, if_pos (by omega)]
        simp only [List.append_assoc, List.length_append, Nat.sub_sub]
        congr 2
        all_goals (push_cast; omega)
      · rw [if_neg h2, if_neg (by omega)]
    · rw [if_neg h]
      dsimp only
      rw [if_neg]
      simp only [List.flatten_cons, List.length_append]
      omega

theorem be16_length (v : Nat) : (be16 v).length = 2 := rfl

theorem be32_length (v : Nat) : (be32 v).length = 4 := rfl

theorem tcphdr_bytes_length (t : tcphdr) : (tcphdr_bytes t).length = 20 := by
  simp [tcphdr_bytes, be16_length, be32_length]

/-- The stores of `tcp6_checksum` are 60 bytes and the payload. -/
theorem tcp6_stores_flatten (iphdr : ip6_hdr) (t : tcphdr) (payload : List Nat)
    (hp : 20 + payload.length < 4294967296) :
    (tcp6_stores iphdr t payload payload.length).flatten
      = List.ofFn iphdr.ip6_src ++ List.ofFn iphdr.ip6_dst ++ be32 (20 + payload.length)
          ++ [0, 0, 0] ++ [iphdr.ip6_nxt] ++ tcphdr_bytes { t with th_sum := 0 } ++ payload := by
  have h1 : ((20 + (payload.length : Int)) % 4294967296).toNat = 20 + payload.length := by
    omega
  have h2 : (t.th_off.val <<< 4 + t.th_x2.val) % 256 = t.th_off.val * 16 + t.th_x2.val := by
    have := t.th_off.isLt
    have := t.th_x2.isLt
    rw [Nat.shiftLeft_eq]
    omega
  have h3 : be16 0 = [0, 0] := rfl
  simp only [tcp6_stores, h1, h2, Int.toNat_ofNat, List.take_length, tcphdr_bytes, h3,
    List.flatten_cons, List.flatten_nil, List.append_assoc, List.append_nil,
    List.cons_append, List.nil_append]

theorem tcp6_stores_length (iphdr : ip6_hdr) (t : tcphdr) (payload : List Nat)
    (hp : 20 + payload.length < 4294967296) :
    (tcp6_stores iphdr t payload payload.length).flatten.length = 60 + payload.length := by
  rw [tcp6_stores_flatten iphdr t payload hp]
  simp only [List.length_append, List.length_ofFn, be32_length, tcphdr_bytes_length,
    List.length_cons, List.length_nil]

theorem tmod_two_eq_zero_iff (a : Int) : a.tmod 2 = 0 ↔ a % 2 = 0 := by
  constructor
  · intro h
    have := Int.tmod_def a 2
    omega
  · intro h
    exact Int.tmod_eq_zero_of_dvd (Int.dvd_of_emod_eq_zero h)

/-- The two turns granted to the padding loop reach its exit test, whatever
the payload length: the bounded loop is the loop of the source. -/
theorem pad_loop_exit (payloadlen chksumlen : Int) :
    (payloadlen + (pad_loop payloadlen 2 0 chksumlen).1).tmod 2 = 0 := by
  simp only [pad_loop]
  by_cases h0 : (payloadlen + 0).tmod 2 = 0
  · rw [if_neg (by simpa using h0)]
    exact h0
  · rw [if_pos h0]
    have h1 : (payloadlen + (0 + 1)).tmod 2 = 0 := by
      rw [tmod_two_eq_zero_iff] at h0 ⊢
      omega
    rw [if_neg (by simpa using h1)]
    exact h1

/-- The padding loop adds one to `chksumlen` exactly when the payload length
is odd. -/
theorem pad_loop_eq (p : Nat) (n : Int) :
    (pad_loop (p : Int) 2 0 n).2 = n + ((p % 2 : Nat) : Int) := by
  have e0 : ((p : Int) + 0).tmod 2 = (p : Int) % 2 := by
    rw [Int.tmod_eq_emod (by omega) (by decide)]; simp
  have e1 : ((p : Int) + (0 + 1)).tmod 2 = ((p : Int) + 1) % 2 := by
    rw [Int.tmod_eq_emod (by omega) (by decide)]; simp
  simp only [pad_loop, e0, e1]
  split_ifs <;> simp only [] <;> omega

/-- What `tcp6_checksum` has built when it calls `checksum`, for a payload
that fits `buf`: the 60 bytes of pseudo-header and TCP header and the payload,
followed by the zero bytes `memset` left, and the length `60 + p` rounded up
to an even number. -/
theorem tcp6_checksum_buf_eq (iphdr : ip6_hdr) (t : tcphdr) (payload : List Nat)
    (hfit : 60 + payload.length ≤ IP_MAXPACKET) :
    tcp6_checksum_buf iphdr t payload payload.length
      = some ((List.ofFn iphdr.ip6_src ++ List.ofFn iphdr.ip6_dst ++ be32 (20 + payload.length)
            ++ [0, 0, 0] ++ [iphdr.ip6_nxt] ++ tcphdr_bytes { t with th_sum := 0 } ++ payload)
          ++ List.replicate (IP_MAXPACKET - (60 + payload.length)) 0,
        ((60 + payload.length + payload.length % 2 : Nat) : Int)) := by
  have hp : 20 + payload.length < 4294967296 := by
    simp only [IP_MAXPACKET] at hfit; omega
  have hlen := tcp6_stores_length iphdr t payload hp
  have hall := pseudo_put_all_at_end (tcp6_stores iphdr t payload payload.length) []
    IP_MAXPACKET 0
  rw [hlen, if_pos hfit, tcp6_stores_flatten iphdr t payload hp] at hall
  unfold tcp6_checksum_buf
  generalize IP_MAXPACKET = N at hfit hall ⊢
  rw [List.nil_append, List.nil_append, List.length_nil] at hall
  rw [if_neg (by omega), hall]
  dsimp only
  rw [pad_loop_eq]
  congr 2
  push_cast
  omega

theorem pseudo_packet_length (iphdr : ip6_hdr) (t : tcphdr) (payload : List Nat) :
    (pseudo_packet iphdr t payload).length = 60 + payload.length + payload.length % 2 := by
  simp only [pseudo_packet, List.length_append, List.length_ofFn, be32_length,
    tcphdr_bytes_length, List.length_cons, List.length_nil]
  split_ifs <;> simp only [List.length_cons, List.length_nil] <;> omega

/-- A length past the end of the object makes `checksum` read outside it. -/
theorem checksum_past_end (o : ByteOrder) (addr : List Nat) (len : Int)
    (h : len > addr.length) : checksum o addr len = none := by
  unfold checksum
  rw [if_pos h]

theorem tcp6_checksum_of_buf (o : ByteOrder) (iphdr : ip6_hdr) (t : tcphdr)
    (payload : List Nat) (payloadlen : Int) (buf : List Nat) (len : Int)
    (h : tcp6_checksum_buf iphdr t payload payloadlen = some (buf, len)) :
    tcp6_checksum o iphdr t payload payloadlen = checksum o buf len := by
  unfold tcp6_checksum
  rw [h]

theorem payload_65475_length : payload_65475.length = 65475 :=
  List.length_replicate _ _

/-- The buffer and the length `tcp6_checksum` reaches for 65475 payload bytes. -/
theorem tcp6_checksum_buf_65475 :
    tcp6_checksum_buf iphdr_main tcphdr_main payload_65475 65475
      = some ((List.ofFn iphdr_main.ip6_src ++ List.ofFn iphdr_main.ip6_dst
            ++ be32 (20 + 65475) ++ [0, 0, 0] ++ [iphdr_main.ip6_nxt]
            ++ tcphdr_bytes { tcphdr_main with th_sum := 0 } ++ payload_65475)
          ++ List.replicate (IP_MAXPACKET - (60 + 65475)) 0,
        65536) := by
  have h := tcp6_checksum_buf_eq iphdr_main tcphdr_main payload_65475
    (by rw [payload_65475_length]; decide)
  rw [payload_65475_length] at h
  have hcast : ((65475 : Nat) : Int) = 65475 := rfl
  have hcast2 : ((60 + 65475 + 65475 % 2 : Nat) : Int) = 65536 := rfl
  rw [hcast, hcast2] at h
  exact h

theorem tcp6_checksum_buf_65475_length :
    ((List.ofFn iphdr_main.ip6_src ++ List.ofFn iphdr_main.ip6_dst
      ++ be32 (20 + 65475) ++ [0, 0, 0] ++ [iphdr_main.ip6_nxt]
      ++ tcphdr_bytes { tcphdr_main with th_sum := 0 } ++ payload_65475)
      ++ List.replicate (IP_MAXPACKET - (60 + 65475)) 0).length = 65535 := by
  simp only [List.length_append, List.length_ofFn, be32_length, tcphdr_bytes_length,
    List.length_cons, List.length_nil, List.length_replicate, payload_65475_length,
    IP_MAXPACKET]

/-- C9 as stated fails for a payload of 65475 bytes. The 60 + 65475 bytes stored
fill the 65535 bytes of `buf`; the padding loop then counts one byte more, so
the length passed to `checksum` is 65536 and the padding byte the claim lists
lies past the end of `buf`: the first 65536 bytes of `buf` are not the 65536
bytes of the claim, and `checksum` would read outside the array. -/
theorem tcp6_checksum_pad_byte_outside_buf :
    ∃ buf, tcp6_checksum_buf iphdr_main tcphdr_main payload_65475 65475 = some (buf, 65536) ∧
      buf.length = 65535 ∧
      buf.take 65536 ≠ pseudo_packet iphdr_main tcphdr_main payload_65475 ∧
      tcp6_checksum ByteOrder.little iphdr_main tcphdr_main payload_65475 65475 = none := by
  refine ⟨_, tcp6_checksum_buf_65475, tcp6_checksum_buf_65475_length, ?_, ?_⟩
  · intro heq
    have h1 := congrArg List.length heq
    rw [pseudo_packet_length, payload_65475_length, List.length_take,
      tcp6_checksum_buf_65475_length] at h1
    omega
  · rw [tcp6_checksum_of_buf _ _ _ _ _ _ _ tcp6_checksum_buf_65475]
    apply checksum_past_end
    rw [tcp6_checksum_buf_65475_length]
    decide

/-- C9, amended. For every pair of addresses, TCP header and payload of length
`p` such that `60 + p`, rounded up to an even number, is at most the 65535
bytes of `buf`: the buffer `tcp6_checksum` hands to `checksum` begins with
exactly the source address (16 bytes), the destination address (16 bytes),
`20 + p` as a 32-bit big-endian integer, three zero bytes, the next-header
byte, the 20-byte TCP header with its checksum field zero, the `p` payload
bytes, and one zero byte if `p` is odd; and the length it passes is `60 + p`
rounded up to an even number. -/
theorem tcp6_checksum_buf_layout (iphdr : ip6_hdr) (t : tcphdr) (payload : List Nat)
    (hfit : 60 + payload.length + payload.length % 2 ≤ IP_MAXPACKET) :
    ∃ buf, tcp6_checksum_buf iphdr t payload payload.length
        = some (buf, ((60 + payload.length + payload.length % 2 : Nat) : Int)) ∧
      buf.length = IP_MAXPACKET ∧
      buf.take (60 + payload.length + payload.length % 2)
        = List.ofFn iphdr.ip6_src ++ List.ofFn iphdr.ip6_dst ++ be32 (20 + payload.length)
          ++ [0, 0, 0] ++ [iphdr.ip6_nxt] ++ tcphdr_bytes { t with th_sum := 0 } ++ payload
          ++ (if payload.length % 2 = 1 then [0] else []) ∧
      (List.ofFn iphdr.ip6_src).length = 16 ∧ (List.ofFn iphdr.ip6_dst).length = 16 ∧
      (be32 (20 + payload.length)).length = 4 ∧
      (tcphdr_bytes { t with th_sum := 0 }).length = 20 ∧
      (60 + payload.length + payload.length % 2) % 2 = 0 := by
  have h := tcp6_checksum_buf_eq iphdr t payload (by omega)
  have hcl : (List.ofFn iphdr.ip6_src ++ List.ofFn iphdr.ip6_dst ++ be32 (20 + payload.length)
      ++ [0, 0, 0] ++ [iphdr.ip6_nxt] ++ tcphdr_bytes { t with th_sum := 0 }
      ++ payload).length = 60 + payload.length := by
    simp only [List.length_append, List.length_ofFn, be32_length, tcphdr_bytes_length,
      List.length_cons, List.length_nil]
  refine ⟨_, h, ?_, ?_, List.length_ofFn _, List.length_ofFn _, rfl,
    tcphdr_bytes_length _, by omega⟩
  · rw [List.length_append, hcl, List.length_replicate]
    omega
  · generalize IP_MAXPACKET = N at hfit ⊢
    generalize (List.ofFn iphdr.ip6_src ++ List.ofFn iphdr.ip6_dst
      ++ be32 (20 + payload.length) ++ [0, 0, 0] ++ [iphdr.ip6_nxt]
      ++ tcphdr_bytes { t with th_sum := 0 } ++ payload) = content at hcl ⊢
    rw [show 60 + payload.length + payload.length % 2 = content.length + payload.length % 2
      by omega, List.take_append, List.take_replicate]
    congr 1
    split_ifs with hodd
    · rw [hodd, show min 1 (N - (60 + payload.length)) = 1 by omega]
      rfl
    · rw [show payload.length % 2 = 0 by omega, Nat.zero_min]
      rfl

/-- C9, amended, at the headers of `main` with a payload of three bytes. -/
theorem tcp6_checksum_buf_layout_witness :
    ∃ buf, tcp6_checksum_buf iphdr_main tcphdr_main [1, 2, 3] ([1, 2, 3] : List Nat).length
        = some (buf, ((60 + ([1, 2, 3] : List Nat).length
            + ([1, 2, 3] : List Nat).length % 2 : Nat) : Int)) ∧
      buf.length = IP_MAXPACKET ∧
      buf.take (60 + ([1, 2, 3] : List Nat).length + ([1, 2, 3] : List Nat).length % 2)
        = List.ofFn iphdr_main.ip6_src ++ List.ofFn iphdr_main.ip6_dst
          ++ be32 (20 + ([1, 2, 3] : List Nat).length)
          ++ [0, 0, 0] ++ [iphdr_main.ip6_nxt] ++ tcphdr_bytes { tcphdr_main with th_sum := 0 }
          ++ [1, 2, 3]
          ++ (if ([1, 2, 3] : List Nat).length % 2 = 1 then [0] else []) ∧
      (List.ofFn iphdr_main.ip6_src).length = 16 ∧ (List.ofFn iphdr_main.ip6_dst).length = 16 ∧
      (be32 (20 + ([1, 2, 3] : List Nat).length)).length = 4 ∧
      (tcphdr_bytes { tcphdr_main with th_sum := 0 }).length = 20 ∧
      (60 + ([1, 2, 3] : List Nat).length + ([1, 2, 3] : List Nat).length % 2) % 2 = 0 :=
  tcp6_checksum_buf_layout iphdr_main tcphdr_main [1, 2, 3] (by decide)

/-! ## More facts about the splitting loop -/

theorem round_down_of_nonpos (fuel : Nat) (l c : Int) (h : l ≤ 0) :
    round_down fuel l c = (l, c) := by
  cases fuel with
  | zero => rfl
  | succ n =>
    unfold round_down
    rw [if_neg]
    have := tmod_nonpos_of_nonpos l h
    omega

theorem round_down_of_le (fuel : Nat) (l c : Int) (h0 : 0 ≤ l) (hf : l % 8 ≤ fuel) :
    round_down fuel l c = (l - l % 8, c - l % 8) := by
  induction fuel generalizing l c with
  | zero =>
    have : l % 8 = 0 := by push_cast at hf; omega
    simp [round_down, this]
  | succ n ih =>
    unfold round_down
    rw [Int.tmod_eq_emod h0 (by decide)]
    split
    · rename_i hpos
      rw [ih (l - 1) (c - 1) (by omega) (by push_cast at hf; omega)]
      have : (l - 1) % 8 = l % 8 - 1 := by omega
      rw [this]
      congr 1 <;> omega
    · rename_i hnpos
      have : l % 8 = 0 := by omega
      simp [this]

/-- The rounding loop takes a non-negative length down to the multiple of 8
below it. -/
theorem round_down_of_nonneg (l c : Int) (h0 : 0 ≤ l) :
    round_down 7 l c = (l - l % 8, c - l % 8) :=
  round_down_of_le 7 l c h0 (by push_cast; omega)

/-- A turn moves `c` by the length it stores. -/
theorem frag_step_c (mtu hoplen fragbufferlen : Int) (s : FragState) :
    (frag_step mtu hoplen fragbufferlen s).c
      = s.c + (frag_step mtu hoplen fragbufferlen s).len s.i := by
  simp only [frag_step, arr_set, ↓reduceIte]
  split_ifs
  · rw [round_down_snd]; omega
  · omega
  · rw [round_down_snd]; omega
  · omega

/-- A turn stores at most what remains of the buffer. -/
theorem frag_step_len_le_remaining (mtu hoplen fragbufferlen : Int) (s : FragState) :
    (frag_step mtu hoplen fragbufferlen s).len s.i ≤ fragbufferlen - s.c := by
  simp only [frag_step, arr_set, ↓reduceIte]
  split_ifs with h1 h2 h3
  · exact Int.le_trans (round_down_fst_le _ _ _) (by omega)
  · show mtu - IP6_HDRLEN - hoplen - FRG_HDRLEN ≤ _
    omega
  · exact Int.le_trans (round_down_fst_le _ _ _) (by omega)
  · show fragbufferlen - s.c ≤ _
    omega

/-- The offset a turn stores for the next fragment. -/
theorem frag_step_offset_succ (mtu hoplen fragbufferlen : Int) (s : FragState) :
    (frag_step mtu hoplen fragbufferlen s).offset (s.i + 1)
      = ((frag_step mtu hoplen fragbufferlen s).len s.i).tdiv 8 + s.offset s.i := by
  simp only [frag_step, arr_set, ↓reduceIte]

theorem frag_step_offset_of_ne (mtu hoplen fragbufferlen : Int) (s : FragState) (j : Nat)
    (hj : j ≠ s.i + 1) : (frag_step mtu hoplen fragbufferlen s).offset j = s.offset j := by
  simp [frag_step, arr_set, hj]

/-- With a budget of at most 0, or a budget below 8 and more than `budget + 1`
bytes left, a turn does not move `c` forward. -/
theorem frag_step_c_le_of_stuck (mtu hoplen fragbufferlen : Int) (s : FragState)
    (hc : s.c < fragbufferlen)
    (hst : frag_budget mtu hoplen ≤ 0
      ∨ (frag_budget mtu hoplen ≤ 7 ∧ fragbufferlen - s.c > frag_budget mtu hoplen + 1)) :
    (frag_step mtu hoplen fragbufferlen s).c ≤ s.c := by
  rw [frag_step_c]
  simp only [frag_budget] at hst
  simp only [frag_step, arr_set, ↓reduceIte]
  split_ifs with h1 h2 h3
  · by_cases hB : mtu - IP6_HDRLEN - hoplen - FRG_HDRLEN ≤ 0
    · rw [round_down_of_nonpos _ _ _ hB]
      show s.c + (mtu - IP6_HDRLEN - hoplen - FRG_HDRLEN) ≤ s.c
      omega
    · rw [round_down_of_nonneg _ _ (by omega)]
      show s.c + (mtu - IP6_HDRLEN - hoplen - FRG_HDRLEN
        - (mtu - IP6_HDRLEN - hoplen - FRG_HDRLEN) % 8) ≤ s.c
      omega
  · show s.c + (mtu - IP6_HDRLEN - hoplen - FRG_HDRLEN) ≤ s.c
    omega
  · omega
  · show s.c + (fragbufferlen - s.c) ≤ s.c
    omega

/-- From such a state the loop never reaches its exit test, whatever the number
of turns. -/
theorem frag_loop_stuck (mtu hoplen fragbufferlen : Int) (fuel : Nat) (s : FragState)
    (hc : s.c < fragbufferlen)
    (hst : frag_budget mtu hoplen ≤ 0
      ∨ (frag_budget mtu hoplen ≤ 7 ∧ fragbufferlen - s.c > frag_budget mtu hoplen + 1)) :
    frag_loop mtu hoplen fragbufferlen fuel s = none := by
  induction fuel generalizing s with
  | zero => simp [frag_loop, hc]
  | succ n ih =>
    unfold frag_loop
    rw [if_pos hc]
    have hle := frag_step_c_le_of_stuck mtu hoplen fragbufferlen s hc hst
    apply ih _ (by omega)
    rcases hst with hB | ⟨hB7, hrem⟩
    · exact Or.inl hB
    · exact Or.inr ⟨hB7, by omega⟩

/-- An invariant of the turns taken from states that are not stuck holds of
every state the loop returns. -/
theorem frag_loop_invariant_live (mtu hoplen fragbufferlen : Int) (P : FragState → Prop)
    (hstep : ∀ s, s.c < fragbufferlen → 1 ≤ frag_budget mtu hoplen →
      (8 ≤ frag_budget mtu hoplen ∨ fragbufferlen - s.c ≤ frag_budget mtu hoplen + 1) →
      P s → P (frag_step mtu hoplen fragbufferlen s))
    (fuel : Nat) (s plan : FragState) (hs : P s)
    (h : frag_loop mtu hoplen fragbufferlen fuel s = some plan) :
    P plan ∧ ¬ plan.c < fragbufferlen := by
  induction fuel generalizing s with
  | zero =>
    unfold frag_loop at h
    split at h
    · cases h
    · cases h
      exact ⟨hs, by assumption⟩
  | succ n ih =>
    by_cases hc : s.c < fragbufferlen
    · by_cases hst : frag_budget mtu hoplen ≤ 0
          ∨ (frag_budget mtu hoplen ≤ 7
              ∧ fragbufferlen - s.c > frag_budget mtu hoplen + 1)
      · rw [frag_loop_stuck mtu hoplen fragbufferlen _ s hc hst] at h
        cases h
      · unfold frag_loop at h
        rw [if_pos hc] at h
        exact ih _ (hstep s hc (by omega) (by omega) hs) h
    · unfold frag_loop at h
      rw [if_neg hc] at h
      cases h
      exact ⟨hs, hc⟩

/-- A turn from a state that is not stuck stores a length of at least 1. -/
theorem frag_step_len_pos (mtu hoplen fragbufferlen : Int) (s : FragState)
    (hc : s.c < fragbufferlen) (hB : 1 ≤ frag_budget mtu hoplen)
    (hlive : 8 ≤ frag_budget mtu hoplen
      ∨ fragbufferlen - s.c ≤ frag_budget mtu hoplen + 1) :
    1 ≤ (frag_step mtu hoplen fragbufferlen s).len s.i := by
  simp only [frag_budget] at hB hlive
  simp only [frag_step, arr_set, ↓reduceIte]
  split_ifs with h1 h2 h3
  · rw [round_down_of_nonneg _ _ (by omega)]
    show 1 ≤ mtu - IP6_HDRLEN - hoplen - FRG_HDRLEN
      - (mtu - IP6_HDRLEN - hoplen - FRG_HDRLEN) % 8
    omega
  · show 1 ≤ mtu - IP6_HDRLEN - hoplen - FRG_HDRLEN
    omega
  · omega
  · show 1 ≤ fragbufferlen - s.c
    omega

theorem frag_loop_done (mtu hoplen fragbufferlen : Int) (fuel : Nat) (s : FragState)
    (hc : ¬ s.c < fragbufferlen) :
    frag_loop mtu hoplen fragbufferlen fuel s = some s := by
  cases fuel <;> simp [frag_loop, hc]

theorem len_sum_succ (s : FragState) (i : Nat) :
    len_sum s (i + 1) = len_sum s i + s.len i := by
  simp [len_sum, List.range_succ]

theorem len_sum_congr (s t : FragState) (i : Nat) (h : ∀ j, j < i → s.len j = t.len j) :
    len_sum s i = len_sum t i := by
  induction i with
  | zero => rfl
  | succ n ih =>
    rw [len_sum_succ, len_sum_succ, ih (fun j hj => h j (by omega)), h n (by omega)]

/-- At all times `c` is the sum of the lengths stored so far, and it does not
pass the end of a buffer of non-negative length. -/
theorem frag_loop_c_eq_len_sum (mtu hoplen fragbufferlen : Int) (h0 : 0 ≤ fragbufferlen)
    (fuel : Nat) (plan : FragState)
    (h : frag_loop mtu hoplen fragbufferlen fuel frag_init = some plan) :
    plan.c = len_sum plan plan.nframes ∧ plan.c = fragbufferlen := by
  have key := frag_loop_invariant mtu hoplen fragbufferlen
    (fun s => s.c = len_sum s s.i ∧ s.c ≤ fragbufferlen)
    (by
      intro s hc ⟨hsum, _⟩
      have hlen := frag_step_len_le_remaining mtu hoplen fragbufferlen s
      refine ⟨?_, by rw [frag_step_c]; omega⟩
      rw [frag_step_c, frag_step_i, len_sum_succ,
        len_sum_congr (frag_step mtu hoplen fragbufferlen s) s s.i
          (fun j hj => frag_step_len_of_ne mtu hoplen fragbufferlen s j (by omega)),
        hsum])
    fuel frag_init plan ⟨rfl, h0⟩ h
  exact ⟨key.1.1, by have := key.1.2; have := key.2; omega⟩

/-- What holds of every plan the loop returns: each fragment has a length of
at least 1, its slice lies inside the buffer, no offset is negative, and the
first fragment has offset 0. -/
theorem frag_loop_plan_facts (mtu hoplen fragbufferlen : Int) (fuel : Nat) (plan : FragState)
    (h : frag_loop mtu hoplen fragbufferlen fuel frag_init = some plan) :
    (∀ j, j < plan.nframes →
        1 ≤ plan.len j ∧ plan.offset j * 8 + plan.len j ≤ fragbufferlen) ∧
      (∀ j, 0 ≤ plan.offset j) ∧ plan.offset 0 = 0 := by
  have key := frag_loop_invariant_live mtu hoplen fragbufferlen
    (fun s => (∀ j, j < s.i → 1 ≤ s.len j ∧ s.offset j * 8 + s.len j ≤ s.c) ∧
      (∀ j, 0 ≤ s.offset j) ∧ s.offset 0 = 0 ∧ s.offset s.i * 8 ≤ s.c ∧
      (0 < s.i → s.c ≤ fragbufferlen))
    (by
      intro s hc hB hlive ⟨hlen, hoff, hoff0, hcur, _⟩
      have hpos := frag_step_len_pos mtu hoplen fragbufferlen s hc hB hlive
      have hrem := frag_step_len_le_remaining mtu hoplen fragbufferlen s
      have hcs := frag_step_c mtu hoplen fragbufferlen s
      have hos := frag_step_offset_succ mtu hoplen fragbufferlen s
      have htd : ((frag_step mtu hoplen fragbufferlen s).len s.i).tdiv 8
          = (frag_step mtu hoplen fragbufferlen s).len s.i / 8 :=
        Int.tdiv_eq_ediv (by omega) (by decide)
      rw [htd] at hos
      refine ⟨?_, ?_, ?_, ?_, ?_⟩
      · intro j hj
        rw [frag_step_i] at hj
        rw [frag_step_offset_of_ne _ _ _ _ _ (by omega : j ≠ s.i + 1)]
        by_cases hji : j = s.i
        · rw [hji]
          exact ⟨hpos, by omega⟩
        · rw [frag_step_len_of_ne _ _ _ _ _ hji]
          have := hlen j (by omega)
          exact ⟨this.1, by omega⟩
      · intro j
        by_cases hji : j = s.i + 1
        · rw [hji, hos]
          have := hoff s.i
          omega
        · rw [frag_step_offset_of_ne _ _ _ _ _ hji]
          exact hoff j
      · rw [frag_step_offset_of_ne _ _ _ _ _ (by omega : 0 ≠ s.i + 1)]
        exact hoff0
      · rw [frag_step_i, hos]
        omega
      · intro _
        omega)
    fuel frag_init plan
    ⟨by intro j hj; simp [frag_init] at hj, by intro j; simp [frag_init],
      rfl, by simp [frag_init], by intro h0; simp [frag_init] at h0⟩ h
  obtain ⟨⟨hlen, hoff, hoff0, _, hcL⟩, _⟩ := key
  refine ⟨?_, hoff, hoff0⟩
  intro j hj
  have := hlen j hj
  have := hcL (by unfold FragState.nframes at hj; omega)
  exact ⟨by omega, by omega⟩

/-! ## The fragment plan: claims C17 to C20 -/

/-- The size pass loop never moves the index back. -/
theorem size_opts_le (fuel : Nat) (opts : List ExtOption) (indx a : Int)
    (h : size_opts fuel opts indx = some a) : indx ≤ a := by
  induction opts generalizing indx with
  | nil =>
    simp only [size_opts, Option.some.injEq] at h
    omega
  | cons o rest ih =>
    unfold size_opts at h
    split at h
    · cases h
    · rename_i a1 ha1
      have h1 := (align_loop_spec o.x o.y fuel indx a1 ha1).2.1
      have h2 := ih _ h
      have hlen : (0 : Int) ≤ o.optlen := by simp [ExtOption.optlen]
      omega

/-- The header length the size pass computes is not negative. -/
theorem ext_size_pass_length_nonneg (hdrlen : Int) (h2 : 0 ≤ hdrlen) (fuel : Nat)
    (opts : List ExtOption) (sz : ExtSize) (h : ext_size_pass hdrlen fuel opts = some sz) :
    0 ≤ (if opts.length > 0 then hdrlen + sz.opt_totlen + sz.optpadlen else 0) := by
  unfold ext_size_pass at h
  split_ifs at h ⊢ with hn
  · split at h
    · cases h
    · rename_i a ha
      split at h
      · cases h
      · rename_i b hb
        cases h
        have h1 := size_opts_le fuel opts _ a ha
        have h3 := (align_loop_spec 8 0 fuel a b hb).2.1
        dsimp only
        omega
  · omega

theorem hoplen_nonneg (fuel : Nat) (hbh : List ExtOption) (sz : ExtSize)
    (h : hop_size_pass fuel hbh = some sz) : 0 ≤ hoplen hbh sz :=
  ext_size_pass_length_nonneg HOP_HDRLEN (by decide) fuel hbh sz h

theorem dstlen_nonneg (fuel : Nat) (dst : List ExtOption) (sz : ExtSize)
    (h : dst_size_pass fuel dst = some sz) : 0 ≤ dstlen dst sz :=
  ext_size_pass_length_nonneg DST_HDRLEN (by decide) fuel dst sz h

/-- C17. For every plan the splitting loop returns (within any number of
turns), for every destination option list whose size pass finishes and every
payload length `payloadlen ≥ 0`: the lengths `len[0] + ... + len[nframes-1]`
add up to `fragbufferlen = dstlen + TCP_HDRLEN + payloadlen`. -/
theorem len_sum_eq_fragbufferlen (fuel turns : Nat) (mtu hoplen payloadlen : Int)
    (dst : List ExtOption) (sz : ExtSize) (plan : FragState)
    (hsz : dst_size_pass fuel dst = some sz) (hp : 0 ≤ payloadlen)
    (hplan : frag_loop mtu hoplen (dstlen dst sz + TCP_HDRLEN + payloadlen) turns frag_init
      = some plan) :
    len_sum plan plan.nframes = dstlen dst sz + TCP_HDRLEN + payloadlen := by
  have hd := dstlen_nonneg fuel dst sz hsz
  have h := frag_loop_c_eq_len_sum mtu hoplen (dstlen dst sz + TCP_HDRLEN + payloadlen)
    (by simp only [TCP_HDRLEN]; omega) turns plan hplan
  rw [← h.1, h.2]

/-- C17 at scenario C with the destination header of `main`: 16 + 20 + 4964
bytes at MTU 1500 behind an 8-byte hop-by-hop header. -/
theorem len_sum_eq_fragbufferlen_witness :
    len_sum (frag_step 1500 8 5000 (frag_step 1500 8 5000 (frag_step 1500 8 5000
        (frag_step 1500 8 5000 frag_init))))
      (frag_step 1500 8 5000 (frag_step 1500 8 5000 (frag_step 1500 8 5000
        (frag_step 1500 8 5000 frag_init)))).nframes
      = dstlen [ilnp_nonce] { opt_totlen := 14, optpadlen := 0, hdr_len := 1 }
          + TCP_HDRLEN + 4964 :=
  len_sum_eq_fragbufferlen 9 3118 1500 8 4964 [ilnp_nonce]
    { opt_totlen := 14, optpadlen := 0, hdr_len := 1 } _ (by decide!) (by decide) (by rfl)

/-- C20. Scenario C: for a fragmentable buffer of 5000 bytes, MTU 1500 and an
unfragmentable part of 48 bytes (IPv6 header 40, hop-by-hop header 8), the
splitting loop yields exactly 4 fragments, of lengths 1440, 1440, 1440, 680,
at offsets 0, 180, 360, 540 in units of 8 bytes, that is at bytes 0, 1440,
2880, 4320. -/
theorem scenario_c_plan :
    ∃ plan, fragment_plan 1500 8 5000 = some plan ∧ plan.nframes = 4 ∧
      (List.range 4).map plan.len = [1440, 1440, 1440, 680] ∧
      (List.range 4).map (fun i => plan.offset i * 8) = [0, 1440, 2880, 4320] ∧
      (List.range 4).map plan.offset = [0, 180, 360, 540] :=
  ⟨frag_step 1500 8 5000 (frag_step 1500 8 5000 (frag_step 1500 8 5000
      (frag_step 1500 8 5000 frag_init))),
    by rfl, by rfl, by decide!, by decide!, by decide!⟩

/-! ## Next-header fields: claims C11, C13 and C14 -/

/-- The write pass loop keeps what has been stored and stores after it. -/
theorem write_opts_bytes (fuel : Nat) (opts : List ExtOption) (w w2 : WriteState)
    (h : write_opts fuel opts w = some w2) : ∃ tail, w2.bytes = w.bytes ++ tail := by
  induction opts generalizing w with
  | nil =>
    simp only [write_opts, Option.some.injEq] at h
    exact ⟨[], by rw [h]; simp⟩
  | cons o rest ih =>
    unfold write_opts at h
    split at h
    · cases h
    · rename_i p hp
      obtain ⟨tail, ht⟩ := ih _ h
      exact ⟨p.bytes ++ o.data ++ tail, by rw [ht]; simp⟩

/-- The bytes of a write pass begin with the header struct; with no option
nothing is stored. -/
theorem ext_write_pass_bytes (hdrlen : Int) (fuel : Nat) (opts : List ExtOption)
    (hdr : List Nat) (c : Int) (w : WriteState)
    (h : ext_write_pass hdrlen fuel opts hdr c = some w) :
    (opts.length > 0 → ∃ tail, w.bytes = hdr ++ tail) ∧
      (¬ opts.length > 0 → w.bytes = []) := by
  unfold ext_write_pass at h
  split_ifs at h with hn
  · split at h
    · cases h
    · rename_i w1 hw1
      split at h
      · cases h
      · rename_i p hp
        cases h
        obtain ⟨tail, ht⟩ := write_opts_bytes fuel opts _ w1 hw1
        exact ⟨fun _ => ⟨tail ++ p.bytes, by dsimp only at ht ⊢; rw [ht]; simp⟩,
          fun hneg => absurd hn hneg⟩
  · cases h
    exact ⟨fun hpos => absurd hpos hn, fun _ => rfl⟩

/-- The IPv6 next-header field after the block "Set our Next Header fields". -/
theorem set_next_headers_ip6_nxt (hbh_nopt dst_nopt nframes : Int) (hn : 1 ≤ nframes)
    (h : MainHeaders) :
    (set_next_headers hbh_nopt dst_nopt nframes h).iphdr.ip6_nxt
      = if hbh_nopt > 0 then IPPROTO_HOPOPTS
        else if nframes > 1 then IPPROTO_FRAGMENT
        else if dst_nopt > 0 then IPPROTO_DSTOPTS
        else IPPROTO_TCP := by
  unfold set_next_headers
  split_ifs <;> first | rfl | omega

/-- The hop-by-hop next-header field after that block, when there is a
hop-by-hop header. -/
theorem set_next_headers_hop_nxt (hbh_nopt dst_nopt nframes : Int) (hn : 1 ≤ nframes)
    (hh : hbh_nopt > 0) (h : MainHeaders) :
    (set_next_headers hbh_nopt dst_nopt nframes h).hophdr.nxt_hdr
      = if nframes > 1 then IPPROTO_FRAGMENT
        else if dst_nopt > 0 then IPPROTO_DSTOPTS
        else IPPROTO_TCP := by
  unfold set_next_headers
  split_ifs <;> first | rfl | omega

/-- The destination next-header field after that block, when there is a
destination header. -/
theorem set_next_headers_dst_nxt (hbh_nopt dst_nopt nframes : Int) (hd : dst_nopt > 0)
    (h : MainHeaders) :
    (set_next_headers hbh_nopt dst_nopt nframes h).dsthdr.nxt_hdr = IPPROTO_TCP := by
  unfold set_next_headers
  split_ifs <;> rfl

theorem ip6_hdr_bytes_length (h : ip6_hdr) : (ip6_hdr_bytes h).length = 40 := by
  simp [ip6_hdr_bytes, be16_length, be32_length]

/-- Byte 6 of the IPv6 header in memory is the next-header field. -/
theorem ip6_hdr_bytes_nxt (h : ip6_hdr) : (ip6_hdr_bytes h).getD 6 0 = h.ip6_nxt := by
  simp [ip6_hdr_bytes, be16, be32]

theorem ip6_frag_bytes_length (f : ip6_frag) : (ip6_frag_bytes f).length = 8 := by
  simp [ip6_frag_bytes, be16_length, be32_length]

/-- The IPv6 header of a frame differs from the header passed in only in
`ip6_plen`. -/
theorem frame_iphdr_nxt (iphdr : ip6_hdr) (hoplen : Int) (plan : FragState) (i : Nat) :
    (frame_iphdr iphdr hoplen plan i).ip6_nxt = iphdr.ip6_nxt := by
  unfold frame_iphdr
  split_ifs <;> rfl

/-- The parts of a frame the send loop returns. -/
theorem send_frame_parts (fuel : Nat) (dst_mac src_mac : Fin 6 → Nat) (iphdr : ip6_hdr)
    (hbh : List ExtOption) (hophdr : hop_hdr) (hoplen dst_nopt : Int)
    (fragbuffer : List Nat) (plan : FragState) (i : Nat) (f : EtherFrame)
    (h : send_frame fuel dst_mac src_mac iphdr hbh hophdr hoplen dst_nopt fragbuffer plan i
      = some f) :
    ∃ w, ext_write_pass HOP_HDRLEN fuel hbh [hophdr.nxt_hdr, hophdr.hdr_len]
          (0 + ETH_HDRLEN + IP6_HDRLEN) = some w ∧
      f.ip6 = ip6_hdr_bytes (frame_iphdr iphdr hoplen plan i) ∧
      f.hop = w.bytes ∧
      f.frag = (if plan.nframes > 1 then ip6_frag_bytes (frame_fraghdr dst_nopt plan i)
                else []) ∧
      f.data = frag_slice fragbuffer plan i ∧
      f.frame_length
        = (if plan.nframes > 1 then w.c + FRG_HDRLEN else w.c) + plan.len i := by
  unfold send_frame at h
  dsimp only at h
  split at h
  · cases h
  · rename_i w hw
    cases h
    exact ⟨w, hw, rfl, rfl, rfl, rfl, rfl⟩

/-- The send loop returns a frame whenever the hop-by-hop size pass finished. -/
theorem send_frame_of_size_pass (fuel : Nat) (dst_mac src_mac : Fin 6 → Nat)
    (iphdr : ip6_hdr) (hbh : List ExtOption) (hophdr : hop_hdr) (sz : ExtSize)
    (hoplen0 dst_nopt : Int) (fragbuffer : List Nat) (plan : FragState) (i : Nat)
    (hsz : hop_size_pass fuel hbh = some sz) :
    ∃ f, send_frame fuel dst_mac src_mac iphdr hbh hophdr hoplen0 dst_nopt fragbuffer plan i
        = some f ∧
      (f.hop.length : Int) = hoplen hbh sz ∧
      f.frame_length = ETH_HDRLEN + IP6_HDRLEN + hoplen hbh sz
        + (if plan.nframes > 1 then FRG_HDRLEN else 0) + plan.len i := by
  obtain ⟨w, hw, hwc, hwl⟩ := ext_write_pass_of_size_pass HOP_HDRLEN fuel hbh
    [hophdr.nxt_hdr, hophdr.hdr_len] (0 + ETH_HDRLEN + IP6_HDRLEN) sz hsz
  cases hsf : send_frame fuel dst_mac src_mac iphdr hbh hophdr hoplen0 dst_nopt fragbuffer
      plan i with
  | none =>
    unfold send_frame at hsf
    dsimp only at hsf
    rw [hw] at hsf
    cases hsf
  | some f =>
    obtain ⟨w2, hw2, _, hhop, _, _, hfl⟩ := send_frame_parts fuel dst_mac src_mac iphdr hbh
      hophdr hoplen0 dst_nopt fragbuffer plan i f hsf
    rw [hw] at hw2
    cases hw2
    refine ⟨f, rfl, ?_, ?_⟩
    · rw [hhop, hwl]
      unfold hoplen
      simp only [HOP_HDRLEN, List.length_cons, List.length_nil]
      split_ifs <;> simp
    · rw [hfl, hwc]
      unfold hoplen
      split_ifs <;> omega

/-- Byte 39 of a list that has 39 bytes before `x`. -/
theorem getD_39_after (pre rest : List Nat) (x : Nat) (h : pre.length = 39) :
    (pre ++ x :: rest).getD 39 0 = x := by
  rw [List.getD_append_right _ _ _ _ (by omega), h]
  rfl

/-- The stores of `tcp6_checksum` put the next-header field of `iphdr` behind
39 other bytes. -/
theorem tcp6_stores_flatten_nxt (iphdr : ip6_hdr) (t : tcphdr) (payload : List Nat)
    (payloadlen : Int) :
    ∃ pre rest, (tcp6_stores iphdr t payload payloadlen).flatten
        = pre ++ iphdr.ip6_nxt :: rest ∧ pre.length = 39 := by
  refine ⟨List.ofFn iphdr.ip6_src ++ List.ofFn iphdr.ip6_dst
      ++ be32 ((20 + payloadlen) % 4294967296).toNat ++ [0, 0, 0],
    be16 t.th_sport ++ be16 t.th_dport ++ be32 t.th_seq ++ be32 t.th_ack
      ++ [((t.th_off.val <<< 4) + t.th_x2.val) % 256] ++ [t.th_flags] ++ be16 t.th_win
      ++ [0, 0] ++ be16 t.th_urp ++ payload.take payloadlen.toNat, ?_, ?_⟩
  · simp only [tcp6_stores, List.flatten_cons, List.flatten_nil, List.append_assoc,
      List.append_nil, List.cons_append, List.nil_append]
  · simp only [List.length_append, List.length_ofFn, be32_length, List.length_cons,
      List.length_nil]

/-- Whatever buffer `tcp6_checksum` hands to `checksum`, its byte 39 is the
next-header field of the `iphdr` it was given. -/
theorem tcp6_checksum_buf_nxt (iphdr : ip6_hdr) (t : tcphdr) (payload : List Nat)
    (payloadlen : Int) (buf : List Nat) (n : Int)
    (h : tcp6_checksum_buf iphdr t payload payloadlen = some (buf, n)) :
    buf.getD 39 0 = iphdr.ip6_nxt := by
  obtain ⟨pre, rest, hfl, hpre⟩ := tcp6_stores_flatten_nxt iphdr t payload payloadlen
  have hall := pseudo_put_all_at_end (tcp6_stores iphdr t payload payloadlen) []
    IP_MAXPACKET 0
  unfold tcp6_checksum_buf at h
  generalize IP_MAXPACKET = N at hall h
  rw [List.nil_append, List.nil_append, List.length_nil] at hall
  split_ifs at h with h1
  rw [hall] at h
  split_ifs at h with h2
  dsimp only at h
  simp only [Option.some.injEq, Prod.mk.injEq] at h
  rw [← h.1, hfl, List.append_assoc, List.cons_append]
  exact getD_39_after pre _ _ hpre

/-- C11. For every choice of the option counts `hbh_nopt` and `dst_nopt` and of
the number of frames: `main` calls `tcp6_checksum` with the IPv6 header as it
stands before the next-header fields are set, so the next-header byte of the
pseudo-header, byte 39 of the buffer handed to `checksum`, is `IPPROTO_TCP`,
6; the buffer exists whenever the payload fits it; and the next-header field
the IPv6 header carries in the frames is that value only when there is neither
a hop-by-hop header nor a fragment header nor a destination header. -/
theorem pseudo_header_nxt_is_tcp (hbh_nopt dst_nopt nframes : Int)
    (ip6_src ip6_dst : Fin 16 → Nat) (plen0 : Nat) (hophdr : hop_hdr) (dsthdr : dst_hdr)
    (t : tcphdr) (payload : List Nat) (payloadlen : Int) :
    (∀ buf n, tcp6_checksum_buf (main_iphdr ip6_src ip6_dst plen0) t payload payloadlen
        = some (buf, n) → buf.getD 39 0 = IPPROTO_TCP) ∧
      IPPROTO_TCP = 6 ∧
      (60 + payload.length ≤ IP_MAXPACKET →
        ∃ buf n, tcp6_checksum_buf (main_iphdr ip6_src ip6_dst plen0) t payload payload.length
          = some (buf, n)) ∧
      (1 ≤ nframes →
        ((set_next_headers hbh_nopt dst_nopt nframes
            { iphdr := main_iphdr ip6_src ip6_dst plen0, hophdr := hophdr, dsthdr := dsthdr }
          ).iphdr.ip6_nxt = IPPROTO_TCP
          ↔ (¬ hbh_nopt > 0 ∧ ¬ nframes > 1 ∧ ¬ dst_nopt > 0))) := by
  refine ⟨?_, rfl, ?_, ?_⟩
  · intro buf n h
    exact tcp6_checksum_buf_nxt _ t payload payloadlen buf n h
  · intro hfit
    exact ⟨_, _, tcp6_checksum_buf_eq _ t payload hfit⟩
  · intro hn
    rw [set_next_headers_ip6_nxt _ _ _ hn]
    simp only [IPPROTO_HOPOPTS, IPPROTO_FRAGMENT, IPPROTO_DSTOPTS, IPPROTO_TCP]
    split_ifs <;> simp_all

/-- C11 for the program as it stands (one hop-by-hop option, one destination
option) with four frames and a payload of three bytes. -/
theorem pseudo_header_nxt_is_tcp_witness :
    (∀ buf n, tcp6_checksum_buf (main_iphdr iphdr_main.ip6_src iphdr_main.ip6_dst 0)
        tcphdr_main [1, 2, 3] 3 = some (buf, n) → buf.getD 39 0 = IPPROTO_TCP) ∧
      IPPROTO_TCP = 6 ∧
      (60 + ([1, 2, 3] : List Nat).length ≤ IP_MAXPACKET →
        ∃ buf n, tcp6_checksum_buf (main_iphdr iphdr_main.ip6_src iphdr_main.ip6_dst 0)
          tcphdr_main [1, 2, 3] ([1, 2, 3] : List Nat).length = some (buf, n)) ∧
      ((1 : Int) ≤ 4 →
        ((set_next_headers 1 1 4
            { iphdr := main_iphdr iphdr_main.ip6_src iphdr_main.ip6_dst 0,
              hophdr := { nxt_hdr := 0, hdr_len := 0 },
              dsthdr := { nxt_hdr := 0, hdr_len := 1 } }
          ).iphdr.ip6_nxt = IPPROTO_TCP
          ↔ (¬ (1 : Int) > 0 ∧ ¬ (4 : Int) > 1 ∧ ¬ (1 : Int) > 0))) :=
  pseudo_header_nxt_is_tcp 1 1 4 iphdr_main.ip6_src iphdr_main.ip6_dst 0
    { nxt_hdr := 0, hdr_len := 0 } { nxt_hdr := 0, hdr_len := 1 } tcphdr_main [1, 2, 3] 3

/-- C13. For every combination of `hbh_nopt`, `dst_nopt` and `nframes ≥ 1`, the
next-header field of the IPv6 header after the block "Set our Next Header
fields" is Hop-by-Hop (0) if `hbh_nopt > 0`; otherwise Fragment (44) if
`nframes > 1`; otherwise Destination Options (60) if `dst_nopt > 0`; otherwise
TCP (6); and that value is byte 6 of the 40-byte IPv6 header in every frame the
send loop builds from it. -/
theorem ip6_nxt_in_frames (hbh_nopt dst_nopt nframes : Int) (hn : 1 ≤ nframes)
    (h : MainHeaders) :
    (set_next_headers hbh_nopt dst_nopt nframes h).iphdr.ip6_nxt
        = (if hbh_nopt > 0 then 0 else if nframes > 1 then 44
           else if dst_nopt > 0 then 60 else 6) ∧
      IPPROTO_HOPOPTS = 0 ∧ IPPROTO_FRAGMENT = 44 ∧ IPPROTO_DSTOPTS = 60 ∧ IPPROTO_TCP = 6 ∧
      ∀ (fuel : Nat) (dst_mac src_mac : Fin 6 → Nat) (hbh : List ExtOption)
        (hoplen0 dst_n : Int) (fragbuffer : List Nat) (plan : FragState) (i : Nat)
        (f : EtherFrame),
        send_frame fuel dst_mac src_mac
            (set_next_headers hbh_nopt dst_nopt nframes h).iphdr hbh
            (set_next_headers hbh_nopt dst_nopt nframes h).hophdr hoplen0 dst_n fragbuffer
            plan i = some f →
          f.ip6.length = 40 ∧
          f.ip6.getD 6 0 = (set_next_headers hbh_nopt dst_nopt nframes h).iphdr.ip6_nxt := by
  refine ⟨?_, rfl, rfl, rfl, rfl, ?_⟩
  · rw [set_next_headers_ip6_nxt _ _ _ hn]
    rfl
  · intro fuel dst_mac src_mac hbh hoplen0 dst_n fragbuffer plan i f hf
    obtain ⟨_, _, hip6, _⟩ := send_frame_parts _ _ _ _ _ _ _ _ _ _ _ f hf
    rw [hip6, ip6_hdr_bytes_length, ip6_hdr_bytes_nxt, frame_iphdr_nxt]
    exact ⟨rfl, rfl⟩

/-- C13 for the program as it stands: one hop-by-hop option, one destination
option, four frames. -/
theorem ip6_nxt_in_frames_witness :
    (set_next_headers 1 1 4
        { iphdr := iphdr_main, hophdr := { nxt_hdr := 0, hdr_len := 0 },
          dsthdr := { nxt_hdr := 0, hdr_len := 1 } }).iphdr.ip6_nxt
        = (if (1 : Int) > 0 then 0 else if (4 : Int) > 1 then 44
           else if (1 : Int) > 0 then 60 else 6) ∧
      IPPROTO_HOPOPTS = 0 ∧ IPPROTO_FRAGMENT = 44 ∧ IPPROTO_DSTOPTS = 60 ∧ IPPROTO_TCP = 6 ∧
      ∀ (fuel : Nat) (dst_mac src_mac : Fin 6 → Nat) (hbh : List ExtOption)
        (hoplen0 dst_n : Int) (fragbuffer : List Nat) (plan : FragState) (i : Nat)
        (f : EtherFrame),
        send_frame fuel dst_mac src_mac
            (set_next_headers 1 1 4
              { iphdr := iphdr_main, hophdr := { nxt_hdr := 0, hdr_len := 0 },
                dsthdr := { nxt_hdr := 0, hdr_len := 1 } }).iphdr hbh
            (set_next_headers 1 1 4
              { iphdr := iphdr_main, hophdr := { nxt_hdr := 0, hdr_len := 0 },
                dsthdr := { nxt_hdr := 0, hdr_len := 1 } }).hophdr hoplen0 dst_n fragbuffer
            plan i = some f →
          f.ip6.length = 40 ∧
          f.ip6.getD 6 0 = (set_next_headers 1 1 4
              { iphdr := iphdr_main, hophdr := { nxt_hdr := 0, hdr_len := 0 },
                dsthdr := { nxt_hdr := 0, hdr_len := 1 } }).iphdr.ip6_nxt :=
  ip6_nxt_in_frames 1 1 4 (by decide)
    { iphdr := iphdr_main, hophdr := { nxt_hdr := 0, hdr_len := 0 },
      dsthdr := { nxt_hdr := 0, hdr_len := 1 } }

/-- The entry of the hop-by-hop header among the headers laid out. -/
theorem hop_entry (fuel : Nat) (hbh : List ExtOption) (a b : Nat) (c : Int) (w : WriteState)
    (hw : ext_write_pass HOP_HDRLEN fuel hbh [a, b] c = some w) :
    (if w.bytes ≠ [] then [(IPPROTO_HOPOPTS, w.bytes.getD 0 0)] else [])
      = if hbh.length > 0 then [(IPPROTO_HOPOPTS, a)] else [] := by
  obtain ⟨h1, h2⟩ := ext_write_pass_bytes HOP_HDRLEN fuel hbh [a, b] c w hw
  by_cases hn : hbh.length > 0
  · obtain ⟨tail, ht⟩ := h1 hn
    rw [if_pos hn, ht]
    simp
  · rw [if_neg hn, h2 hn]
    simp

/-- The entry of the fragment header among the headers laid out. -/
theorem frag_entry (n : Nat) (fh : ip6_frag) :
    (if (if n > 1 then ip6_frag_bytes fh else []) ≠ []
      then [(IPPROTO_FRAGMENT, (if n > 1 then ip6_frag_bytes fh else []).getD 0 0)] else [])
      = if n > 1 then [(IPPROTO_FRAGMENT, fh.ip6f_nxt)] else [] := by
  by_cases hn : n > 1
  · simp [hn, ip6_frag_bytes]
  · simp [hn]

/-- The first byte of the first slice is the first byte of the buffer. -/
theorem frag_slice_first (x : Nat) (tail : List Nat) (plan : FragState)
    (h0 : plan.offset 0 = 0) (h1 : 1 ≤ plan.len 0) :
    (frag_slice (x :: tail) plan 0).getD 0 0 = x := by
  unfold frag_slice
  rw [h0]
  obtain ⟨k, hk⟩ : ∃ k : Nat, (plan.len 0).toNat = k + 1 := ⟨(plan.len 0).toNat - 1, by omega⟩
  rw [hk]
  simp

/-- The chain through the headers present, for each of the eight cases. -/
theorem chain_ok_cases (hh ff dd : Prop) [Decidable hh] [Decidable ff] [Decidable dd] :
    chain_ok
      (if hh then IPPROTO_HOPOPTS else if ff then IPPROTO_FRAGMENT
        else if dd then IPPROTO_DSTOPTS else IPPROTO_TCP)
      ((if hh then [(IPPROTO_HOPOPTS,
            if ff then IPPROTO_FRAGMENT else if dd then IPPROTO_DSTOPTS else IPPROTO_TCP)]
          else [])
        ++ (if ff then [(IPPROTO_FRAGMENT, if dd then IPPROTO_DSTOPTS else IPPROTO_TCP)]
          else [])
        ++ (if dd then [(IPPROTO_DSTOPTS, IPPROTO_TCP)] else [])) = true := by
  by_cases h1 : hh <;> by_cases h2 : ff <;> by_cases h3 : dd <;>
    simp [h1, h2, h3, chain_ok]

/-- The fragmentable buffer is built whenever the destination size pass
finished, and its final index is `dstlen + TCP_HDRLEN + payloadlen`; with a
destination header its first byte is that header's next-header field. -/
theorem build_fragbuffer_of_size_pass (fuel : Nat) (dst : List ExtOption) (dsthdr : dst_hdr)
    (t : tcphdr) (payload : List Nat) (payloadlen : Int) (sz : ExtSize)
    (hsz : dst_size_pass fuel dst = some sz) :
    ∃ fb, build_fragbuffer fuel dst dsthdr t payload payloadlen
        = some (fb, dstlen dst sz + TCP_HDRLEN + payloadlen) ∧
      (dst.length > 0 → ∃ tail, fb = dsthdr.nxt_hdr :: tail) := by
  obtain ⟨w, hw, hwc, _⟩ := ext_write_pass_of_size_pass DST_HDRLEN fuel dst
    [dsthdr.nxt_hdr, dsthdr.hdr_len] 0 sz hsz
  obtain ⟨hb1, _⟩ := ext_write_pass_bytes DST_HDRLEN fuel dst
    [dsthdr.nxt_hdr, dsthdr.hdr_len] 0 w hw
  refine ⟨w.bytes ++ tcphdr_bytes t ++ payload.take payloadlen.toNat, ?_, ?_⟩
  · unfold build_fragbuffer
    dsimp only
    rw [hw]
    dsimp only
    rw [hwc]
    unfold dstlen
    split_ifs <;> simp
  · intro hn
    obtain ⟨tail, ht⟩ := hb1 hn
    exact ⟨dsthdr.hdr_len :: tail ++ tcphdr_bytes t ++ payload.take payloadlen.toNat, by
      rw [ht]; simp⟩

/-- C14. For every option list of the hop-by-hop and of the destination header
(so every `hbh_nopt` and `dst_nopt`), every MTU and payload, and every plan of
`nframes ≥ 1` frames the splitting loop returns: after the block "Set our Next
Header fields" the fragmentable buffer is built and the first frame is
assembled, and the headers laid out in that frame are exactly the Hop-by-Hop
header (if `hbh_nopt > 0`), the Fragment header (if `nframes > 1`) and the
Destination header (if `dst_nopt > 0`), in this order; the Hop-by-Hop header
points to Fragment if `nframes > 1`, else to Destination if present, else to
TCP; the Fragment header points to Destination if present, else to TCP; the
Destination header points to TCP; and following the next-header values from
byte 6 of the IPv6 header through these headers meets each header's own number
and ends at TCP (6). -/
theorem next_header_chain (fuel turns : Nat) (mtu : Int) (hbh dst : List ExtOption)
    (szh szd : ExtSize) (h0 : MainHeaders) (dst_mac src_mac : Fin 6 → Nat) (t : tcphdr)
    (payload : List Nat) (plan : FragState)
    (hszh : hop_size_pass fuel hbh = some szh)
    (hszd : dst_size_pass fuel dst = some szd)
    (hplan : frag_loop mtu (hoplen hbh szh) (dstlen dst szd + TCP_HDRLEN + payload.length)
      turns frag_init = some plan)
    (hn : 1 ≤ plan.nframes) :
    ∃ fb f,
      build_fragbuffer fuel dst
          (set_next_headers hbh.length dst.length plan.nframes h0).dsthdr t payload
          payload.length
        = some (fb, dstlen dst szd + TCP_HDRLEN + payload.length) ∧
      send_frame fuel dst_mac src_mac
          (set_next_headers hbh.length dst.length plan.nframes h0).iphdr hbh
          (set_next_headers hbh.length dst.length plan.nframes h0).hophdr
          (hoplen hbh szh) dst.length fb plan 0 = some f ∧
      laid_out_headers dst.length f
        = (if hbh.length > 0 then
              [(IPPROTO_HOPOPTS,
                if plan.nframes > 1 then IPPROTO_FRAGMENT
                else if dst.length > 0 then IPPROTO_DSTOPTS else IPPROTO_TCP)]
            else [])
          ++ (if plan.nframes > 1 then
              [(IPPROTO_FRAGMENT, if dst.length > 0 then IPPROTO_DSTOPTS else IPPROTO_TCP)]
            else [])
          ++ (if dst.length > 0 then [(IPPROTO_DSTOPTS, IPPROTO_TCP)] else []) ∧
      chain_ok (f.ip6.getD 6 0) (laid_out_headers dst.length f) = true ∧
      IPPROTO_TCP = 6 := by
  obtain ⟨fb, hfb, hfb1⟩ := build_fragbuffer_of_size_pass fuel dst
    (set_next_headers hbh.length dst.length plan.nframes h0).dsthdr t payload payload.length
    szd hszd
  obtain ⟨f, hf, _, _⟩ := send_frame_of_size_pass fuel dst_mac src_mac
    (set_next_headers hbh.length dst.length plan.nframes h0).iphdr hbh
    (set_next_headers hbh.length dst.length plan.nframes h0).hophdr szh
    (hoplen hbh szh) dst.length fb plan 0 hszh
  obtain ⟨w, hw, hip6, hhop, hfrag, hdata, _⟩ := send_frame_parts _ _ _ _ _ _ _ _ _ _ _ f hf
  obtain ⟨hfacts, _, hoff0⟩ := frag_loop_plan_facts _ _ _ _ plan hplan
  have hlen0 : 1 ≤ plan.len 0 := (hfacts 0 (by omega)).1
  have hnI : (1 : Int) ≤ (plan.nframes : Int) := by exact_mod_cast hn
  have hlaid : laid_out_headers dst.length f
      = (if hbh.length > 0 then
              [(IPPROTO_HOPOPTS,
                if plan.nframes > 1 then IPPROTO_FRAGMENT
                else if dst.length > 0 then IPPROTO_DSTOPTS else IPPROTO_TCP)]
            else [])
          ++ (if plan.nframes > 1 then
              [(IPPROTO_FRAGMENT, if dst.length > 0 then IPPROTO_DSTOPTS else IPPROTO_TCP)]
            else [])
          ++ (if dst.length > 0 then [(IPPROTO_DSTOPTS, IPPROTO_TCP)] else []) := by
    unfold laid_out_headers
    rw [hhop, hop_entry fuel hbh _ _ _ w hw, hfrag, frag_entry]
    congr 1
    · congr 1
      · by_cases hh : hbh.length > 0
        · rw [if_pos hh, if_pos hh,
            set_next_headers_hop_nxt _ _ _ hnI (by exact_mod_cast hh)]
          simp only [Nat.cast_pos, gt_iff_lt, Nat.one_lt_cast]
        · rw [if_neg hh, if_neg hh]
      · simp only [frame_fraghdr, Nat.cast_pos, gt_iff_lt]
    · by_cases hd : dst.length > 0
      · obtain ⟨tail, ht⟩ := hfb1 hd
        have hdI : ((dst.length : Nat) : Int) > 0 := by exact_mod_cast hd
        rw [if_pos hdI, if_pos hd, hdata, ht, frag_slice_first _ _ _ hoff0 hlen0,
          set_next_headers_dst_nxt _ _ _ hdI]
      · have hdI : ¬ ((dst.length : Nat) : Int) > 0 := by exact_mod_cast hd
        rw [if_neg hdI, if_neg hd]
  refine ⟨fb, f, hfb, hf, hlaid, ?_, rfl⟩
  rw [hlaid, hip6, ip6_hdr_bytes_nxt, frame_iphdr_nxt, set_next_headers_ip6_nxt _ _ _ hnI]
  have hc := chain_ok_cases (hbh.length > 0) (plan.nframes > 1) (dst.length > 0)
  simp only [Nat.cast_pos, gt_iff_lt, Nat.one_lt_cast] at hc ⊢
  exact hc

/-! ## The payload length and the fragment header: claims C15 and C16 -/

/-- Bytes 4 and 5 of the IPv6 header in memory spell the payload length. -/
theorem ip6_hdr_bytes_plen (h : ip6_hdr) (hp : h.ip6_plen < 65536) :
    (ip6_hdr_bytes h).getD 4 0 * 256 + (ip6_hdr_bytes h).getD 5 0 = h.ip6_plen := by
  simp only [ip6_hdr_bytes, be16, be32, List.cons_append, List.nil_append, List.getD_cons_succ,
    List.getD_cons_zero]
  omega

/-- The payload length stored for frame `i` of a plan with at least one frame. -/
theorem frame_iphdr_plen (iphdr : ip6_hdr) (hoplen : Int) (plan : FragState) (i : Nat)
    (hn : 1 ≤ plan.nframes) :
    (frame_iphdr iphdr hoplen plan i).ip6_plen
      = ((hoplen + (if plan.nframes > 1 then FRG_HDRLEN else 0) + plan.len i) % 65536).toNat := by
  unfold frame_iphdr
  split_ifs with h1 h2 h3
  · omega
  · simp
  · rfl
  · omega

/-- A slice that lies inside the buffer has `len[i]` bytes. -/
theorem frag_slice_length (fragbuffer : List Nat) (plan : FragState) (i : Nat)
    (ho : 0 ≤ plan.offset i) (hl : 0 ≤ plan.len i)
    (hin : plan.offset i * 8 + plan.len i ≤ fragbuffer.length) :
    ((frag_slice fragbuffer plan i).length : Int) = plan.len i := by
  unfold frag_slice
  rw [List.length_take, List.length_drop]
  omega

/-- C15 as stated fails at MTU 65600 behind an 8-byte hop-by-hop header with
65530 bytes to send: the plan is one fragment of 65530 bytes, `hoplen + len[0]`
is 65538, and `htons` takes a `uint16_t`, so that the payload-length field
holds 2 (bytes 0 and 2 in the frame), not 65538. The field is stored before the
slice is copied; a frame of this length is also longer than the `IP_MAXPACKET`
bytes of `ether_frame`. -/
theorem ip6_plen_wraps_at_65538 :
    fragment_plan 65600 8 65530 = some (frag_step 65600 8 65530 frag_init) ∧
      (frag_step 65600 8 65530 frag_init).nframes = 1 ∧
      (frag_step 65600 8 65530 frag_init).len 0 = 65530 ∧
      (frame_iphdr iphdr_main 8 (frag_step 65600 8 65530 frag_init) 0).ip6_plen = 2 ∧
      (ip6_hdr_bytes (frame_iphdr iphdr_main 8 (frag_step 65600 8 65530 frag_init) 0)).getD 4 0
        = 0 ∧
      (ip6_hdr_bytes (frame_iphdr iphdr_main 8 (frag_step 65600 8 65530 frag_init) 0)).getD 5 0
        = 2 ∧
      (8 : Int) + 0 + (frag_step 65600 8 65530 frag_init).len 0 = 65538 :=
  ⟨by rfl, by rfl, by decide!, by decide!, by decide!, by decide!, by decide!⟩

/-- C15, amended. For every fragment `i` of every plan the splitting loop
returns for a fragmentable buffer, whenever `hoplen + (8 if nframes > 1, else
0) + len[i]` is at most 65535, the largest value of the 16-bit field (as it is
for every frame that fits the `IP_MAXPACKET` bytes of `ether_frame`): the send
loop assembles the frame, the payload-length field, bytes 4 and 5 of its
40-byte IPv6 header, equals `hoplen + (8 if nframes > 1, else 0) + len[i]`, and
this is the number of bytes the frame carries after the IPv6 header, the
hop-by-hop header, the fragment header and the slice; the 8-byte fragment
header is written into the frame if and only if `nframes > 1`. -/
theorem ip6_plen_in_frames (fuel turns : Nat) (mtu : Int) (dst_mac src_mac : Fin 6 → Nat)
    (iphdr : ip6_hdr) (hbh : List ExtOption) (hophdr : hop_hdr) (szh : ExtSize)
    (dst_nopt : Int) (fragbuffer : List Nat) (plan : FragState) (i : Nat)
    (hszh : hop_size_pass fuel hbh = some szh)
    (hplan : frag_loop mtu (hoplen hbh szh) fragbuffer.length turns frag_init = some plan)
    (hi : i < plan.nframes)
    (h16 : hoplen hbh szh + (if plan.nframes > 1 then FRG_HDRLEN else 0) + plan.len i
      ≤ 65535) :
    ∃ f, send_frame fuel dst_mac src_mac iphdr hbh hophdr (hoplen hbh szh) dst_nopt
        fragbuffer plan i = some f ∧
      f.ip6.length = 40 ∧
      ((f.ip6.getD 4 0 * 256 + f.ip6.getD 5 0 : Nat) : Int)
        = hoplen hbh szh + (if plan.nframes > 1 then FRG_HDRLEN else 0) + plan.len i ∧
      ((f.hop ++ f.frag ++ f.data).length : Int)
        = hoplen hbh szh + (if plan.nframes > 1 then FRG_HDRLEN else 0) + plan.len i ∧
      f.frame_length = ETH_HDRLEN + IP6_HDRLEN + ((f.hop ++ f.frag ++ f.data).length : Int) ∧
      f.frag = (if plan.nframes > 1 then ip6_frag_bytes (frame_fraghdr dst_nopt plan i)
                else []) ∧
      (f.frag.length = 8 ↔ plan.nframes > 1) ∧ (f.frag = [] ↔ ¬ plan.nframes > 1) ∧
      FRG_HDRLEN = 8 := by
  obtain ⟨f, hf, hhopl, hfl⟩ := send_frame_of_size_pass fuel dst_mac src_mac iphdr hbh hophdr
    szh (hoplen hbh szh) dst_nopt fragbuffer plan i hszh
  obtain ⟨w, _, hip6, _, hfrag, hdata, _⟩ := send_frame_parts _ _ _ _ _ _ _ _ _ _ _ f hf
  obtain ⟨hfacts, hoff, _⟩ := frag_loop_plan_facts _ _ _ _ plan hplan
  obtain ⟨hlen1, hin⟩ := hfacts i hi
  have hh0 := hoplen_nonneg fuel hbh szh hszh
  have hdl : (f.data.length : Int) = plan.len i := by
    rw [hdata]
    exact frag_slice_length fragbuffer plan i (hoff i) (by omega) hin
  have hfragl : (f.frag.length : Int) = (if plan.nframes > 1 then FRG_HDRLEN else 0) := by
    rw [hfrag]
    split_ifs
    · rw [ip6_frag_bytes_length]; rfl
    · rfl
  have htot : ((f.hop ++ f.frag ++ f.data).length : Int)
      = hoplen hbh szh + (if plan.nframes > 1 then FRG_HDRLEN else 0) + plan.len i := by
    rw [List.length_append, List.length_append]
    push_cast
    rw [hhopl, hfragl, hdl]
  have hfh0 : (0 : Int) ≤ (if plan.nframes > 1 then FRG_HDRLEN else 0) := by
    split_ifs <;> simp [FRG_HDRLEN]
  have hplen : (frame_iphdr iphdr (hoplen hbh szh) plan i).ip6_plen
      = (hoplen hbh szh + (if plan.nframes > 1 then FRG_HDRLEN else 0) + plan.len i).toNat := by
    rw [frame_iphdr_plen _ _ _ _ (by omega)]
    congr 1
    exact Int.emod_eq_of_lt (by omega) (by omega)
  refine ⟨f, hf, ?_, ?_, htot, ?_, hfrag, ?_, ?_, rfl⟩
  · rw [hip6, ip6_hdr_bytes_length]
  · rw [hip6, ip6_hdr_bytes_plen _ (by rw [hplen]; omega), hplen]
    omega
  · rw [htot, hfl]
    omega
  · rw [hfrag]
    split_ifs with h
    · simp [ip6_frag_bytes_length, h]
    · simp [h]
  · rw [hfrag]
    split_ifs with h
    · simp [ip6_frag_bytes, h]
    · simp [h]

/-- C15, amended, at MTU 80 behind the router alert header: the second of the
two frames for a buffer of 39 bytes. -/
theorem ip6_plen_in_frames_witness :
    ∃ f, send_frame 10 mac_zero mac_zero iphdr_main [router_alert]
        { nxt_hdr := 44, hdr_len := 0 }
        (hoplen [router_alert] { opt_totlen := 4, optpadlen := 2, hdr_len := 0 }) 1
        fragbuffer_39 plan_80_39 1 = some f ∧
      f.ip6.length = 40 ∧
      ((f.ip6.getD 4 0 * 256 + f.ip6.getD 5 0 : Nat) : Int)
        = hoplen [router_alert] { opt_totlen := 4, optpadlen := 2, hdr_len := 0 }
          + (if plan_80_39.nframes > 1 then FRG_HDRLEN else 0) + plan_80_39.len 1 ∧
      ((f.hop ++ f.frag ++ f.data).length : Int)
        = hoplen [router_alert] { opt_totlen := 4, optpadlen := 2, hdr_len := 0 }
          + (if plan_80_39.nframes > 1 then FRG_HDRLEN else 0) + plan_80_39.len 1 ∧
      f.frame_length = ETH_HDRLEN + IP6_HDRLEN + ((f.hop ++ f.frag ++ f.data).length : Int) ∧
      f.frag = (if plan_80_39.nframes > 1 then ip6_frag_bytes (frame_fraghdr 1 plan_80_39 1)
                else []) ∧
      (f.frag.length = 8 ↔ plan_80_39.nframes > 1) ∧
      (f.frag = [] ↔ ¬ plan_80_39.nframes > 1) ∧
      FRG_HDRLEN = 8 :=
  ip6_plen_in_frames 10 3118 80 mac_zero mac_zero iphdr_main [router_alert]
    { nxt_hdr := 44, hdr_len := 0 } { opt_totlen := 4, optpadlen := 2, hdr_len := 0 } 1
    fragbuffer_39 plan_80_39 1 (by rfl) (by rfl) (by decide) (by decide!)

/-- The offset/flags word of frame `i`, in terms of `offset[i]`. -/
theorem frame_fraghdr_offlg (dst_nopt : Int) (plan : FragState) (i : Nat)
    (hn : plan.nframes > 1) :
    (((frame_fraghdr dst_nopt plan i).ip6f_offlg : Nat) : Int)
      = (plan.offset i % 8192) * 8 + (if i < plan.nframes - 1 then 1 else 0) := by
  unfold frame_fraghdr
  dsimp only
  have hc : ((i : Int) < (plan.nframes : Int) - 1) ↔ i < plan.nframes - 1 := by omega
  by_cases h : i < plan.nframes - 1
  · rw [if_pos (hc.mpr h), if_pos h]
    omega
  · rw [if_neg (fun h2 => h (hc.mp h2)), if_neg h]
    omega

/-- C16 as stated fails at MTU 1500 behind an 8-byte hop-by-hop header with
66300 bytes to send: the plan has 47 fragments, the last one, of 60 bytes, has
`offset[46] = 8280`, and `(offset[46] << 3) + 0 = 66240` does not fit the
`uint16_t` that `htons` takes: the word is 704, whose upper 13 bits are 88. -/
theorem fraghdr_offset_wraps_at_8280 :
    (fragment_plan 1500 8 66300).map
        (fun p => (p.nframes, p.offset 46, p.len 46, (frame_fraghdr 1 p 46).ip6f_offlg,
          (frame_fraghdr 1 p 46).ip6f_offlg / 8))
      = some (47, 8280, 60, 704, 88) := by
  decide!

/-- C16, amended. For every plan with `nframes > 1` the splitting loop returns
and every fragment `i` of it: the 16-bit offset/flags word of the fragment
header has its upper 13 bits equal to `offset[i]` modulo 8192, hence to
`offset[i]` whenever `offset[i] < 8192` (the fragment starts below byte 65536
of the fragmentable buffer); its two reserved bits are zero and its
more-fragments bit is 1 exactly when `i < nframes - 1`; the reserved byte is 0
and the identification is 31415; and these are the eight bytes of the fragment
header in every frame the send loop assembles for `i`. -/
theorem fraghdr_fields (mtu hoplen fragbufferlen : Int) (turns : Nat) (plan : FragState)
    (dst_nopt : Int) (i : Nat)
    (hplan : frag_loop mtu hoplen fragbufferlen turns frag_init = some plan)
    (hn : plan.nframes > 1) (_ : i < plan.nframes) :
    (((frame_fraghdr dst_nopt plan i).ip6f_offlg / 8 : Nat) : Int) = plan.offset i % 8192 ∧
      (plan.offset i < 8192 →
        (((frame_fraghdr dst_nopt plan i).ip6f_offlg / 8 : Nat) : Int) = plan.offset i) ∧
      (frame_fraghdr dst_nopt plan i).ip6f_offlg < 65536 ∧
      (frame_fraghdr dst_nopt plan i).ip6f_offlg / 2 % 4 = 0 ∧
      (frame_fraghdr dst_nopt plan i).ip6f_offlg % 2
        = (if i < plan.nframes - 1 then 1 else 0) ∧
      (frame_fraghdr dst_nopt plan i).ip6f_reserved = 0 ∧
      (frame_fraghdr dst_nopt plan i).ip6f_ident = 31415 ∧
      ∀ (fuel : Nat) (dst_mac src_mac : Fin 6 → Nat) (iphdr : ip6_hdr) (hbh : List ExtOption)
        (hophdr : hop_hdr) (hoplen0 : Int) (fragbuffer : List Nat) (f : EtherFrame),
        send_frame fuel dst_mac src_mac iphdr hbh hophdr hoplen0 dst_nopt fragbuffer plan i
            = some f →
          f.frag = ip6_frag_bytes (frame_fraghdr dst_nopt plan i) ∧
          f.frag.length = 8 ∧
          f.frag.getD 1 0 = 0 ∧
          f.frag.getD 2 0 * 256 + f.frag.getD 3 0 = (frame_fraghdr dst_nopt plan i).ip6f_offlg ∧
          f.frag.drop 4 = be32 31415 := by
  obtain ⟨_, hoff, _⟩ := frag_loop_plan_facts _ _ _ _ plan hplan
  have hw := frame_fraghdr_offlg dst_nopt plan i hn
  have ho := hoff i
  have hlt : (frame_fraghdr dst_nopt plan i).ip6f_offlg < 65536 := by
    split_ifs at hw <;> omega
  refine ⟨?_, ?_, hlt, ?_, ?_, rfl, rfl, ?_⟩
  · split_ifs at hw <;> omega
  · intro h13
    split_ifs at hw <;> omega
  · split_ifs at hw <;> omega
  · split_ifs at hw ⊢ <;> omega
  · intro fuel dst_mac src_mac iphdr hbh hophdr hoplen0 fragbuffer f hf
    obtain ⟨_, _, _, _, hfrag, _, _⟩ := send_frame_parts _ _ _ _ _ _ _ _ _ _ _ f hf
    rw [if_pos hn] at hfrag
    rw [hfrag]
    refine ⟨rfl, ip6_frag_bytes_length _, rfl, ?_, rfl⟩
    simp only [ip6_frag_bytes, be16, be32, List.cons_append, List.nil_append,
      List.getD_cons_succ, List.getD_cons_zero]
    omega

/-- C16, amended, at MTU 80 behind an 8-byte hop-by-hop header: the first of
the two fragments for a buffer of 39 bytes. -/
theorem fraghdr_fields_witness :
    (((frame_fraghdr 1 plan_80_39 0).ip6f_offlg / 8 : Nat) : Int)
        = plan_80_39.offset 0 % 8192 ∧
      (plan_80_39.offset 0 < 8192 →
        (((frame_fraghdr 1 plan_80_39 0).ip6f_offlg / 8 : Nat) : Int) = plan_80_39.offset 0) ∧
      (frame_fraghdr 1 plan_80_39 0).ip6f_offlg < 65536 ∧
      (frame_fraghdr 1 plan_80_39 0).ip6f_offlg / 2 % 4 = 0 ∧
      (frame_fraghdr 1 plan_80_39 0).ip6f_offlg % 2
        = (if 0 < plan_80_39.nframes - 1 then 1 else 0) ∧
      (frame_fraghdr 1 plan_80_39 0).ip6f_reserved = 0 ∧
      (frame_fraghdr 1 plan_80_39 0).ip6f_ident = 31415 ∧
      ∀ (fuel : Nat) (dst_mac src_mac : Fin 6 → Nat) (iphdr : ip6_hdr) (hbh : List ExtOption)
        (hophdr : hop_hdr) (hoplen0 : Int) (fragbuffer : List Nat) (f : EtherFrame),
        send_frame fuel dst_mac src_mac iphdr hbh hophdr hoplen0 1 fragbuffer plan_80_39 0
            = some f →
          f.frag = ip6_frag_bytes (frame_fraghdr 1 plan_80_39 0) ∧
          f.frag.length = 8 ∧
          f.frag.getD 1 0 = 0 ∧
          f.frag.getD 2 0 * 256 + f.frag.getD 3 0 = (frame_fraghdr 1 plan_80_39 0).ip6f_offlg ∧
          f.frag.drop 4 = be32 31415 :=
  fraghdr_fields 80 8 39 3118 plan_80_39 1 0 (by rfl) (by decide) (by decide)

/-! ## The checksum field: claim C12 -/

/-- The stores of `tcp6_checksum` do not read `th_sum`. -/
theorem tcp6_stores_th_sum (iphdr : ip6_hdr) (t : tcphdr) (payload : List Nat)
    (payloadlen : Int) (v : Nat) :
    tcp6_stores iphdr { t with th_sum := v } payload payloadlen
      = tcp6_stores iphdr t payload payloadlen :=
  rfl

/-- Neither does the function as a whole. -/
theorem tcp6_checksum_th_sum (o : ByteOrder) (iphdr : ip6_hdr) (t : tcphdr)
    (payload : List Nat) (payloadlen : Int) (v : Nat) :
    tcp6_checksum o iphdr { t with th_sum := v } payload payloadlen
      = tcp6_checksum o iphdr t payload payloadlen := by
  unfold tcp6_checksum tcp6_checksum_buf
  rw [tcp6_stores_th_sum]

/-- Every element of a big-endian encoding is a byte. -/
theorem be16_lt (v b : Nat) (h : b ∈ be16 v) : b < 256 := by
  simp only [be16, List.mem_cons, List.mem_singleton, List.not_mem_nil, or_false] at h
  omega

theorem be32_lt (v b : Nat) (h : b ∈ be32 v) : b < 256 := by
  simp only [be32, List.mem_cons, List.mem_singleton, List.not_mem_nil, or_false] at h
  omega

/-- The bytes of the TCP header are bytes when the flags are one. -/
theorem tcphdr_bytes_lt (t : tcphdr) (hfl : t.th_flags < 256) (b : Nat)
    (h : b ∈ tcphdr_bytes t) : b < 256 := by
  have h1 := t.th_off.isLt
  have h2 := t.th_x2.isLt
  simp only [tcphdr_bytes, List.mem_append, List.mem_singleton] at h
  rcases h with ((((((((h | h) | h) | h) | h) | h) | h) | h) | h)
  · exact be16_lt _ _ h
  · exact be16_lt _ _ h
  · exact be32_lt _ _ h
  · exact be32_lt _ _ h
  · omega
  · omega
  · exact be16_lt _ _ h
  · exact be16_lt _ _ h
  · exact be16_lt _ _ h

/-- The function `checksum` returns on any run of bytes that lies inside the
object and is at most `IP_MAXPACKET` long. -/
theorem checksum_returns (o : ByteOrder) (buf : List Nat) (n : Nat)
    (hb : ∀ b ∈ buf, b < 256) (hn : n ≤ buf.length) (hmax : n ≤ IP_MAXPACKET) :
    ∃ a, checksum o buf n = some a := by
  have hbt : ∀ b ∈ buf.take n, b < 256 := fun b hbm => hb b (List.mem_of_mem_take hbm)
  have hS := word_sum_le o (buf.take n) hbt
  have hl : (buf.take n).length = n := by rw [List.length_take]; omega
  rw [hl] at hS
  simp only [IP_MAXPACKET] at hmax
  have hsum := checksum_sum_eq o (buf.take n) 0 (by simp only [INT_MAX]; omega)
  unfold checksum
  rw [if_neg (by omega), Int.toNat_ofNat, hsum]
  exact ⟨_, rfl⟩

/-- The function `tcp6_checksum` returns whenever its arguments are bytes and
the padded pseudo-packet fits `buf`. -/
theorem tcp6_checksum_returns (o : ByteOrder) (iphdr : ip6_hdr) (t : tcphdr)
    (payload : List Nat) (hsrc : ∀ i, iphdr.ip6_src i < 256) (hdst : ∀ i, iphdr.ip6_dst i < 256)
    (hnxt : iphdr.ip6_nxt < 256) (hfl : t.th_flags < 256) (hpay : ∀ b ∈ payload, b < 256)
    (hfit : 60 + payload.length + payload.length % 2 ≤ IP_MAXPACKET) :
    ∃ a, tcp6_checksum o iphdr t payload payload.length = some a := by
  have hbuf := tcp6_checksum_buf_eq iphdr t payload (by omega)
  rw [tcp6_checksum_of_buf o iphdr t payload _ _ _ hbuf]
  apply checksum_returns
  · intro b hb
    simp only [List.mem_append, List.mem_ofFn, Set.mem_range, List.mem_cons,
      List.mem_singleton, List.not_mem_nil, or_false, List.mem_replicate] at hb
    rcases hb with (((((((⟨i, rfl⟩ | ⟨i, rfl⟩) | h) | h) | h) | h) | h) | h)
    · exact hsrc i
    · exact hdst i
    · exact be32_lt _ _ h
    · omega
    · omega
    · exact tcphdr_bytes_lt { t with th_sum := 0 } hfl b h
    · exact hpay b h
    · omega
  · simp only [List.length_append, List.length_ofFn, be32_length, List.length_cons,
      List.length_nil, tcphdr_bytes_length, List.length_replicate]
    omega
  · exact hfit

/-- C12. The function `tcp6_checksum` is a function of its arguments, and its
result does not depend on the `th_sum` field of the TCP header it is given: for
every byte order, header, payload and length, giving the field any value `v`
leaves the result (a value, or no result) unchanged; if `tcp6_checksum` returns
`a`, then after the assignment `tcphdr.th_sum = a` it returns `a` again; and it
does return, so that both runs yield the same value, whenever the arguments are
bytes and the padded pseudo-packet fits the buffer. -/
theorem tcp6_checksum_ignores_th_sum (o : ByteOrder) (iphdr : ip6_hdr) (t : tcphdr)
    (payload : List Nat) (payloadlen : Int) :
    (∀ v : Nat, tcp6_checksum o iphdr { t with th_sum := v } payload payloadlen
        = tcp6_checksum o iphdr t payload payloadlen) ∧
      (∀ a : Int, tcp6_checksum o iphdr t payload payloadlen = some a →
        tcp6_checksum o iphdr (assign_th_sum o t a) payload payloadlen = some a) ∧
      ((∀ i, iphdr.ip6_src i < 256) → (∀ i, iphdr.ip6_dst i < 256) → iphdr.ip6_nxt < 256 →
        t.th_flags < 256 → (∀ b ∈ payload, b < 256) →
        60 + payload.length + payload.length % 2 ≤ IP_MAXPACKET →
        ∃ a, tcp6_checksum o iphdr t payload payload.length = some a ∧
          tcp6_checksum o iphdr (assign_th_sum o t a) payload payload.length = some a) := by
  refine ⟨fun v => tcp6_checksum_th_sum o iphdr t payload payloadlen v, ?_, ?_⟩
  · intro a ha
    rw [← ha]
    exact tcp6_checksum_th_sum o iphdr t payload payloadlen _
  · intro hsrc hdst hnxt hfl hpay hfit
    obtain ⟨a, ha⟩ := tcp6_checksum_returns o iphdr t payload hsrc hdst hnxt hfl hpay hfit
    refine ⟨a, ha, ?_⟩
    rw [← ha]
    exact tcp6_checksum_th_sum o iphdr t payload _ _

/-- C12 for the headers of `main` and a payload of three bytes on a
little-endian machine: both runs return the same value. -/
theorem tcp6_checksum_ignores_th_sum_witness :
    ∃ a, tcp6_checksum ByteOrder.little iphdr_main tcphdr_main [1, 2, 3]
          ([1, 2, 3] : List Nat).length = some a ∧
        tcp6_checksum ByteOrder.little iphdr_main
          (assign_th_sum ByteOrder.little tcphdr_main a) [1, 2, 3]
          ([1, 2, 3] : List Nat).length = some a :=
  (tcp6_checksum_ignores_th_sum ByteOrder.little iphdr_main tcphdr_main [1, 2, 3] 3).2.2
    (by decide) (by decide) (by decide) (by decide) (by decide) (by decide)

/-- C14 at MTU 80 with the two options of `main` and a payload of three bytes:
two frames, and the first one carries all three extension headers. -/
theorem next_header_chain_witness :
    ∃ fb f,
      build_fragbuffer 10 [ilnp_nonce]
          (set_next_headers ([router_alert] : List ExtOption).length
            ([ilnp_nonce] : List ExtOption).length plan_80_39.nframes headers_main).dsthdr
          tcphdr_main [1, 2, 3] ([1, 2, 3] : List Nat).length
        = some (fb, dstlen [ilnp_nonce] { opt_totlen := 14, optpadlen := 0, hdr_len := 1 }
            + TCP_HDRLEN + ([1, 2, 3] : List Nat).length) ∧
      send_frame 10 mac_zero mac_zero
          (set_next_headers ([router_alert] : List ExtOption).length
            ([ilnp_nonce] : List ExtOption).length plan_80_39.nframes headers_main).iphdr
          [router_alert]
          (set_next_headers ([router_alert] : List ExtOption).length
            ([ilnp_nonce] : List ExtOption).length plan_80_39.nframes headers_main).hophdr
          (hoplen [router_alert] { opt_totlen := 4, optpadlen := 2, hdr_len := 0 })
          ([ilnp_nonce] : List ExtOption).length fb plan_80_39 0 = some f ∧
      laid_out_headers ([ilnp_nonce] : List ExtOption).length f
        = (if ([router_alert] : List ExtOption).length > 0 then
              [(IPPROTO_HOPOPTS,
                if plan_80_39.nframes > 1 then IPPROTO_FRAGMENT
                else if ([ilnp_nonce] : List ExtOption).length > 0 then IPPROTO_DSTOPTS
                else IPPROTO_TCP)]
            else [])
          ++ (if plan_80_39.nframes > 1 then
              [(IPPROTO_FRAGMENT,
                if ([ilnp_nonce] : List ExtOption).length > 0 then IPPROTO_DSTOPTS
                else IPPROTO_TCP)]
            else [])
          ++ (if ([ilnp_nonce] : List ExtOption).length > 0 then
              [(IPPROTO_DSTOPTS, IPPROTO_TCP)] else []) ∧
      chain_ok (f.ip6.getD 6 0) (laid_out_headers ([ilnp_nonce] : List ExtOption).length f)
        = true ∧
      IPPROTO_TCP = 6 :=
  next_header_chain 10 3118 80 [router_alert] [ilnp_nonce]
    { opt_totlen := 4, optpadlen := 2, hdr_len := 0 }
    { opt_totlen := 14, optpadlen := 0, hdr_len := 1 } headers_main mac_zero mac_zero
    tcphdr_main [1, 2, 3] plan_80_39 (by rfl) (by decide!) (by rfl) (by decide)

/-! ## Scenarios A and B: claims C21 and C22 -/

/-- C21. Scenario A, for any number of loop turns granted beyond three: for the
single hop-by-hop option of `main`, the router alert (bytes 5, 2, 0, 5,
alignment `2n + 0`), the size pass finds a header of 8 bytes (4 option bytes,
2 bytes of padding) and the header-length field 0; in the write pass of the
send loop `option_pad` inserts nothing before the option (need 0 at index 2),
the option occupies header bytes 2..5, the end padding at index 6 is the 2-byte
PadN (1, 0), and the header is the 8 bytes `nxt, 0, 5, 2, 0, 5, 1, 0`. -/
theorem scenario_a_layout (fuel : Nat) (nxt : Nat) :
    router_alert = { x := 2, y := 0, data := [5, 2, 0, 5] } ∧
      hop_size_pass (fuel + 3) [router_alert]
        = some { opt_totlen := 4, optpadlen := 2, hdr_len := 0 } ∧
      hoplen [router_alert] { opt_totlen := 4, optpadlen := 2, hdr_len := 0 } = 8 ∧
      option_pad (fuel + 3) 2 56 2 0
        = some { needpad := 0, indx := 2, c := 56, bytes := [] } ∧
      option_pad (fuel + 3) 6 60 8 0
        = some { needpad := 2, indx := 8, c := 62, bytes := [1, 0] } ∧
      ext_write_pass HOP_HDRLEN (fuel + 3) [router_alert] [nxt, 0] (0 + ETH_HDRLEN + IP6_HDRLEN)
        = some { indx := 8, c := 62, bytes := [nxt, 0, 5, 2, 0, 5, 1, 0] } ∧
      (([nxt, 0, 5, 2, 0, 5, 1, 0] : List Nat).drop 2).take 4 = router_alert.data ∧
      ([nxt, 0, 5, 2, 0, 5, 1, 0] : List Nat).drop 6 = [1, 0] ∧
      ([nxt, 0, 5, 2, 0, 5, 1, 0] : List Nat).length = 8 :=
  ⟨rfl, rfl, rfl, rfl, rfl, rfl, rfl, rfl, rfl⟩

/-- C22. Scenario B, for any number of loop turns granted beyond one: for the
single destination option of `main`, the ILNP nonce (type 139, 12 data bytes,
14 bytes encoded, alignment `4n + 2`), the size pass finds a header of 16 bytes
(14 option bytes, no padding) and the header-length field 1; in the write pass
into the fragmentable buffer `option_pad` inserts nothing before the option
(need 0 at index 2) and nothing after it (need 0 at index 16), the option
occupies header bytes 2..15, and the header is the 16 bytes `nxt, 1` followed
by the option. -/
theorem scenario_b_layout (fuel : Nat) (nxt : Nat) :
    ilnp_nonce
        = { x := 4, y := 2,
            data := [139, 12, 4, 35, 229, 0, 79, 50, 211, 23, 156, 170, 102, 116] } ∧
      dst_size_pass (fuel + 1) [ilnp_nonce]
        = some { opt_totlen := 14, optpadlen := 0, hdr_len := 1 } ∧
      dstlen [ilnp_nonce] { opt_totlen := 14, optpadlen := 0, hdr_len := 1 } = 16 ∧
      option_pad (fuel + 1) 2 2 4 2 = some { needpad := 0, indx := 2, c := 2, bytes := [] } ∧
      option_pad (fuel + 1) 16 16 8 0
        = some { needpad := 0, indx := 16, c := 16, bytes := [] } ∧
      ext_write_pass DST_HDRLEN (fuel + 1) [ilnp_nonce] [nxt, 1] 0
        = some { indx := 16, c := 16,
                 bytes := [nxt, 1, 139, 12, 4, 35, 229, 0, 79, 50, 211, 23, 156, 170, 102,
                   116] } ∧
      (([nxt, 1, 139, 12, 4, 35, 229, 0, 79, 50, 211, 23, 156, 170, 102, 116] : List Nat).drop 2)
        = ilnp_nonce.data ∧
      ilnp_nonce.data.length = 14 ∧
      ([nxt, 1, 139, 12, 4, 35, 229, 0, 79, 50, 211, 23, 156, 170, 102, 116] : List Nat).length
        = 16 :=
  ⟨rfl, rfl, rfl, rfl, rfl, rfl, rfl, rfl, rfl⟩

/-! ## The two layout passes: claim C23 -/

/-- The size pass finishes for every option list, empty or not, with alignments
`0 ≤ y < x` given enough turns. -/
theorem ext_size_pass_returns (hdrlen : Int) (h0 : 0 ≤ hdrlen) (fuel : Nat)
    (opts : List ExtOption) (hv : ∀ o ∈ opts, 0 ≤ o.y ∧ o.y < o.x ∧ o.x < fuel)
    (hf : 8 < fuel) :
    ∃ sz, ext_size_pass hdrlen fuel opts = some sz := by
  unfold ext_size_pass
  split_ifs with hn
  · obtain ⟨a, ha, hle⟩ := size_opts_terminates fuel opts (0 + hdrlen) (by omega) hv
    obtain ⟨b, hb, _⟩ := align_loop_terminates 8 0 a fuel (by omega) (by omega) (by omega)
      (by exact_mod_cast hf)
    rw [ha]
    dsimp only
    rw [hb]
    exact ⟨_, rfl⟩
  · exact ⟨_, rfl⟩

/-- C23. The two layout passes agree. For every ordered option list of the
hop-by-hop and of the destination header with alignments `0 ≤ y < x` (and loop
turns granted beyond every `x` and beyond 8): the size passes finish, the write
passes finish, the number of bytes the hop-by-hop write pass emits (2-byte
header, `option_pad` output and option bytes) is `hoplen` and it moves the
buffer index by `hoplen`; the number of bytes the destination write pass emits
is `dstlen`; and building the fragmentable buffer stores
`dstlen + TCP_HDRLEN + payloadlen` bytes and leaves the index `c` at that value,
which is `fragbufferlen`. -/
theorem layout_passes_agree (fuel : Nat) (hbh dst : List ExtOption) (hophdr : hop_hdr)
    (dsthdr : dst_hdr) (c : Int) (t : tcphdr) (payload : List Nat)
    (hvh : ∀ o ∈ hbh, 0 ≤ o.y ∧ o.y < o.x ∧ o.x < fuel)
    (hvd : ∀ o ∈ dst, 0 ≤ o.y ∧ o.y < o.x ∧ o.x < fuel) (hf : 8 < fuel) :
    ∃ szh szd wh wd fb,
      hop_size_pass fuel hbh = some szh ∧
      dst_size_pass fuel dst = some szd ∧
      ext_write_pass HOP_HDRLEN fuel hbh [hophdr.nxt_hdr, hophdr.hdr_len] c = some wh ∧
      (wh.bytes.length : Int) = hoplen hbh szh ∧
      wh.c = c + hoplen hbh szh ∧
      ext_write_pass DST_HDRLEN fuel dst [dsthdr.nxt_hdr, dsthdr.hdr_len] 0 = some wd ∧
      (wd.bytes.length : Int) = dstlen dst szd ∧
      wd.c = dstlen dst szd ∧
      build_fragbuffer fuel dst dsthdr t payload payload.length
        = some (fb, dstlen dst szd + TCP_HDRLEN + payload.length) ∧
      (fb.length : Int) = dstlen dst szd + TCP_HDRLEN + payload.length := by
  obtain ⟨szh, hszh⟩ := ext_size_pass_returns HOP_HDRLEN (by decide) fuel hbh hvh hf
  obtain ⟨szd, hszd⟩ := ext_size_pass_returns DST_HDRLEN (by decide) fuel dst hvd hf
  obtain ⟨wh, hwh, hwhc, hwhl⟩ := ext_write_pass_of_size_pass HOP_HDRLEN fuel hbh
    [hophdr.nxt_hdr, hophdr.hdr_len] c szh hszh
  obtain ⟨wd, hwd, hwdc, hwdl⟩ := ext_write_pass_of_size_pass DST_HDRLEN fuel dst
    [dsthdr.nxt_hdr, dsthdr.hdr_len] 0 szd hszd
  have hhl : (wh.bytes.length : Int) = hoplen hbh szh := by
    rw [hwhl]
    unfold hoplen
    simp only [HOP_HDRLEN, List.length_cons, List.length_nil]
    split_ifs <;> simp
  have hdl : (wd.bytes.length : Int) = dstlen dst szd := by
    rw [hwdl]
    unfold dstlen
    simp only [DST_HDRLEN, List.length_cons, List.length_nil]
    split_ifs <;> simp
  have hdc : wd.c = dstlen dst szd := by
    rw [hwdc]
    unfold dstlen
    split_ifs <;> simp
  refine ⟨szh, szd, wh, wd, wd.bytes ++ tcphdr_bytes t ++ payload.take payload.length, hszh,
    hszd, hwh, hhl, ?_, hwd, hdl, hdc, ?_, ?_⟩
  · rw [hwhc]
    unfold hoplen
    split_ifs <;> simp
  · unfold build_fragbuffer
    dsimp only
    rw [hwd]
    dsimp only
    rw [hdc, Int.toNat_ofNat]
  · rw [List.length_append, List.length_append, tcphdr_bytes_length, List.take_length]
    push_cast
    rw [hdl]
    rfl

/-- C23 for the two options of `main`, the hop-by-hop pass entered behind the
Ethernet and IPv6 headers, and a payload of three bytes. -/
theorem layout_passes_agree_witness :
    ∃ szh szd wh wd fb,
      hop_size_pass 10 [router_alert] = some szh ∧
      dst_size_pass 10 [ilnp_nonce] = some szd ∧
      ext_write_pass HOP_HDRLEN 10 [router_alert]
        [headers_main.hophdr.nxt_hdr, headers_main.hophdr.hdr_len] 54 = some wh ∧
      (wh.bytes.length : Int) = hoplen [router_alert] szh ∧
      wh.c = 54 + hoplen [router_alert] szh ∧
      ext_write_pass DST_HDRLEN 10 [ilnp_nonce]
        [headers_main.dsthdr.nxt_hdr, headers_main.dsthdr.hdr_len] 0 = some wd ∧
      (wd.bytes.length : Int) = dstlen [ilnp_nonce] szd ∧
      wd.c = dstlen [ilnp_nonce] szd ∧
      build_fragbuffer 10 [ilnp_nonce] headers_main.dsthdr tcphdr_main [1, 2, 3]
          ([1, 2, 3] : List Nat).length
        = some (fb, dstlen [ilnp_nonce] szd + TCP_HDRLEN + ([1, 2, 3] : List Nat).length) ∧
      (fb.length : Int) = dstlen [ilnp_nonce] szd + TCP_HDRLEN + ([1, 2, 3] : List Nat).length :=
  layout_passes_agree 10 [router_alert] [ilnp_nonce] headers_main.hophdr headers_main.dsthdr 54
    tcphdr_main [1, 2, 3] (by decide) (by decide) (by decide)

/-! ## Turns of the splitting loop: claims C24 and C25 -/

/-- The loop counts its turns in `i`: the count never decreases, it grows if
the loop is entered at all, and it grows by at most the turns granted. -/
theorem frag_loop_i_bounds (mtu hoplen fragbufferlen : Int) :
    ∀ (fuel : Nat) (s plan : FragState),
      frag_loop mtu hoplen fragbufferlen fuel s = some plan →
        s.i ≤ plan.i ∧ (s.c < fragbufferlen → s.i + 1 ≤ plan.i) ∧ plan.i ≤ s.i + fuel
  | 0, s, plan, h => by
    unfold frag_loop at h
    split_ifs at h with hc
    cases h
    exact ⟨le_refl _, fun h2 => absurd h2 hc, le_refl _⟩
  | fuel + 1, s, plan, h => by
    unfold frag_loop at h
    split_ifs at h with hc
    · obtain ⟨h1, _, h3⟩ := frag_loop_i_bounds mtu hoplen fragbufferlen fuel _ plan h
      rw [frag_step_i] at h1 h3
      exact ⟨by omega, fun _ => h1, by omega⟩
    · cases h
      exact ⟨le_refl _, fun h2 => absurd h2 hc, by omega⟩

/-- What one turn stores when the budget is at least 8: all that remains if
it fits the budget, and otherwise at least the budget less 7. -/
theorem frag_step_len_ge (mtu hoplen fragbufferlen : Int) (s : FragState)
    (hB : 8 ≤ frag_budget mtu hoplen) :
    (fragbufferlen - s.c ≤ frag_budget mtu hoplen →
        (frag_step mtu hoplen fragbufferlen s).len s.i = fragbufferlen - s.c) ∧
      (fragbufferlen - s.c > frag_budget mtu hoplen →
        frag_budget mtu hoplen - 7 ≤ (frag_step mtu hoplen fragbufferlen s).len s.i) := by
  simp only [frag_budget] at hB ⊢
  simp only [frag_step, arr_set, ↓reduceIte]
  constructor
  · intro hle
    split_ifs with h1 h2 h3
    · omega
    · omega
    · omega
    · rfl
  · intro hgt
    split_ifs with h1
    · rw [round_down_of_nonneg _ _ (by omega)]
      show mtu - IP6_HDRLEN - hoplen - FRG_HDRLEN - 7
        ≤ mtu - IP6_HDRLEN - hoplen - FRG_HDRLEN - (mtu - IP6_HDRLEN - hoplen - FRG_HDRLEN) % 8
      omega
    · show mtu - IP6_HDRLEN - hoplen - FRG_HDRLEN - 7 ≤ mtu - IP6_HDRLEN - hoplen - FRG_HDRLEN
      omega

/-- With a budget of at least 8 the loop returns as soon as the turns granted,
each good for the budget less 7, cover what remains. -/
theorem frag_loop_terminates (mtu hoplen fragbufferlen : Int)
    (hB : 8 ≤ frag_budget mtu hoplen) :
    ∀ (fuel : Nat) (s : FragState),
      fragbufferlen - s.c ≤ (fuel : Int) * (frag_budget mtu hoplen - 7) →
        ∃ plan, frag_loop mtu hoplen fragbufferlen fuel s = some plan
  | 0, s, h => by
    rw [Nat.cast_zero, Int.zero_mul] at h
    exact ⟨s, frag_loop_done mtu hoplen fragbufferlen 0 s (by omega)⟩
  | fuel + 1, s, h => by
    by_cases hc : s.c < fragbufferlen
    · unfold frag_loop
      rw [if_pos hc]
      apply frag_loop_terminates mtu hoplen fragbufferlen hB fuel
      obtain ⟨h1, h2⟩ := frag_step_len_ge mtu hoplen fragbufferlen s hB
      have hcs := frag_step_c mtu hoplen fragbufferlen s
      have hmul : ((fuel + 1 : Nat) : Int) * (frag_budget mtu hoplen - 7)
          = (fuel : Int) * (frag_budget mtu hoplen - 7) + (frag_budget mtu hoplen - 7) := by
        push_cast
        ring
      rw [hmul] at h
      have hnn : 0 ≤ (fuel : Int) * (frag_budget mtu hoplen - 7) :=
        Int.mul_nonneg (Int.ofNat_nonneg fuel) (by omega)
      by_cases hle : fragbufferlen - s.c ≤ frag_budget mtu hoplen
      · have := h1 hle
        omega
      · have := h2 (by omega)
        omega
    · exact ⟨s, frag_loop_done mtu hoplen fragbufferlen _ s hc⟩

/-- The bytes planned are at most the budget for each turn taken. -/
theorem frag_loop_c_le (mtu hoplen fragbufferlen : Int) (fuel : Nat) (plan : FragState)
    (h : frag_loop mtu hoplen fragbufferlen fuel frag_init = some plan) :
    fragbufferlen ≤ frag_budget mtu hoplen * plan.i := by
  have key := frag_loop_invariant mtu hoplen fragbufferlen
    (fun s => s.c ≤ frag_budget mtu hoplen * s.i)
    (by
      intro s _ hs
      have hl := frag_step_len_le mtu hoplen fragbufferlen s
      have hcs := frag_step_c mtu hoplen fragbufferlen s
      show (frag_step mtu hoplen fragbufferlen s).c
        ≤ frag_budget mtu hoplen * ((frag_step mtu hoplen fragbufferlen s).i : Int)
      rw [frag_step_i]
      push_cast
      rw [Int.mul_add, Int.mul_one]
      simp only [frag_budget]
      simp only [frag_budget] at hs
      omega)
    fuel frag_init plan (by show (0 : Int) ≤ _ * ((0 : Nat) : Int); simp) h
  have h1 := key.1
  have h2 := key.2
  dsimp only at h1
  omega

/-- The loop does not return within the turns granted when they cannot hold the
buffer even at a full budget each. -/
theorem frag_loop_none_of_gt (mtu hoplen fragbufferlen : Int) (fuel : Nat)
    (h0 : 0 ≤ frag_budget mtu hoplen)
    (hgt : fragbufferlen > (fuel : Int) * frag_budget mtu hoplen) :
    frag_loop mtu hoplen fragbufferlen fuel frag_init = none := by
  cases h : frag_loop mtu hoplen fragbufferlen fuel frag_init with
  | none => rfl
  | some plan =>
    exfalso
    have h1 := frag_loop_c_le mtu hoplen fragbufferlen fuel plan h
    obtain ⟨_, _, h3⟩ := frag_loop_i_bounds mtu hoplen fragbufferlen fuel frag_init plan h
    have h4 : (plan.i : Int) ≤ (fuel : Int) := by
      have : frag_init.i = 0 := rfl
      rw [this] at h3
      exact_mod_cast (by omega : plan.i ≤ fuel)
    have h5 : frag_budget mtu hoplen * plan.i ≤ frag_budget mtu hoplen * (fuel : Int) :=
      Int.mul_le_mul_of_nonneg_left h4 h0
    rw [Int.mul_comm (fuel : Int)] at hgt
    omega

/-- A buffer that fits the budget is planned in one turn. -/
theorem frag_loop_single (mtu hoplen fragbufferlen : Int) (hB : 8 ≤ frag_budget mtu hoplen)
    (hL : 1 ≤ fragbufferlen) (hle : fragbufferlen ≤ frag_budget mtu hoplen) (n : Nat) :
    frag_loop mtu hoplen fragbufferlen (n + 1) frag_init
        = some (frag_step mtu hoplen fragbufferlen frag_init) ∧
      (frag_step mtu hoplen fragbufferlen frag_init).i = 1 ∧
      (frag_step mtu hoplen fragbufferlen frag_init).len 0 = fragbufferlen := by
  have hc0 : frag_init.c = 0 := rfl
  have hi0 : frag_init.i = 0 := rfl
  have hlen := (frag_step_len_ge mtu hoplen fragbufferlen frag_init hB).1
    (by rw [hc0]; omega)
  have hcs := frag_step_c mtu hoplen fragbufferlen frag_init
  rw [hi0] at hlen hcs
  rw [hc0] at hlen hcs
  refine ⟨?_, rfl, by rw [hlen]; omega⟩
  unfold frag_loop
  rw [if_pos (by rw [hc0]; omega)]
  exact frag_loop_done mtu hoplen fragbufferlen n _ (by omega)

/-- A buffer beyond the budget takes at least two turns. -/
theorem frag_loop_two_turns (mtu hoplen fragbufferlen : Int)
    (hgt : fragbufferlen > frag_budget mtu hoplen) (hL : 1 ≤ fragbufferlen)
    (turns : Nat) (plan : FragState)
    (h : frag_loop mtu hoplen fragbufferlen turns frag_init = some plan) :
    2 ≤ plan.i := by
  have hc0 : frag_init.c = 0 := rfl
  have hi0 : frag_init.i = 0 := rfl
  cases turns with
  | zero =>
    unfold frag_loop at h
    rw [if_pos (by rw [hc0]; omega)] at h
    cases h
  | succ n =>
    unfold frag_loop at h
    rw [if_pos (by rw [hc0]; omega)] at h
    have hl := frag_step_len_le mtu hoplen fragbufferlen frag_init
    have hcs := frag_step_c mtu hoplen fragbufferlen frag_init
    rw [hc0] at hcs
    obtain ⟨_, h2, _⟩ := frag_loop_i_bounds mtu hoplen fragbufferlen n _ plan h
    have h3 := h2 (by simp only [frag_budget] at hgt; omega)
    rw [frag_step_i, hi0] at h3
    omega

/-- C24. For every budget `mtu - 40 - hoplen - 8` of at least 8 and every
fragmentable buffer of at least 1 byte: the splitting loop returns a plan (given
enough turns, `fragbufferlen` of them suffice); every plan it returns has at
least one fragment and has exactly one fragment if and only if the buffer is at
most the budget long; in that case the plan `main` computes is that one
fragment, of the whole length; and the frames of a plan carry no fragment
header if and only if the buffer is at most the budget long. -/
theorem single_fragment_iff (mtu hoplen fragbufferlen : Int)
    (hB : 8 ≤ frag_budget mtu hoplen) (hL : 1 ≤ fragbufferlen) :
    (∃ plan, frag_loop mtu hoplen fragbufferlen fragbufferlen.toNat frag_init = some plan) ∧
      (∀ (turns : Nat) (plan : FragState),
        frag_loop mtu hoplen fragbufferlen turns frag_init = some plan →
          1 ≤ plan.nframes ∧
          (plan.nframes = 1 ↔ fragbufferlen ≤ frag_budget mtu hoplen) ∧
          ∀ (fuel : Nat) (dst_mac src_mac : Fin 6 → Nat) (iphdr : ip6_hdr)
            (hbh : List ExtOption) (hophdr : hop_hdr) (hoplen0 dst_nopt : Int)
            (fragbuffer : List Nat) (i : Nat) (f : EtherFrame),
            send_frame fuel dst_mac src_mac iphdr hbh hophdr hoplen0 dst_nopt fragbuffer
                plan i = some f →
              (f.frag = [] ↔ fragbufferlen ≤ frag_budget mtu hoplen)) ∧
      (fragbufferlen ≤ frag_budget mtu hoplen →
        ∃ plan, fragment_plan mtu hoplen fragbufferlen = some plan ∧ plan.nframes = 1 ∧
          plan.len 0 = fragbufferlen) := by
  have hc0 : frag_init.c = 0 := rfl
  refine ⟨?_, ?_, ?_⟩
  · apply frag_loop_terminates mtu hoplen fragbufferlen hB
    rw [hc0, Int.toNat_of_nonneg (by omega)]
    have h1 : fragbufferlen * 1 ≤ fragbufferlen * (frag_budget mtu hoplen - 7) :=
      Int.mul_le_mul_of_nonneg_left (by omega) (by omega)
    omega
  · intro turns plan h
    obtain ⟨_, h2, _⟩ := frag_loop_i_bounds mtu hoplen fragbufferlen turns frag_init plan h
    have h1 : 1 ≤ plan.i := h2 (by rw [hc0]; omega)
    have hiff : plan.nframes = 1 ↔ fragbufferlen ≤ frag_budget mtu hoplen := by
      show plan.i = 1 ↔ _
      constructor
      · intro hone
        by_contra hgt
        have := frag_loop_two_turns mtu hoplen fragbufferlen (by omega) hL turns plan h
        omega
      · intro hle
        cases turns with
        | zero =>
          unfold frag_loop at h
          rw [if_pos (by rw [hc0]; omega)] at h
          cases h
        | succ n =>
          obtain ⟨hs, hi, _⟩ := frag_loop_single mtu hoplen fragbufferlen hB hL hle n
          rw [hs] at h
          cases h
          exact hi
    refine ⟨h1, hiff, ?_⟩
    intro fuel dst_mac src_mac iphdr hbh hophdr hoplen0 dst_nopt fragbuffer i f hf
    obtain ⟨_, _, _, _, hfrag, _, _⟩ := send_frame_parts _ _ _ _ _ _ _ _ _ _ _ f hf
    rw [← hiff, hfrag]
    have h1n : 1 ≤ plan.nframes := h1
    split_ifs with hgt
    · simp only [ip6_frag_bytes, List.cons_append, List.nil_append, reduceCtorEq, false_iff]
      omega
    · simp only [true_iff]
      omega
  · intro hle
    obtain ⟨hs, hi, hlen⟩ := frag_loop_single mtu hoplen fragbufferlen hB hL hle 3117
    exact ⟨_, hs, hi, hlen⟩

/-- C24 at MTU 1500 behind an 8-byte hop-by-hop header (budget 1444) with 5000
bytes to send. -/
theorem single_fragment_iff_witness :
    (∃ plan, frag_loop 1500 8 5000 (5000 : Int).toNat frag_init = some plan) ∧
      (∀ (turns : Nat) (plan : FragState),
        frag_loop 1500 8 5000 turns frag_init = some plan →
          1 ≤ plan.nframes ∧
          (plan.nframes = 1 ↔ (5000 : Int) ≤ frag_budget 1500 8) ∧
          ∀ (fuel : Nat) (dst_mac src_mac : Fin 6 → Nat) (iphdr : ip6_hdr)
            (hbh : List ExtOption) (hophdr : hop_hdr) (hoplen0 dst_nopt : Int)
            (fragbuffer : List Nat) (i : Nat) (f : EtherFrame),
            send_frame fuel dst_mac src_mac iphdr hbh hophdr hoplen0 dst_nopt fragbuffer
                plan i = some f →
              (f.frag = [] ↔ (5000 : Int) ≤ frag_budget 1500 8)) ∧
      ((5000 : Int) ≤ frag_budget 1500 8 →
        ∃ plan, fragment_plan 1500 8 5000 = some plan ∧ plan.nframes = 1 ∧
          plan.len 0 = 5000) :=
  single_fragment_iff 1500 8 5000 (by decide) (by decide)

/-- C25 as stated fails at MTU 1280 behind a hop-by-hop header of 1224 bytes,
where the budget is 8, with 30000 bytes to send: every plan needs at least 3750
fragments, more than the `MAX_FRAGS = 3119` entries of `len[]` and `offset[]`,
and the loop does not come to its end within the turns that stay inside the
two arrays. -/
theorem max_frags_exceeded_at_30000 :
    frag_budget 1280 1224 = 8 ∧ MAX_FRAGS = 3119 ∧
      fragment_plan 1280 1224 30000 = none ∧
      ∀ (turns : Nat) (plan : FragState),
        frag_loop 1280 1224 30000 turns frag_init = some plan → 3750 ≤ plan.nframes := by
  refine ⟨by decide, rfl, ?_, ?_⟩
  · exact frag_loop_none_of_gt 1280 1224 30000 (MAX_FRAGS - 1) (by decide) (by decide)
  · intro turns plan h
    have h1 := frag_loop_c_le 1280 1224 30000 turns plan h
    have h2 : frag_budget 1280 1224 = 8 := by decide
    rw [h2] at h1
    show 3750 ≤ plan.i
    omega

/-- C25, amended. For every fragmentable buffer of length at least 0 and every
budget `mtu - 40 - hoplen - 8` of at least 8: the splitting loop comes to its
end as soon as the turns granted, each good for the budget less 7, cover the
buffer, so within `fragbufferlen` turns; the plan `main` computes inside the
`MAX_FRAGS` entries of `len[]` and `offset[]` exists whenever
`fragbufferlen ≤ (MAX_FRAGS - 1) * (budget - 7)` and does not exist when
`fragbufferlen > (MAX_FRAGS - 1) * budget`; and every fragment of every plan
the loop returns has length at least 1 and at most the budget. -/
theorem frag_loop_terminates_within (mtu hoplen fragbufferlen : Int)
    (hB : 8 ≤ frag_budget mtu hoplen) (hL : 0 ≤ fragbufferlen) :
    (∀ turns : Nat, fragbufferlen ≤ (turns : Int) * (frag_budget mtu hoplen - 7) →
        ∃ plan, frag_loop mtu hoplen fragbufferlen turns frag_init = some plan) ∧
      (∃ plan, frag_loop mtu hoplen fragbufferlen fragbufferlen.toNat frag_init = some plan) ∧
      (fragbufferlen ≤ ((MAX_FRAGS - 1 : Nat) : Int) * (frag_budget mtu hoplen - 7) →
        ∃ plan, fragment_plan mtu hoplen fragbufferlen = some plan) ∧
      (fragbufferlen > ((MAX_FRAGS - 1 : Nat) : Int) * frag_budget mtu hoplen →
        fragment_plan mtu hoplen fragbufferlen = none) ∧
      (∀ (turns : Nat) (plan : FragState),
        frag_loop mtu hoplen fragbufferlen turns frag_init = some plan →
          ∀ j, j < plan.nframes →
            1 ≤ plan.len j ∧ plan.len j ≤ frag_budget mtu hoplen) := by
  have hc0 : frag_init.c = 0 := rfl
  refine ⟨?_, ?_, ?_, ?_, ?_⟩
  · intro turns ht
    exact frag_loop_terminates mtu hoplen fragbufferlen hB turns frag_init
      (by rw [hc0]; omega)
  · apply frag_loop_terminates mtu hoplen fragbufferlen hB
    rw [hc0, Int.toNat_of_nonneg hL]
    have h1 : fragbufferlen * 1 ≤ fragbufferlen * (frag_budget mtu hoplen - 7) :=
      Int.mul_le_mul_of_nonneg_left (by omega) hL
    omega
  · intro ht
    exact frag_loop_terminates mtu hoplen fragbufferlen hB (MAX_FRAGS - 1) frag_init
      (by rw [hc0]; omega)
  · intro hgt
    exact frag_loop_none_of_gt mtu hoplen fragbufferlen (MAX_FRAGS - 1) (by omega) hgt
  · intro turns plan h j hj
    obtain ⟨hfacts, _, _⟩ := frag_loop_plan_facts mtu hoplen fragbufferlen turns plan h
    exact ⟨(hfacts j hj).1, frag_loop_len_le mtu hoplen fragbufferlen turns plan h j hj⟩

/-- C25, amended, at MTU 1500 behind an 8-byte hop-by-hop header (budget 1444)
with 5000 bytes to send. -/
theorem frag_loop_terminates_within_witness :
    (∀ turns : Nat, (5000 : Int) ≤ (turns : Int) * (frag_budget 1500 8 - 7) →
        ∃ plan, frag_loop 1500 8 5000 turns frag_init = some plan) ∧
      (∃ plan, frag_loop 1500 8 5000 (5000 : Int).toNat frag_init = some plan) ∧
      ((5000 : Int) ≤ ((MAX_FRAGS - 1 : Nat) : Int) * (frag_budget 1500 8 - 7) →
        ∃ plan, fragment_plan 1500 8 5000 = some plan) ∧
      ((5000 : Int) > ((MAX_FRAGS - 1 : Nat) : Int) * frag_budget 1500 8 →
        fragment_plan 1500 8 5000 = none) ∧
      (∀ (turns : Nat) (plan : FragState),
        frag_loop 1500 8 5000 turns frag_init = some plan →
          ∀ j, j < plan.nframes → 1 ≤ plan.len j ∧ plan.len j ≤ frag_budget 1500 8) :=
  frag_loop_terminates_within 1500 8 5000 (by decide) (by decide)

/-! ## The accumulator and the receiver's check: claims C26 and C27 -/

/-- The function `checksum` on a whole buffer of bytes of at most 65535 bytes
returns the folded complement of the word sum. -/
theorem checksum_eq_code_answer (o : ByteOrder) (buf : List Nat)
    (hb : ∀ b ∈ buf, b < 256) (hlen : buf.length ≤ 65535) :
    checksum o buf buf.length = some (code_answer (word_sum o buf)) := by
  have hS := word_sum_le o buf hb
  have hsum := checksum_sum_eq o buf 0 (by simp only [INT_MAX]; omega)
  rw [Int.zero_add] at hsum
  unfold checksum
  rw [if_neg (by omega), Int.toNat_ofNat, List.take_length, hsum]
  dsimp only
  rw [code_answer_eq _ (by omega)]
  rfl

/-- The word sum of two runs, the first of even length, is the sum of their
word sums. -/
theorem word_sum_append (o : ByteOrder) :
    ∀ (pre rest : List Nat), pre.length % 2 = 0 →
      word_sum o (pre ++ rest) = word_sum o pre + word_sum o rest
  | [], rest, _ => by simp [word_sum]
  | [b0], rest, h => by simp at h
  | b0 :: b1 :: pre, rest, h => by
    simp only [List.length_cons] at h
    have ih := word_sum_append o pre rest (by omega)
    have e1 : word_sum o (b0 :: b1 :: pre ++ rest)
        = load16 o b0 b1 + word_sum o (pre ++ rest) := rfl
    have e2 : word_sum o (b0 :: b1 :: pre) = load16 o b0 b1 + word_sum o pre := rfl
    rw [e1, e2, ih, Nat.add_assoc]

/-- A buffer cut around the two bytes at `k`. -/
theorem split_at_field (buf : List Nat) (k : Nat) (hk : k + 2 ≤ buf.length) :
    buf = buf.take k ++ [buf.getD k 0, buf.getD (k + 1) 0] ++ buf.drop (k + 2) := by
  have h1 : buf.drop k = buf.getD k 0 :: buf.drop (k + 1) := by
    rw [List.getD_eq_getElem _ _ (by omega)]
    exact List.drop_eq_getElem_cons (by omega)
  have h2 : buf.drop (k + 1) = buf.getD (k + 1) 0 :: buf.drop (k + 2) := by
    rw [List.getD_eq_getElem _ _ (by omega)]
    exact List.drop_eq_getElem_cons (by omega)
  calc buf = buf.take k ++ buf.drop k := (List.take_append_drop k buf).symm
    _ = buf.take k ++ [buf.getD k 0, buf.getD (k + 1) 0] ++ buf.drop (k + 2) := by
      rw [h1, h2]; simp

/-- Loading the two bytes a 16-bit value was stored as gives the value back. -/
theorem load16_store16 (o : ByteOrder) (a : Int) (h0 : 0 ≤ a) (h1 : a < 65536) :
    ((load16 o ((store16 o a).getD 0 0) ((store16 o a).getD 1 0) : Nat) : Int) = a := by
  cases o <;> simp only [store16, load16, List.getD_cons_zero, List.getD_cons_succ] <;> omega

theorem store16_lt (o : ByteOrder) (a : Int) (b : Nat) (h : b ∈ store16 o a) : b < 256 := by
  cases o <;>
    simp only [store16, List.mem_cons, List.mem_singleton, List.not_mem_nil, or_false] at h <;>
    omega

theorem store16_eq (o : ByteOrder) (a : Int) :
    store16 o a = [(store16 o a).getD 0 0, (store16 o a).getD 1 0] := by
  cases o <;> rfl

/-- The value `checksum` returns lies in the range of `uint16_t`. -/
theorem code_answer_range (s : Int) : 0 ≤ code_answer s ∧ code_answer s < 65536 := by
  unfold code_answer
  omega

theorem store16_length (o : ByteOrder) (a : Int) : (store16 o a).length = 2 := by
  cases o <;> rfl

/-- The word sum of a buffer cut around two bytes at an even offset. -/
theorem word_sum_around (o : ByteOrder) (pre post : List Nat) (b0 b1 : Nat)
    (hpre : pre.length % 2 = 0) :
    word_sum o (pre ++ [b0, b1] ++ post) = word_sum o pre + load16 o b0 b1 + word_sum o post := by
  rw [List.append_assoc, word_sum_append o pre _ hpre]
  have e : word_sum o ([b0, b1] ++ post) = load16 o b0 b1 + word_sum o post := rfl
  rw [e, Nat.add_assoc]

/-- Adding its own checksum to a sum in the range of `int` gives a sum whose
checksum is 0. -/
theorem code_answer_verifies (s : Int) (hs0 : 0 ≤ s)
    (hs : s + code_answer s ≤ 2147483647) :
    code_answer (s + code_answer s) = 0 := by
  have hr := code_answer_range s
  obtain ⟨F, q, hF, hsF, hF0, hF1, hq, hFz⟩ := code_fold_spec s hs0 (by omega)
  obtain ⟨F2, q2, hF2, hsF2, hF20, hF21, hq2, hFz2⟩ :=
    code_fold_spec (s + code_answer s) (by omega) (by omega)
  omega

/-- C26. Receiver verification identity, on a machine of either byte order:
for every buffer of bytes of at most 65535 bytes (of even length, as the claim
has it, or odd) whose 16-bit checksum field, at an even byte offset `k` inside
the buffer, is zero, `checksum` returns a value `a`; storing `a` into that field
changes no other byte and not the length, and `checksum` over the resulting
buffer returns 0. -/
theorem checksum_verifies (o : ByteOrder) (buf : List Nat) (k : Nat)
    (hb : ∀ b ∈ buf, b < 256) (hlen : buf.length ≤ 65535)
    (hk : k % 2 = 0) (hk2 : k + 2 ≤ buf.length)
    (hz0 : buf.getD k 0 = 0) (hz1 : buf.getD (k + 1) 0 = 0) :
    ∃ a, checksum o buf buf.length = some a ∧
      (store_checksum o buf k a).length = buf.length ∧
      (store_checksum o buf k a).take k = buf.take k ∧
      (store_checksum o buf k a).drop (k + 2) = buf.drop (k + 2) ∧
      ((store_checksum o buf k a).drop k).take 2 = store16 o a ∧
      checksum o (store_checksum o buf k a) (store_checksum o buf k a).length = some 0 := by
  have hck := checksum_eq_code_answer o buf hb hlen
  have hpl : (buf.take k).length = k := by rw [List.length_take]; omega
  have hnl : (store_checksum o buf k (code_answer (word_sum o buf))).length = buf.length := by
    simp only [store_checksum, List.length_append, List.length_take, List.length_drop,
      store16_length]
    omega
  have hnb : ∀ b ∈ store_checksum o buf k (code_answer (word_sum o buf)), b < 256 := by
    intro b hbm
    simp only [store_checksum, List.mem_append] at hbm
    rcases hbm with (h | h) | h
    · exact hb b (List.mem_of_mem_take h)
    · exact store16_lt o _ b h
    · exact hb b (List.mem_of_mem_drop h)
  have hck2 := checksum_eq_code_answer o _ hnb (by omega)
  have hr := code_answer_range (word_sum o buf)
  have hS : word_sum o buf = word_sum o (buf.take k) + word_sum o (buf.drop (k + 2)) := by
    have h1 := congrArg (word_sum o) (split_at_field buf k hk2)
    rw [hz0, hz1, word_sum_around o _ _ 0 0 (by omega)] at h1
    have h0 : load16 o 0 0 = 0 := by cases o <;> rfl
    rw [h0] at h1
    omega
  have hN : ((word_sum o (store_checksum o buf k (code_answer (word_sum o buf))) : Nat) : Int)
      = (word_sum o buf : Int) + code_answer (word_sum o buf) := by
    unfold store_checksum
    rw [store16_eq, word_sum_around o _ _ _ _ (by omega)]
    push_cast
    rw [load16_store16 o _ hr.1 hr.2, hS]
    push_cast
    omega
  have hSle := word_sum_le o _ hnb
  rw [hnl] at hSle
  refine ⟨_, hck, hnl, ?_, ?_, ?_, ?_⟩
  · unfold store_checksum
    rw [List.append_assoc, List.take_left' hpl]
  · unfold store_checksum
    rw [List.drop_left' (by rw [List.length_append, hpl, store16_length])]
  · unfold store_checksum
    rw [List.append_assoc, List.drop_left' hpl, List.take_left' (store16_length o _)]
  · rw [hck2, hN, code_answer_verifies _ (by omega) (by omega)]

/-- C26 on a six-byte buffer with the field at offset 4, on a little-endian
machine. -/
theorem checksum_verifies_witness :
    ∃ a, checksum ByteOrder.little [255, 255, 255, 254, 0, 0]
          ([255, 255, 255, 254, 0, 0] : List Nat).length = some a ∧
      (store_checksum ByteOrder.little [255, 255, 255, 254, 0, 0] 4 a).length
        = ([255, 255, 255, 254, 0, 0] : List Nat).length ∧
      (store_checksum ByteOrder.little [255, 255, 255, 254, 0, 0] 4 a).take 4
        = ([255, 255, 255, 254, 0, 0] : List Nat).take 4 ∧
      (store_checksum ByteOrder.little [255, 255, 255, 254, 0, 0] 4 a).drop (4 + 2)
        = ([255, 255, 255, 254, 0, 0] : List Nat).drop (4 + 2) ∧
      ((store_checksum ByteOrder.little [255, 255, 255, 254, 0, 0] 4 a).drop 4).take 2
        = store16 ByteOrder.little a ∧
      checksum ByteOrder.little (store_checksum ByteOrder.little [255, 255, 255, 254, 0, 0] 4 a)
        (store_checksum ByteOrder.little [255, 255, 255, 254, 0, 0] 4 a).length = some 0 :=
  checksum_verifies ByteOrder.little [255, 255, 255, 254, 0, 0] 4 (by decide) (by decide)
    (by decide) (by decide) (by decide) (by decide)

/-- C27. For every buffer of bytes and every length `len` of at most 65535
bytes inside it, on a machine of either byte order: the accumulator `sum` of
`checksum`, an `int`, never leaves its range: after the words of every initial
run of `k ≤ len` bytes (a trailing odd byte counted as the code counts it) the
summing loop has returned a sum from 0 to below 2^31, the sum of the words
added; the two folding steps stay in that range as well; and `checksum`
returns a 16-bit value. -/
theorem accumulator_in_range (o : ByteOrder) (buf : List Nat) (len : Nat)
    (hb : ∀ b ∈ buf, b < 256) (hlen : len ≤ 65535) (hin : len ≤ buf.length) :
    (∀ k, k ≤ len →
        checksum_sum o (buf.take k) 0 = some ((word_sum o (buf.take k) : Nat) : Int) ∧
        ((word_sum o (buf.take k) : Nat) : Int) ≤ INT_MAX ∧
        word_sum o (buf.take k) < 2147483648) ∧
      (0 ≤ Int.shiftRight (word_sum o (buf.take len)) 16
            + Int.land (word_sum o (buf.take len)) 0xFFFF ∧
        Int.shiftRight (word_sum o (buf.take len)) 16
            + Int.land (word_sum o (buf.take len)) 0xFFFF < 2147483648 ∧
        0 ≤ (Int.shiftRight (word_sum o (buf.take len)) 16
              + Int.land (word_sum o (buf.take len)) 0xFFFF)
            + Int.shiftRight (Int.shiftRight (word_sum o (buf.take len)) 16
              + Int.land (word_sum o (buf.take len)) 0xFFFF) 16 ∧
        (Int.shiftRight (word_sum o (buf.take len)) 16
              + Int.land (word_sum o (buf.take len)) 0xFFFF)
            + Int.shiftRight (Int.shiftRight (word_sum o (buf.take len)) 16
              + Int.land (word_sum o (buf.take len)) 0xFFFF) 16 < 2147483648) ∧
      ∃ a, checksum o buf len = some a ∧ 0 ≤ a ∧ a < 65536 := by
  have hbt : ∀ k, ∀ b ∈ buf.take k, b < 256 := fun k b hbm => hb b (List.mem_of_mem_take hbm)
  have hbound : ∀ k, k ≤ len → word_sum o (buf.take k) ≤ 2147450880 := by
    intro k hk
    have h1 := word_sum_le o (buf.take k) (hbt k)
    have h2 : (buf.take k).length = k := by rw [List.length_take]; omega
    rw [h2] at h1
    omega
  refine ⟨?_, ?_, ?_⟩
  · intro k hk
    have h1 := hbound k hk
    have hsum := checksum_sum_eq o (buf.take k) 0 (by simp only [INT_MAX]; omega)
    rw [Int.zero_add] at hsum
    exact ⟨hsum, by simp only [INT_MAX]; omega, by omega⟩
  · have h1 := hbound len (le_refl _)
    rw [shiftRight_16, shiftRight_16, land_ffff _ (by omega)]
    omega
  · have h1 := hbound len (le_refl _)
    have hsum := checksum_sum_eq o (buf.take len) 0 (by simp only [INT_MAX]; omega)
    rw [Int.zero_add] at hsum
    unfold checksum
    rw [if_neg (by omega), Int.toNat_ofNat, hsum]
    dsimp only
    exact ⟨_, rfl, by omega, by omega⟩

/-- C27 on the five bytes `ff ff ff ff 01`, an odd length, on a little-endian
machine. -/
theorem accumulator_in_range_witness :
    (∀ k, k ≤ 5 →
        checksum_sum ByteOrder.little (([255, 255, 255, 255, 1] : List Nat).take k) 0
          = some ((word_sum ByteOrder.little (([255, 255, 255, 255, 1] : List Nat).take k)
              : Nat) : Int) ∧
        ((word_sum ByteOrder.little (([255, 255, 255, 255, 1] : List Nat).take k) : Nat) : Int)
          ≤ INT_MAX ∧
        word_sum ByteOrder.little (([255, 255, 255, 255, 1] : List Nat).take k) < 2147483648) ∧
      (0 ≤ Int.shiftRight
              (word_sum ByteOrder.little (([255, 255, 255, 255, 1] : List Nat).take 5)) 16
            + Int.land
              (word_sum ByteOrder.little (([255, 255, 255, 255, 1] : List Nat).take 5))
              0xFFFF ∧
        Int.shiftRight
              (word_sum ByteOrder.little (([255, 255, 255, 255, 1] : List Nat).take 5)) 16
            + Int.land
              (word_sum ByteOrder.little (([255, 255, 255, 255, 1] : List Nat).take 5))
              0xFFFF < 2147483648 ∧
        0 ≤ (Int.shiftRight
                (word_sum ByteOrder.little (([255, 255, 255, 255, 1] : List Nat).take 5)) 16
              + Int.land
                (word_sum ByteOrder.little (([255, 255, 255, 255, 1] : List Nat).take 5))
                0xFFFF)
            + Int.shiftRight (Int.shiftRight
                (word_sum ByteOrder.little (([255, 255, 255, 255, 1] : List Nat).take 5)) 16
              + Int.land
                (word_sum ByteOrder.little (([255, 255, 255, 255, 1] : List Nat).take 5))
                0xFFFF) 16 ∧
        (Int.shiftRight
                (word_sum ByteOrder.little (([255, 255, 255, 255, 1] : List Nat).take 5)) 16
              + Int.land
                (word_sum ByteOrder.little (([255, 255, 255, 255, 1] : List Nat).take 5))
                0xFFFF)
            + Int.shiftRight (Int.shiftRight
                (word_sum ByteOrder.little (([255, 255, 255, 255, 1] : List Nat).take 5)) 16
              + Int.land
                (word_sum ByteOrder.little (([255, 255, 255, 255, 1] : List Nat).take 5))
                0xFFFF) 16 < 2147483648) ∧
      ∃ a, checksum ByteOrder.little [255, 255, 255, 255, 1] (5 : Nat) = some a ∧ 0 ≤ a ∧
        a < 65536 :=
  accumulator_in_range ByteOrder.little [255, 255, 255, 255, 1] 5 (by decide) (by decide)
    (by decide)

end Rawsock
